import Mathlib

/-!
Shallow embedding of the `range-filters` repository core
(bitmap utilities, Infix Store, BST groups, X-Fast / Y-Fast tries,
Diva builder), together with proofs about the embedded operations.

Machine integers (`u64`, `u16`, `u8`) are embedded as `Nat`; wherever the
Rust code can truncate (left shifts, `as u16` / `as u32` casts) the
embedding takes the result `% 2 ^ width` explicitly.  Loops are embedded
as structural recursion with an explicit fuel that dominates the source
loop bound, so every definition evaluates by kernel reduction.
-/

namespace RF

/-! ### Bitmap utilities (src/bitmap.rs) -/

/-- Models `u64::count_ones`; fuel 64 covers every 64-bit word. -/
def popcountAux : Nat → Nat → Nat
  | _, 0 => 0
  | x, f + 1 => if x = 0 then 0 else x % 2 + popcountAux (x / 2) f

def count_ones (x : Nat) : Nat := popcountAux x 64

/-- Models `set_bit`: `data[pos/64] |= 1 << (pos % 64)`. -/
def set_bit (data : List Nat) (pos : Nat) : List Nat :=
  data.set (pos / 64) (data.getD (pos / 64) 0 ||| (1 <<< (pos % 64)))

/-- Models `get_bit`: `data[pos/64] & (1 << (pos % 64)) != 0`. -/
def get_bit (data : List Nat) (pos : Nat) : Bool :=
  data.getD (pos / 64) 0 &&& (1 <<< (pos % 64)) != 0

/-- Models `rank`: popcount of the whole words before `pos/64` plus the
masked popcount of the partial word. -/
def rank (data : List Nat) (pos : Nat) : Nat :=
  let wi := pos / 64
  let bi := pos % 64
  let count := ((List.range wi).map (fun i => count_ones (data.getD i 0))).sum
  if bi > 0 then count + count_ones (data.getD wi 0 &&& ((1 <<< bi) - 1)) else count

/-- Models the `for i in 0..64` loop of `select_in_word`. -/
def siwAux (w r : Nat) : Nat → Nat → Nat → Option Nat
  | _, _, 0 => none
  | i, count, f + 1 =>
    if w &&& (1 <<< i) != 0 then
      if count = r then some i else siwAux w r (i + 1) (count + 1) f
    else siwAux w r (i + 1) count f

def select_in_word (w r : Nat) : Option Nat := siwAux w r 0 0 64

/-- Models the word loop of `select`. -/
def selectAux : List Nat → Nat → Nat → Nat → Option Nat
  | [], _, _, _ => none
  | word :: rest, target, count, wi =>
    let ones := count_ones word
    if count + ones ≥ target then
      (select_in_word word (target - count - 1)).map (fun p => wi * 64 + p)
    else selectAux rest target (count + ones) (wi + 1)

def select (data : List Nat) (r : Nat) : Option Nat := selectAux data (r + 1) 0 0

/-- Models `rank_cached`. -/
def rank_cached (data : List Nat) (pos half_pos cached_popcount : Nat) : Nat :=
  if pos ≤ half_pos then rank data pos
  else cached_popcount + rank (data.drop (half_pos / 64)) (pos - half_pos)

/-- Models `select_cached`. -/
def select_cached (data : List Nat) (rank_val half_pos cached_popcount : Nat) : Option Nat :=
  if rank_val < cached_popcount then select data rank_val
  else (select (data.drop (half_pos / 64)) (rank_val - cached_popcount)).map
        (fun p => p + half_pos)

/-! ### Infix Store (src/infix_store.rs) -/

def TARGET_SIZE : Nat := 1024
def SIZE_GRADE_COUNT : Nat := 31

def SCALED_SIZES : List Nat :=
  [463, 488, 514, 541, 570, 600, 632, 666, 701, 738, 777, 818, 861, 907, 1024,
   1078, 1135, 1195, 1258, 1325, 1395, 1469, 1547, 1629, 1715, 1806, 1901,
   2002, 2108, 2219, 2326]

structure InfixStore where
  elem_count : Nat
  size_grade : Nat
  remainder_size : Nat
  data : List Nat
deriving DecidableEq

/-- Models the `for grade in 0..SIZE_GRADE_COUNT` loop of `choose_size_grade`,
fuel = `SIZE_GRADE_COUNT`; fuel exhaustion is the post-loop
`return SIZE_GRADE_COUNT - 1`.  `t` is the element count already cast to
`u16` by the caller. -/
def choose_size_grade_go (t : Nat) : Nat → Nat → Nat
  | _, 0 => SIZE_GRADE_COUNT - 1
  | g, f + 1 => if SCALED_SIZES.getD g 0 ≥ t then g else choose_size_grade_go t (g + 1) f

/-- Models `choose_size_grade`; `num_elements as u16` is `% 65536`. -/
def choose_size_grade (num_elements : Nat) : Nat :=
  choose_size_grade_go (num_elements % 65536) 0 SIZE_GRADE_COUNT

/-- Models `split_infix` (name changed: `(quotient, remainder)` split). -/
def split_quot_rem (inf rs : Nat) : Nat × Nat :=
  (inf >>> rs, inf &&& ((1 <<< rs) - 1))

/-- Models `u64`'s `!m` for a 64-bit mask. -/
def compl64 (m : Nat) : Nat := (2 ^ 64 - 1) ^^^ m

/-- Models `write_slot`; the two left shifts in the first word are `% 2 ^ 64`
because the Rust `u64` shifts truncate there when `off + rs > 64`. -/
def write_slot (slots : List Nat) (slot_index remainder rs : Nat) : List Nat :=
  let bit_pos := slot_index * rs
  let wi := bit_pos / 64
  let off := bit_pos % 64
  let mask := (((1 <<< rs) - 1) <<< off) % 2 ^ 64
  let w0 := slots.getD wi 0 &&& compl64 mask
  let w0 := w0 ||| ((remainder &&& ((1 <<< rs) - 1)) <<< off) % 2 ^ 64
  let slots := slots.set wi w0
  if off + rs > 64 then
    let ov := off + rs - 64
    let ovmask := (1 <<< ov) - 1
    let w1 := slots.getD (wi + 1) 0 &&& compl64 ovmask
    let w1 := w1 ||| remainder >>> (rs - ov)
    slots.set (wi + 1) w1
  else slots

/-- Models the body of `read_slot` acting on the slots slice. -/
def read_slot_raw (slots : List Nat) (slot_index rs : Nat) : Nat :=
  let bit_pos := slot_index * rs
  let wi := bit_pos / 64
  let off := bit_pos % 64
  let result := (slots.getD wi 0 >>> off) &&& ((1 <<< rs) - 1)
  if off + rs > 64 then
    let ov := off + rs - 64
    let ovmask := (1 <<< ov) - 1
    result ||| ((slots.getD (wi + 1) 0 &&& ovmask) <<< (rs - ov)) % 2 ^ 64
  else result

/-- Models a `&mut data[start..start+len]` slice update followed by the
write-back that Rust's borrow performs implicitly. -/
def updateSlice (data : List Nat) (start len : Nat) (f : List Nat → List Nat) : List Nat :=
  data.take start ++ f ((data.drop start).take len) ++ data.drop (start + len)

/-- Models a shared `&data[start..start+len]` slice. -/
def sliceOf (data : List Nat) (start len : Nat) : List Nat :=
  (data.drop start).take len

/-- Models `prev_quotient.is_some() && prev_quotient.unwrap() != quotient`. -/
def is_last_check (prevQ : Option Nat) (q : Nat) : Bool :=
  match prevQ with
  | some pq => pq != q
  | none => false

/-- Models the `for infix in infixes` loop of `load_infixes_to_store`;
returns the mutated data and the final `slot_pos`. -/
def loadAux (rs occW runS runW slotS slotW : Nat) :
    List Nat → List Nat → Nat → Option Nat → List Nat × Nat
  | data, [], slot_pos, _ => (data, slot_pos)
  | data, inf :: rest, slot_pos, prevQ =>
    let q := (split_quot_rem inf rs).1
    let r := (split_quot_rem inf rs).2
    let data := updateSlice data 1 occW (fun s => set_bit s q)
    let data :=
      if is_last_check prevQ q then
        updateSlice data runS runW (fun s => set_bit s (slot_pos - 1))
      else data
    let data := updateSlice data slotS slotW (fun s => write_slot s slot_pos r rs)
    loadAux rs occW runS runW slotS slotW data rest (slot_pos + 1) (some q)

/-- Models `compute_popcounts`; the `as u32` casts are `% 2 ^ 32`. -/
def compute_popcounts (data : List Nat) (occS runS num_slots : Nat) : List Nat :=
  let occH := TARGET_SIZE / 2
  let runH := num_slots / 2
  let occW := (TARGET_SIZE + 63) / 64
  let runW := (num_slots + 63) / 64
  let op := rank (sliceOf data occS occW) occH % 2 ^ 32
  let rp := rank (sliceOf data runS runW) runH % 2 ^ 32
  data.set 0 ((op <<< 32) ||| rp)

/-- Models `load_infixes_to_store`. -/
def load_infixes_to_store (data : List Nat) (infixes : List Nat) (rs num_slots : Nat) :
    List Nat :=
  let occW := (TARGET_SIZE + 63) / 64
  let runS := 1 + occW
  let runW := (num_slots + 63) / 64
  let slotS := runS + runW
  let slotW := (num_slots * rs + 63) / 64
  let dp := loadAux rs occW runS runW slotS slotW data infixes 0 none
  let data := dp.1
  let slot_pos := dp.2
  let data :=
    if slot_pos > 0 then updateSlice data runS runW (fun s => set_bit s (slot_pos - 1))
    else data
  compute_popcounts data 1 runS num_slots

/-- Models `InfixStore::new_with_infixes`; `infixes.len() as u16` is
`% 65536`. -/
def InfixStore.new_with_infixes (infixes : List Nat) (rs : Nat) : InfixStore :=
  let grade := choose_size_grade infixes.length
  let num_slots := SCALED_SIZES.getD grade 0
  let occW := (TARGET_SIZE + 63) / 64
  let runW := (num_slots + 63) / 64
  let slotW := (num_slots * rs + 63) / 64
  let total := 1 + occW + runW + slotW
  let data := List.replicate total 0
  if infixes.isEmpty then
    { elem_count := 0, size_grade := grade, remainder_size := rs, data := data }
  else
    { elem_count := infixes.length % 65536, size_grade := grade,
      remainder_size := rs, data := load_infixes_to_store data infixes rs num_slots }

/-- Models `get_offsets`: `(occupieds_start, runends_start, slots_start)`. -/
def InfixStore.get_offsets (st : InfixStore) : Nat × Nat × Nat :=
  let num_slots := SCALED_SIZES.getD st.size_grade 0
  let occW := (TARGET_SIZE + 63) / 64
  (1, 1 + occW, 1 + occW + (num_slots + 63) / 64)

/-- Models `is_occupied`. -/
def InfixStore.is_occupied (st : InfixStore) (quotient : Nat) : Bool :=
  get_bit (sliceOf st.data st.get_offsets.1 ((TARGET_SIZE + 63) / 64)) quotient

/-- Models `is_runend`. -/
def InfixStore.is_runend (st : InfixStore) (slot_pos : Nat) : Bool :=
  let num_slots := SCALED_SIZES.getD st.size_grade 0
  get_bit (sliceOf st.data st.get_offsets.2.1 ((num_slots + 63) / 64)) slot_pos

/-- Models `read_slot`. -/
def InfixStore.read_slot (st : InfixStore) (slot_index : Nat) : Nat :=
  let num_slots := SCALED_SIZES.getD st.size_grade 0
  read_slot_raw
    (sliceOf st.data st.get_offsets.2.2 ((num_slots * st.remainder_size + 63) / 64))
    slot_index st.remainder_size

/-! ### Balanced BST group (src/binary_search_tree.rs)

`Tree` is `Option<Box<TreeNode>>`: `leaf` is `None`.  A
`BinarySearchTreeGroup` is its `root` tree. -/

inductive Tree where
  | leaf
  | node (key : Nat) (left right : Tree) (store : Option InfixStore)
deriving DecidableEq

/-- Models Rust's stable `sort` on a `Vec<u64>`: the result is the unique
sorted permutation, here computed by insertion sort. -/
def sortKeys (l : List Nat) : List Nat := List.insertionSort (fun a b => a ≤ b) l

/-- Models `top_down_bst_insertion` on the half-open range `[start, stop)`
(the Rust `end` is inclusive, `stop = end + 1`, so `mid = (start+end)/2 =
(start + stop - 1)/2`); fuel = `stop - start` at the top call. -/
def topDownGo (keys : List Nat) : Nat → Nat → Nat → Tree
  | 0, _, _ => .leaf
  | f + 1, start, stop =>
    if start < stop then
      let mid := (start + stop - 1) / 2
      .node (keys.getD mid 0) (topDownGo keys f start mid) (topDownGo keys f (mid + 1) stop)
        none
    else .leaf

/-- Models `BinarySearchTreeGroup::new_with_keys`. -/
def Tree.new_with_keys (keys : List Nat) : Tree :=
  if keys.isEmpty then .leaf
  else
    let sorted := sortKeys keys
    topDownGo sorted sorted.length 0 sorted.length

/-- Models `contains_recursive`. -/
def Tree.contains : Tree → Nat → Bool
  | .leaf, _ => false
  | .node k l r _, key =>
    if key = k then true else if key < k then l.contains key else r.contains key

/-- Models `predecessor_recursive` (carries the best candidate). -/
def Tree.predecessorAux : Tree → Nat → Option Nat → Option Nat
  | .leaf, _, best => best
  | .node k l r _, key, best =>
    if k = key then some k
    else if key < k then l.predecessorAux key best
    else r.predecessorAux key (some k)

/-- Models `BinarySearchTreeGroup::predecessor`. -/
def Tree.predecessor (t : Tree) (key : Nat) : Option Nat := t.predecessorAux key none

/-- Models `successor_recursive`. -/
def Tree.successorAux : Tree → Nat → Option Nat → Option Nat
  | .leaf, _, best => best
  | .node k l r _, key, best =>
    if k = key then some k
    else if key < k then l.successorAux key (some k)
    else r.successorAux key best

/-- Models `BinarySearchTreeGroup::successor`. -/
def Tree.successor (t : Tree) (key : Nat) : Option Nat := t.successorAux key none

/-- Models `get_infix_store_recursive`. -/
def Tree.get_infix_store : Tree → Nat → Option InfixStore
  | .leaf, _ => none
  | .node k l r st, key =>
    if key = k then st
    else if key < k then l.get_infix_store key
    else r.get_infix_store key

/-- Models `set_infix_store` = `find_node_mut` followed by the field
assignment; when the search fails nothing is written. -/
def Tree.set_infix_store : Tree → Nat → InfixStore → Tree
  | .leaf, _, _ => .leaf
  | .node k l r st, key, s =>
    if key = k then .node k l r (some s)
    else if key < k then .node k (l.set_infix_store key s) r st
    else .node k l (r.set_infix_store key s) st

/-! ### X-Fast Trie (src/x_fast_trie.rs)

Representatives (`Arc<RwLock<RepNode>>`) are identified by their key: the
trie is only ever used with distinct keys, every `min_rep`/`max_rep`/list
pointer stores the key of the node it aims at, and the mutable node state
lives in the `reps` map. -/

def ROOT_KEY : Nat := 67

structure RepNode where
  key : Nat
  left : Option Nat
  right : Option Nat
  bst_group : Option Tree
deriving DecidableEq

/-- Models `XFastValue`; the `left_child`/`right_child` fields hold the
cloned snapshots the source stores behind fresh `Arc`s (never read by any
query). -/
inductive XFastValue where
  | mk (left_child right_child : Option XFastValue) (min_rep max_rep : Option Nat)

def XFastValue.min_rep : XFastValue → Option Nat
  | .mk _ _ m _ => m

def XFastValue.max_rep : XFastValue → Option Nat
  | .mk _ _ _ m => m

abbrev XTable := List (Nat × XFastValue)

/-- Models `DashMap::insert` (replace any existing entry). -/
def tbl_insert (t : XTable) (k : Nat) (v : XFastValue) : XTable :=
  (k, v) :: t.filter (fun e => e.1 != k)

/-- Models `DashMap::get_mut` followed by a field update; absent key is a
no-op (the source only calls this where the entry exists). -/
def tbl_update (t : XTable) (k : Nat) (f : XFastValue → XFastValue) : XTable :=
  t.map (fun e => if e.1 = k then (e.1, f e.2) else e)

structure XFastTrie where
  levels : Nat → XTable
  reps : Nat → Option RepNode
  head_rep : Option Nat
  tail_rep : Option Nat
  no_levels : Nat

/-- Models `XFastTrie::new`. -/
def XFastTrie.new (w : Nat) : XFastTrie :=
  { levels := fun i => if i = 0 then [(ROOT_KEY, XFastValue.mk none none none none)] else []
    reps := fun _ => none
    head_rep := none
    tail_rep := none
    no_levels := w }

def upd_level (t : XFastTrie) (i : Nat) (tb : XTable) : XFastTrie :=
  { t with levels := fun j => if j = i then tb else t.levels j }

/-- Models the `while low < high` binary search of
`find_longest_prefix_length`; fuel = `no_levels` bounds the iteration
count since `high - low` shrinks every step. -/
def bsearch_go (t : XFastTrie) (key : Nat) : Nat → Nat → Nat → Nat
  | 0, low, _ => low
  | f + 1, low, high =>
    if low < high then
      let mid := (low + high + 1) / 2
      let pfx := key >>> (t.no_levels - mid)
      if (List.lookup pfx (t.levels mid)).isSome then bsearch_go t key f mid high
      else bsearch_go t key f low (mid - 1)
    else low

/-- Models `find_longest_prefix_length`. -/
def XFastTrie.find_longest_prefix_length (t : XFastTrie) (key : Nat) : Nat :=
  if (t.levels 1).isEmpty then 0
  else bsearch_go t key t.no_levels 0 t.no_levels

/-- Models the code of `predecessor` after the two
`longest_prefix_length == 0` special cases. -/
def XFastTrie.pred_rest (t : XFastTrie) (key L : Nat) : Option Nat :=
  let pfx := key >>> (t.no_levels - L)
  match List.lookup pfx (t.levels L) with
  | none => none
  | some v =>
    match v.max_rep with
    | some m =>
      if m ≤ key then some m
      else
        match v.min_rep with
        | some mn =>
          if mn ≤ key then some mn
          else
            match t.reps mn with
            | some r => r.left
            | none => none
        | none => none
    | none =>
      match v.min_rep with
      | some mn =>
        if mn ≤ key then some mn
        else
          match t.reps mn with
          | some r => r.left
          | none => none
      | none => none

/-- Models `XFastTrie::predecessor`. -/
def XFastTrie.predecessor (t : XFastTrie) (key : Nat) : Option Nat :=
  if (t.levels 1).isEmpty then none
  else
    let L := t.find_longest_prefix_length key
    if L = 0 ∧ key >>> (t.no_levels - 1) = 1 then
      match List.lookup 0 (t.levels 1) with
      | some v => v.max_rep
      | none => t.pred_rest key L
    else if L = 0 ∧ key >>> (t.no_levels - 1) = 0 then none
    else t.pred_rest key L

/-- Models the code of `successor` after the special cases. -/
def XFastTrie.succ_rest (t : XFastTrie) (key L : Nat) : Option Nat :=
  let pfx := key >>> (t.no_levels - L)
  match List.lookup pfx (t.levels L) with
  | none => none
  | some v =>
    match v.min_rep with
    | some mn =>
      if mn ≥ key then some mn
      else
        match v.max_rep with
        | some m =>
          if m ≥ key then some m
          else
            match t.reps m with
            | some r => r.right
            | none => none
        | none => none
    | none =>
      match v.max_rep with
      | some m =>
        if m ≥ key then some m
        else
          match t.reps m with
          | some r => r.right
          | none => none
      | none => none

/-- Models `XFastTrie::successor`. -/
def XFastTrie.successor (t : XFastTrie) (key : Nat) : Option Nat :=
  if (t.levels 1).isEmpty then none
  else
    let L := t.find_longest_prefix_length key
    if L = 0 ∧ key >>> (t.no_levels - 1) = 1 then none
    else if L = 0 ∧ key >>> (t.no_levels - 1) = 0 then
      match List.lookup 1 (t.levels 1) with
      | some v => v.min_rep
      | none => t.succ_rest key L
    else t.succ_rest key L

/-- Models `XFastTrie::lookup` (the debug assertion is dropped). -/
def XFastTrie.lookup (t : XFastTrie) (key : Nat) : Option Nat :=
  match List.lookup key (t.levels t.no_levels) with
  | none => none
  | some v => v.min_rep

/-- Step 3 body of `insert` for one `prefix_length`: insert the fresh value
and update the parent's child edge (root edge for `prefix_length = 1`,
where the bit is `key >> (w - 1)` without `& 1`, as in the source). -/
def insert_step3 (t : XFastTrie) (key pl : Nat) : XFastTrie :=
  let pfx := key >>> (t.no_levels - pl)
  let nv := XFastValue.mk none none (some key) (some key)
  let t1 := upd_level t pl (tbl_insert (t.levels pl) pfx nv)
  if pl > 1 then
    let parent_pfx := key >>> (t.no_levels - (pl - 1))
    let bit := (key >>> (t.no_levels - pl)) &&& 1
    upd_level t1 (pl - 1) (tbl_update (t1.levels (pl - 1)) parent_pfx (fun pv =>
      match pv with
      | .mk lc rc mn mx =>
        if bit = 0 then .mk (some nv) rc mn mx else .mk lc (some nv) mn mx))
  else
    let bit := key >>> (t.no_levels - pl)
    upd_level t1 0 (tbl_update (t1.levels 0) ROOT_KEY (fun pv =>
      match pv with
      | .mk lc rc mn mx =>
        if bit = 0 then .mk (some nv) rc mn mx else .mk lc (some nv) mn mx))

/-- Step 4 body of `insert` for one `prefix_length`: conditional min/max
update (`unwrap_or(false)` keeps a `none` pointer unchanged). -/
def insert_step4 (t : XFastTrie) (key pl : Nat) : XFastTrie :=
  let pfx := key >>> (t.no_levels - pl)
  upd_level t pl (tbl_update (t.levels pl) pfx (fun v =>
    match v with
    | .mk lc rc mn mx =>
      let mn' := match mn with
        | some m => if key < m then some key else some m
        | none => none
      let mx' := match mx with
        | some m => if m < key then some key else some m
        | none => none
      .mk lc rc mn' mx'))

/-- Models `XFastTrie::insert`. -/
def XFastTrie.insert (t : XFastTrie) (key : Nat) : XFastTrie :=
  let L := t.find_longest_prefix_length key
  let predK := t.predecessor key
  let succK := t.successor key
  let t3 := (List.range' (L + 1) (t.no_levels - L)).foldl
    (fun acc pl => insert_step3 acc key pl) t
  let t4 :=
    if L > 0 then
      ((List.range' 1 (t.no_levels - 1)).reverse).foldl
        (fun acc pl => insert_step4 acc key pl) t3
    else t3
  let reps' : Nat → Option RepNode := fun k =>
    if k = key then
      some { key := key, left := predK, right := succK, bst_group := some Tree.leaf }
    else if some k = predK then (t4.reps k).map (fun r => { r with right := some key })
    else if some k = succK then (t4.reps k).map (fun r => { r with left := some key })
    else t4.reps k
  let head' := match t.head_rep with
    | some h => if key < h then some key else some h
    | none => some key
  let tail' := match t.tail_rep with
    | some tl => if tl < key then some key else some tl
    | none => some key
  { levels := t4.levels, reps := reps', head_rep := head', tail_rep := tail',
    no_levels := t.no_levels }

/-- The trie after steps 3 and 4 of `insert` (before the representative,
head and tail updates); equal by unfolding to the `t4` of `insert`. -/
def insert_t4 (t : XFastTrie) (key : Nat) : XFastTrie :=
  let L := t.find_longest_prefix_length key
  let t3 := (List.range' (L + 1) (t.no_levels - L)).foldl
    (fun acc pl => insert_step3 acc key pl) t
  if L > 0 then
    ((List.range' 1 (t.no_levels - 1)).reverse).foldl
      (fun acc pl => insert_step4 acc key pl) t3
  else t3

def XFastTrie.insertAll (t : XFastTrie) (ks : List Nat) : XFastTrie :=
  ks.foldl XFastTrie.insert t

/-- The trie obtained by inserting `ks` in order into `XFastTrie.new w`. -/
def buildX (w : Nat) (ks : List Nat) : XFastTrie :=
  (XFastTrie.new w).insertAll ks

/-- Walk the representative list to the right (`len`-style traversal);
fuel bounds the number of visited nodes. -/
def walkRGo (t : XFastTrie) : Option Nat → Nat → List Nat
  | _, 0 => []
  | none, _ => []
  | some k, f + 1 => k :: walkRGo t ((t.reps k).bind (fun r => r.right)) f

/-- Walk the representative list to the left. -/
def walkLGo (t : XFastTrie) : Option Nat → Nat → List Nat
  | _, 0 => []
  | none, _ => []
  | some k, f + 1 => k :: walkLGo t ((t.reps k).bind (fun r => r.left)) f

/-! ### Y-Fast Trie (src/y_fast_trie.rs) -/

structure YFastTrie where
  x_fast_trie : XFastTrie

def YFastTrie.new (w : Nat) : YFastTrie := ⟨XFastTrie.new w⟩

/-- Models Rust `Vec::dedup` (removes consecutive duplicates). -/
def dedupAdj : List Nat → List Nat
  | [] => []
  | [a] => [a]
  | a :: b :: rest => if a = b then dedupAdj (b :: rest) else a :: dedupAdj (b :: rest)

/-- Models the `step_by(bucket_size)` chunking of the sorted keys;
fuel = list length. -/
def chunksGo : Nat → List Nat → Nat → List (List Nat)
  | 0, _, _ => []
  | _, [], _ => []
  | f + 1, l, n => l.take n :: chunksGo f (l.drop n) n

/-- Attaching a BST group to the representative found by `lookup`
(step 5 of `YFastTrie::new_with_keys`). -/
def yfast_attach (t : XFastTrie) (boundary : Nat) (g : Tree) : XFastTrie :=
  match t.lookup boundary with
  | some rk =>
    { t with reps := fun k =>
        if k = rk then (t.reps rk).map (fun r => { r with bst_group := some g })
        else t.reps k }
  | none => t

/-- Models `YFastTrie::new_with_keys`. -/
def YFastTrie.new_with_keys (keys : List Nat) (w : Nat) : YFastTrie :=
  if keys.isEmpty then YFastTrie.new w
  else
    let sorted := dedupAdj (sortKeys keys)
    let gsize := max w 8
    let chunks := chunksGo sorted.length sorted gsize
    ⟨chunks.foldl (fun t chunk =>
      let boundary := chunk.headD 0
      let t := t.insert boundary
      let g := Tree.new_with_keys chunk
      yfast_attach t boundary g) (XFastTrie.new w)⟩

/-- Models `YFastTrie::predecessor`: when the representative carries a BST
group the group's answer is returned directly (even when it is `none`);
the `Some(rep.key)` fallback is reached only with no group attached. -/
def YFastTrie.predecessor (t : YFastTrie) (key : Nat) : Option Nat :=
  match t.x_fast_trie.predecessor key with
  | none => none
  | some pk =>
    match t.x_fast_trie.reps pk with
    | none => none
    | some r =>
      match r.bst_group with
      | some g => g.predecessor key
      | none => some r.key

/-- Models `YFastTrie::successor`. -/
def YFastTrie.successor (t : YFastTrie) (key : Nat) : Option Nat :=
  match t.x_fast_trie.predecessor key with
  | some pk =>
    match t.x_fast_trie.reps pk with
    | none => none
    | some r =>
      match (match r.bst_group with | some g => g.successor key | none => none) with
      | some res => some res
      | none =>
        match r.right with
        | some nk =>
          match t.x_fast_trie.reps nk with
          | some nr => some nr.key
          | none => none
        | none => none
  | none =>
    match t.x_fast_trie.head_rep with
    | some h => some h
    | none => none

/-- Models `YFastTrie::contains`. -/
def YFastTrie.contains (t : YFastTrie) (key : Nat) : Bool :=
  if (t.x_fast_trie.lookup key).isSome then true
  else
    match t.x_fast_trie.predecessor key with
    | some pk =>
      match t.x_fast_trie.reps pk with
      | some r =>
        match r.bst_group with
        | some g => g.contains key
        | none => false
      | none => false
    | none => false

/-- Modelled from the spec: `YFastTrie::set_infix_store` is called by
`Diva::new_with_keys` but its definition is not among the provided
sources.  Spec section 2 ("for each boundary, an Infix Store is attached
via the X-Fast Trie's representative lookup") and section 4.6 step 6
("attach it to the Y-Fast Trie at the boundary b_i") describe it: look up
the boundary's representative and store the value at the boundary key
inside the representative's BST group. -/
def YFastTrie.set_infix_store (t : YFastTrie) (key : Nat) (s : InfixStore) : YFastTrie :=
  match t.x_fast_trie.lookup key with
  | none => t
  | some rk =>
    ⟨{ t.x_fast_trie with reps := fun k =>
        if k = rk then
          (t.x_fast_trie.reps rk).map (fun r =>
            { r with bst_group := r.bst_group.map (fun g => g.set_infix_store key s) })
        else t.x_fast_trie.reps k }⟩

/-! ### Diva builder (src/diva.rs, src/utils.rs)

`fpr` is an `f64` used only through `choose_remainder_size`; following the
shallow-embedding discipline for floating point, the builder is modelled
with the resulting `remainder_size` as its parameter. -/

/-- Bit length of a 64-bit word (fuel 64). -/
def bitLenAux : Nat → Nat → Nat
  | _, 0 => 0
  | x, f + 1 => if x = 0 then 0 else bitLenAux (x / 2) f + 1

def bitLen (x : Nat) : Nat := bitLenAux x 64

/-- Models `u64::leading_zeros`. -/
def leading_zeros64 (x : Nat) : Nat := 64 - bitLen x

/-- Models `utils::longest_common_prefix_length`. -/
def longest_common_prefix_length (k1 k2 : Nat) : Nat :=
  leading_zeros64 (k1 ^^^ k2)

def BASE_IMPLICIT_SIZE : Nat := 10

namespace Diva

/-- Models `Diva::get_msb`: the bit of `key_1` at the first position where
`key_1` and `key_2` differ. -/
def get_msb (k1 k2 : Nat) : Nat :=
  let shared := longest_common_prefix_length k1 k2
  if shared ≥ 64 then 0
  else (k1 >>> (63 - shared)) &&& 1

/-- Models the `for bit_pos in start_pos..64` loop of
`compute_redundant_bits`; fuel 64. -/
def crbAux (k1 k2 : Nat) : Nat → Nat → Nat
  | _, 0 => 0
  | bit_pos, f + 1 =>
    if bit_pos < 64 then
      let shift := 63 - bit_pos
      if (k1 >>> shift) &&& 1 = 0 ∧ (k2 >>> shift) &&& 1 = 1 then
        1 + crbAux k1 k2 (bit_pos + 1) f
      else 0
    else 0

/-- Models `Diva::compute_redundant_bits`. -/
def compute_redundant_bits (k1 k2 shared : Nat) : Nat :=
  if shared ≥ 63 then 0 else crbAux k1 k2 (shared + 1) 64

/-- Models `Diva::get_shared_ignore_implicit_size`. -/
def get_shared_ignore_implicit_size (k1 k2 : Nat) (use_redundant : Bool) :
    Nat × Nat × Nat :=
  let shared := longest_common_prefix_length k1 k2
  let red := if use_redundant then compute_redundant_bits k1 k2 shared else 0
  let bits_used := shared + 1 + red
  if bits_used ≥ 64 then (shared, red, 0)
  else
    let remaining := 64 - bits_used
    if remaining < BASE_IMPLICIT_SIZE then (shared, red, remaining)
    else (shared, red, BASE_IMPLICIT_SIZE)

/-- Models `Diva::extract_partial_key`. -/
def extract_partial_key (key shared red qb rb msb : Nat) : Nat :=
  let start_bit := shared + 1 + red
  if start_bit ≥ 64 then msb
  else
    let remaining := 64 - start_bit
    let bits_to_extract := min (qb + rb) remaining
    if bits_to_extract = 0 then msb
    else
      let shift := 64 - start_bit - bits_to_extract
      let extracted := (key >>> shift) &&& ((1 <<< bits_to_extract) - 1)
      (msb <<< (qb + rb)) ||| extracted

end Diva

/-- Models `Iterator::step_by(n)` on a list (first element kept, then every
`n`-th); fuel = list length. -/
def everyNthGo : Nat → List Nat → Nat → List Nat
  | 0, _, _ => []
  | _, [], _ => []
  | f + 1, a :: rest, n => a :: everyNthGo f (rest.drop (n - 1)) n

def everyNth (l : List Nat) (n : Nat) : List Nat := everyNthGo l.length l n

/-- The infix list `Diva::new_with_keys` builds for the boundary pair
`(sampled[i], sampled[i+1])`. -/
def divaInfixesForPair (sorted sampled : List Nat) (ts rs i : Nat) : List Nat :=
  let pred := sampled.getD i 0
  let succ := sampled.getD (i + 1) 0
  let p := Diva.get_shared_ignore_implicit_size pred succ false
  let start_idx := i * ts + 1
  let end_idx := min ((i + 1) * ts) sorted.length
  (List.range' start_idx (end_idx - start_idx)).map (fun j =>
    let key := sorted.getD j 0
    Diva.extract_partial_key key p.1 p.2.1 p.2.2 rs (Diva.get_msb pred key))

structure Diva where
  y_fast_trie : YFastTrie
  target_size : Nat
  remainder_size : Nat

/-- Models `Diva::new_with_keys` (with `remainder_size` precomputed from
`fpr`, see above). -/
def Diva.new_with_keys (keys : List Nat) (ts rs : Nat) : Diva :=
  let sorted := dedupAdj (sortKeys keys)
  let sampled := everyNth sorted ts
  let y := YFastTrie.new_with_keys sampled 64
  let y := (List.range (sampled.length - 1)).foldl (fun y i =>
    let infixes := divaInfixesForPair sorted sampled ts rs i
    if infixes.isEmpty then y
    else y.set_infix_store (sampled.getD i 0) (InfixStore.new_with_infixes infixes rs)) y
  { y_fast_trie := y, target_size := ts, remainder_size := rs }

/-! ### Specification-side helper functions -/

/-- Maximum of a list as an `Option`. -/
def listMaxD : List Nat → Option Nat
  | [] => none
  | x :: xs =>
    match listMaxD xs with
    | none => some x
    | some m => some (max x m)

/-- Minimum of a list as an `Option`. -/
def listMinD : List Nat → Option Nat
  | [] => none
  | x :: xs =>
    match listMinD xs with
    | none => some x
    | some m => some (min x m)

/-- Largest element `≤ q`. -/
def maxLe (ks : List Nat) (q : Nat) : Option Nat :=
  listMaxD (ks.filter (fun x => decide (x ≤ q)))

/-- Smallest element `≥ q`. -/
def minGe (ks : List Nat) (q : Nat) : Option Nat :=
  listMinD (ks.filter (fun x => decide (q ≤ x)))

/-- Largest element `< q`. -/
def maxLt (ks : List Nat) (q : Nat) : Option Nat :=
  listMaxD (ks.filter (fun x => decide (x < q)))

/-- Smallest element `> q`. -/
def minGt (ks : List Nat) (q : Nat) : Option Nat :=
  listMinD (ks.filter (fun x => decide (q < x)))

/-- The inserted keys whose top `ℓ` bits (out of `w`) equal `p`. -/
def coneOf (w : Nat) (ks : List Nat) (ℓ p : Nat) : List Nat :=
  ks.filter (fun k => decide (k >>> (w - ℓ) = p))

/-- Some inserted key shares the query's top-`l` bits. -/
def Matching (w : Nat) (ks : List Nat) (key l : Nat) : Prop :=
  ∃ k ∈ ks, k >>> (w - l) = key >>> (w - l)

/-- The `(min_rep, max_rep)` view of a table entry. -/
def mmOf : Option XFastValue → Option (Option Nat × Option Nat)
  | none => none
  | some v => some (v.min_rep, v.max_rep)

/-- The conditional min update performed by insert step 4. -/
def mmUpdMin (key : Nat) : Option Nat → Option Nat
  | some m => if key < m then some key else some m
  | none => none

/-- The conditional max update performed by insert step 4. -/
def mmUpdMax (key : Nat) : Option Nat → Option Nat
  | some m => if m < key then some key else some m
  | none => none

/-- The structural invariant tying an X-Fast trie built by insertions of
`ks` (distinct `w`-bit keys) to the insert set: each level table holds
exactly the prefixes of inserted keys with the cone extrema as
`min_rep`/`max_rep`, the representatives form the sorted doubly linked
list, and head/tail are the overall extrema. -/
structure XInv (w : Nat) (ks : List Nat) (t : XFastTrie) : Prop where
  wlev : t.no_levels = w
  lev_mem : ∀ ℓ p, 1 ≤ ℓ → ℓ ≤ w →
    ((List.lookup p (t.levels ℓ)).isSome = true ↔ ∃ k ∈ ks, k >>> (w - ℓ) = p)
  lev_minmax : ∀ ℓ p v, 1 ≤ ℓ → ℓ ≤ w → List.lookup p (t.levels ℓ) = some v →
    v.min_rep = listMinD (coneOf w ks ℓ p) ∧
    v.max_rep = listMaxD (coneOf w ks ℓ p)
  reps_mem : ∀ k, ((t.reps k).isSome = true ↔ k ∈ ks)
  reps_val : ∀ k r, t.reps k = some r →
    r.key = k ∧ r.left = maxLt ks k ∧ r.right = minGt ks k
  head_eq : t.head_rep = listMinD ks
  tail_eq : t.tail_rep = listMaxD ks
  lev_empty : ks = [] → ∀ ℓ, 1 ≤ ℓ → t.levels ℓ = []

/-! ## Proofs -/

/-! ### C10: `set_infix_store` on an absent key is a no-op -/

/-- Claim C10: for every BST group and key `k` not present in the tree,
`set_infix_store(k, s)` leaves the tree completely unchanged and
`get_infix_store(k)` still returns absent afterwards (no error is
signalled: the operation is a total function). -/
theorem set_infix_store_absent_noop (t : Tree) (k : Nat) (s : InfixStore)
    (h : t.contains k = false) :
    t.set_infix_store k s = t ∧ (t.set_infix_store k s).get_infix_store k = none := by
  induction t with
  | leaf => simp [Tree.set_infix_store, Tree.get_infix_store]
  | node key l r st ihl ihr =>
    simp only [Tree.contains] at h
    by_cases h1 : k = key
    · simp [h1] at h
    · by_cases h2 : k < key
      · have hl := ihl (by simpa [h1, h2] using h)
        have hget : l.get_infix_store k = none := by rw [← hl.1]; exact hl.2
        simp [Tree.set_infix_store, Tree.get_infix_store, h1, h2, hl.1, hget]
      · have hr := ihr (by simpa [h1, h2] using h)
        have hget : r.get_infix_store k = none := by rw [← hr.1]; exact hr.2
        simp [Tree.set_infix_store, Tree.get_infix_store, h1, h2, hr.1, hget]

/-- Witness for C10 at the tree built from `[10, 20, 30]` and the absent
key `15`. -/
theorem set_infix_store_absent_noop_witness :
    (Tree.new_with_keys [10, 20, 30]).contains 15 = false ∧
    ((Tree.new_with_keys [10, 20, 30]).set_infix_store 15 ⟨0, 0, 0, []⟩ =
        Tree.new_with_keys [10, 20, 30] ∧
      ((Tree.new_with_keys [10, 20, 30]).set_infix_store 15
          ⟨0, 0, 0, []⟩).get_infix_store 15 = none) :=
  ⟨by decide, set_infix_store_absent_noop _ 15 ⟨0, 0, 0, []⟩ (by decide)⟩

/-! ### C7: size-grade selection -/

/-- The scan of `choose_size_grade_go` returns the first grade at or above
`g` whose table entry reaches `t`, provided one exists within the fuel. -/
theorem choose_size_grade_go_found (t : Nat) :
    ∀ f g, (∀ g' < g, SCALED_SIZES.getD g' 0 < t) →
      (∃ j, g ≤ j ∧ j < g + f ∧ t ≤ SCALED_SIZES.getD j 0) →
      t ≤ SCALED_SIZES.getD (choose_size_grade_go t g f) 0 ∧
        ∀ g' < choose_size_grade_go t g f, SCALED_SIZES.getD g' 0 < t := by
  intro f
  induction f with
  | zero =>
    intro g _ hex
    obtain ⟨j, hj1, hj2, _⟩ := hex
    omega
  | succ f ih =>
    intro g hlow hex
    rw [choose_size_grade_go]
    by_cases hg : SCALED_SIZES.getD g 0 ≥ t
    · rw [if_pos hg]
      exact ⟨hg, hlow⟩
    · rw [if_neg hg]
      have hlow' : ∀ g' < g + 1, SCALED_SIZES.getD g' 0 < t := by
        intro g' hg'
        rcases Nat.lt_succ_iff_lt_or_eq.mp hg' with h | h
        · exact hlow g' h
        · subst h; omega
      have hex' : ∃ j, g + 1 ≤ j ∧ j < g + 1 + f ∧ t ≤ SCALED_SIZES.getD j 0 := by
        obtain ⟨j, hj1, hj2, hj3⟩ := hex
        refine ⟨j, ?_, by omega, hj3⟩
        rcases Nat.eq_or_lt_of_le hj1 with h | h
        · subst h; omega
        · omega
      exact ih (g + 1) hlow' hex'

/-- When no grade reaches `t`, the scan falls through to the maximum
grade. -/
theorem choose_size_grade_go_fallthrough (t : Nat)
    (hall : ∀ j, SCALED_SIZES.getD j 0 < t) :
    ∀ f g, choose_size_grade_go t g f = SIZE_GRADE_COUNT - 1 := by
  intro f
  induction f with
  | zero => intro g; rfl
  | succ f ih =>
    intro g
    have := hall g
    rw [choose_size_grade_go, if_neg (by omega), ih]

/-- Claim C7 (amended): for every input infix count below 2^16 (the count
is compared after a cast to `u16`), `InfixStore::new_with_infixes` selects
`size_grade` as the smallest grade whose `SCALED_SIZES` entry is at least
the count, and clamps to the maximum grade 30 when the count exceeds
`SCALED_SIZES[30] = 2326`. -/
theorem choose_size_grade_smallest (infixes : List Nat) (rs : Nat)
    (hn : infixes.length < 65536) :
    (InfixStore.new_with_infixes infixes rs).size_grade =
        choose_size_grade infixes.length ∧
    (infixes.length ≤ 2326 →
      infixes.length ≤ SCALED_SIZES.getD (choose_size_grade infixes.length) 0 ∧
        ∀ g' < choose_size_grade infixes.length,
          SCALED_SIZES.getD g' 0 < infixes.length) ∧
    (2326 < infixes.length → choose_size_grade infixes.length = 30) := by
  refine ⟨?_, ?_, ?_⟩
  · by_cases h : infixes.isEmpty <;> simp [InfixStore.new_with_infixes, h]
  · intro hle
    have hmod : infixes.length % 65536 = infixes.length := Nat.mod_eq_of_lt hn
    have := choose_size_grade_go_found infixes.length SIZE_GRADE_COUNT 0
      (by omega)
      ⟨30, by omega, by norm_num [SIZE_GRADE_COUNT], by simpa [SCALED_SIZES] using hle⟩
    simpa [choose_size_grade, hmod] using this
  · intro hgt
    have hmod : infixes.length % 65536 = infixes.length := Nat.mod_eq_of_lt hn
    have hall : ∀ j, SCALED_SIZES.getD j 0 < infixes.length := by
      intro j
      have hmax : SCALED_SIZES.getD j 0 ≤ 2326 := by
        rcases Nat.lt_or_ge j 31 with h | h
        · interval_cases j <;> simp [SCALED_SIZES]
        · rw [List.getD_eq_default]
          · omega
          · simpa [SCALED_SIZES] using h
      omega
    have := choose_size_grade_go_fallthrough infixes.length hall SIZE_GRADE_COUNT 0
    simpa [choose_size_grade, hmod, SIZE_GRADE_COUNT] using this

/-- Witness for C7 at a concrete five-element input. -/
theorem choose_size_grade_smallest_witness :
    (List.replicate 5 (0 : Nat)).length < 65536 ∧
    ((InfixStore.new_with_infixes (List.replicate 5 0) 8).size_grade =
        choose_size_grade (List.replicate 5 (0 : Nat)).length ∧
      ((List.replicate 5 (0 : Nat)).length ≤ 2326 →
        (List.replicate 5 (0 : Nat)).length ≤
            SCALED_SIZES.getD (choose_size_grade (List.replicate 5 (0 : Nat)).length) 0 ∧
          ∀ g' < choose_size_grade (List.replicate 5 (0 : Nat)).length,
            SCALED_SIZES.getD g' 0 < (List.replicate 5 (0 : Nat)).length) ∧
      (2326 < (List.replicate 5 (0 : Nat)).length →
        choose_size_grade (List.replicate 5 (0 : Nat)).length = 30)) :=
  ⟨by decide, choose_size_grade_smallest (List.replicate 5 0) 8 (by decide)⟩

/-- Counterexample for C7 as stated: the infix count 65536 exceeds 2326,
yet the selected grade is 0 rather than the maximum grade 30, because the
comparison happens after the count is cast to `u16`. -/
theorem choose_size_grade_u16_wrap :
    2326 < 65536 ∧ choose_size_grade 65536 = 0 ∧ choose_size_grade 65536 ≠ 30 := by
  decide

/-! ### C4: Y-Fast predecessor does not fall back to the boundary key -/

/-- Claim C4 (amended): when the X-Fast predecessor boundary of `k` exists
and its representative carries a BST group whose `predecessor(k)` is
absent, `YFastTrie::predecessor(k)` returns that absent result directly;
the fallback to the boundary's key is reached only when no BST group is
attached (which `XFastTrie::insert` never produces). -/
theorem yfast_pred_group_absent (t : YFastTrie) (q pk : Nat) (r : RepNode) (g : Tree)
    (hp : t.x_fast_trie.predecessor q = some pk)
    (hr : t.x_fast_trie.reps pk = some r)
    (hg : r.bst_group = some g)
    (hnone : g.predecessor q = none) :
    t.predecessor q = none := by
  simp [YFastTrie.predecessor, hp, hr, hg, hnone]

/-- Witness for C4's amended theorem: a singleton trie made by a raw
X-Fast insert; the representative's group is the empty tree attached by
`insert`, and the query 7 gets an absent answer. -/
theorem yfast_pred_group_absent_witness :
    (⟨(XFastTrie.new 8).insert 5⟩ : YFastTrie).x_fast_trie.predecessor 7 = some 5 ∧
    (⟨(XFastTrie.new 8).insert 5⟩ : YFastTrie).x_fast_trie.reps 5 =
      some ⟨5, none, none, some Tree.leaf⟩ ∧
    Tree.predecessor Tree.leaf 7 = none ∧
    (⟨(XFastTrie.new 8).insert 5⟩ : YFastTrie).predecessor 7 = none :=
  ⟨by decide, by decide, by decide,
    yfast_pred_group_absent ⟨(XFastTrie.new 8).insert 5⟩ 7 5
      ⟨5, none, none, some Tree.leaf⟩ Tree.leaf (by decide) (by decide) rfl rfl⟩

/-- Counterexample for C4 as stated: for the same trie, the X-Fast
predecessor boundary of 7 exists (key 5), the boundary representative's
BST group has no key at most 7, yet `YFastTrie::predecessor 7` is absent
rather than the boundary key 5. -/
theorem yfast_pred_no_boundary_fallback :
    (⟨(XFastTrie.new 8).insert 5⟩ : YFastTrie).x_fast_trie.predecessor 7 = some 5 ∧
    ((⟨(XFastTrie.new 8).insert 5⟩ : YFastTrie).x_fast_trie.reps 5).map
        (fun r => r.bst_group.map (fun g => g.predecessor 7)) = some (some none) ∧
    (⟨(XFastTrie.new 8).insert 5⟩ : YFastTrie).predecessor 7 ≠ some 5 := by
  refine ⟨by decide, by decide, ?_⟩
  decide

/-! ### C3: the MSB placed on an extracted infix -/

theorem bitLenAux_zero : ∀ f, bitLenAux 0 f = 0
  | 0 => rfl
  | _ + 1 => rfl

/-- Bounds for the fueled bit length. -/
theorem bitLenAux_spec : ∀ f x, x < 2 ^ f → x ≠ 0 →
    1 ≤ bitLenAux x f ∧ bitLenAux x f ≤ f ∧
      2 ^ (bitLenAux x f - 1) ≤ x ∧ x < 2 ^ bitLenAux x f := by
  intro f
  induction f with
  | zero => intro x hx hx0; simp at hx; omega
  | succ f ih =>
    intro x hx hx0
    rw [bitLenAux, if_neg hx0]
    by_cases hy : x / 2 = 0
    · have hx1 : x = 1 := by omega
      subst hx1
      rw [hy, bitLenAux_zero]
      refine ⟨by omega, by omega, by norm_num, by norm_num⟩
    · have hy2 : x / 2 < 2 ^ f := by
        have h2 : 2 ^ (f + 1) = 2 * 2 ^ f := by rw [pow_succ]; ring
        omega
      obtain ⟨h1, h2, h3, h4⟩ := ih (x / 2) hy2 hy
      refine ⟨by omega, by omega, ?_, ?_⟩
      · have hps : 2 ^ (bitLenAux (x / 2) f + 1 - 1) = 2 * 2 ^ (bitLenAux (x / 2) f - 1) := by
          have : bitLenAux (x / 2) f + 1 - 1 = (bitLenAux (x / 2) f - 1) + 1 := by omega
          rw [this, pow_succ]; ring
        omega
      · have hps : 2 ^ (bitLenAux (x / 2) f + 1) = 2 * 2 ^ bitLenAux (x / 2) f := by
          rw [pow_succ]; ring
        omega

/-- The top set bit of a nonzero 64-bit word sits at `bitLen - 1`, and all
higher positions are clear. -/
theorem testBit_bitLen (d : Nat) (hd : d ≠ 0) (hlt : d < 2 ^ 64) :
    d.testBit (bitLen d - 1) = true ∧ ∀ m, bitLen d ≤ m → d.testBit m = false := by
  obtain ⟨h1, h2, h3, h4⟩ := bitLenAux_spec 64 d hlt hd
  rw [show bitLenAux d 64 = bitLen d from rfl] at h1 h2 h3 h4
  constructor
  · have hq : d / 2 ^ (bitLen d - 1) = 1 := by
      refine Nat.div_eq_of_lt_le (by simpa using h3) ?_
      have hbl : bitLen d - 1 + 1 = bitLen d := by omega
      have hps : (1 + 1) * 2 ^ (bitLen d - 1) = 2 ^ (bitLen d - 1 + 1) := by
        rw [pow_succ]; ring
      rw [hbl] at hps
      omega
    rw [Nat.testBit_to_div_mod, hq]
    decide
  · intro m hm
    exact Nat.testBit_lt_two_pow
      (lt_of_lt_of_le h4 (Nat.pow_le_pow_right (by norm_num) hm))

/-- `get_msb` applied to `b < k` (both 64-bit) returns the bit of `b` at
the first position where `b` and `k` differ — which is always 0 because
the smaller key carries the 0 at the first differing bit. -/
theorem get_msb_eq_zero_of_lt (b k : Nat) (hb : b < 2 ^ 64) (hk : k < 2 ^ 64)
    (hlt : b < k) :
    Diva.get_msb b k =
        (b >>> (63 - longest_common_prefix_length b k)) &&& 1 ∧
      Diva.get_msb b k = 0 := by
  have hd0 : b ^^^ k ≠ 0 := by
    rw [Ne, Nat.xor_eq_zero]
    omega
  have hdlt : b ^^^ k < 2 ^ 64 := Nat.xor_lt_two_pow hb hk
  obtain ⟨hL1, hL2, _, _⟩ := bitLenAux_spec 64 (b ^^^ k) hdlt hd0
  have hLb1 : 1 ≤ bitLen (b ^^^ k) := hL1
  have hLb2 : bitLen (b ^^^ k) ≤ 64 := hL2
  have hshared : longest_common_prefix_length b k = 64 - bitLen (b ^^^ k) := rfl
  have hnotge : ¬64 ≤ longest_common_prefix_length b k := by omega
  refine ⟨by simp [Diva.get_msb, hnotge], ?_⟩
  obtain ⟨hbit, hhigh⟩ := testBit_bitLen (b ^^^ k) hd0 hdlt
  have hn : 63 - longest_common_prefix_length b k = bitLen (b ^^^ k) - 1 := by omega
  have hbb : b.testBit (bitLen (b ^^^ k) - 1) = false := by
    by_contra hcon
    have hbtrue : b.testBit (bitLen (b ^^^ k) - 1) = true := by
      simpa using hcon
    have hktrue : k.testBit (bitLen (b ^^^ k) - 1) = false := by
      have hx := Nat.testBit_xor b k (bitLen (b ^^^ k) - 1)
      rw [hbit, hbtrue] at hx
      cases hkb : k.testBit (bitLen (b ^^^ k) - 1) <;> simp [hkb] at hx ⊢
    have hagree : ∀ j, bitLen (b ^^^ k) - 1 < j → k.testBit j = b.testBit j := by
      intro j hj
      have hx := Nat.testBit_xor b k j
      rw [hhigh j (by omega)] at hx
      cases hbj : b.testBit j <;> cases hkj : k.testBit j <;>
        simp [hbj, hkj] at hx ⊢
    have : k < b := Nat.lt_of_testBit (bitLen (b ^^^ k) - 1) hktrue hbtrue hagree
    omega
  have hmod : b / 2 ^ (bitLen (b ^^^ k) - 1) % 2 = 0 := by
    have hdm := Nat.testBit_to_div_mod (x := b) (i := bitLen (b ^^^ k) - 1)
    rw [hbb] at hdm
    have hne : ¬b / 2 ^ (bitLen (b ^^^ k) - 1) % 2 = 1 := by
      intro hcon
      rw [hcon] at hdm
      simp at hdm
    omega
  simp only [Diva.get_msb, ge_iff_le, if_neg hnotge]
  rw [hn, Nat.and_one_is_mod, Nat.shiftRight_eq_div_pow, hmod]

/-- The infix produced with an MSB argument of 0 has a clear bit at
position `quotient_bits + remainder_bits` (the MSB slot). -/
theorem extract_partial_key_top (key shared red qb rb : Nat) :
    Nat.testBit (Diva.extract_partial_key key shared red qb rb 0) (qb + rb) = false := by
  unfold Diva.extract_partial_key
  by_cases h1 : shared + 1 + red ≥ 64
  · simp [h1]
  · simp only [h1, if_false, ite_false]
    by_cases h2 : min (qb + rb) (64 - (shared + 1 + red)) = 0
    · simp [h2]
    · simp only [h2, if_false, ite_false]
      rw [Nat.zero_shiftLeft, Nat.zero_or, Nat.one_shiftLeft,
        Nat.and_pow_two_sub_one_eq_mod]
      refine Nat.testBit_lt_two_pow (lt_of_lt_of_le (Nat.mod_lt _ ?_) ?_)
      · positivity
      · exact Nat.pow_le_pow_right (by norm_num) (Nat.min_le_left _ _)

/-- Every element of `dedupAdj l` comes from `l`. -/
theorem mem_dedupAdj : ∀ (l : List Nat) (a : Nat), a ∈ dedupAdj l → a ∈ l := by
  intro l
  induction l with
  | nil => simp [dedupAdj]
  | cons x xs ih =>
    cases xs with
    | nil => simp [dedupAdj]
    | cons y ys =>
      intro a ha
      rw [dedupAdj] at ha
      by_cases hxy : x = y
      · rw [if_pos hxy] at ha
        exact List.mem_cons_of_mem x (ih a ha)
      · rw [if_neg hxy] at ha
        rcases List.mem_cons.mp ha with rfl | ha'
        · exact List.mem_cons_self a _
        · exact List.mem_cons_of_mem x (ih a ha')

/-- On a `≤`-sorted list, `dedupAdj` yields a strictly increasing list. -/
theorem dedupAdj_pairwise_lt : ∀ l : List Nat,
    l.Pairwise (· ≤ ·) → (dedupAdj l).Pairwise (· < ·) := by
  intro l
  induction l with
  | nil => intro _; simp [dedupAdj]
  | cons x xs ih =>
    cases xs with
    | nil => intro _; simp [dedupAdj]
    | cons y ys =>
      intro hp
      rw [dedupAdj]
      have hp' : (y :: ys).Pairwise (· ≤ ·) := (List.pairwise_cons.mp hp).2
      by_cases hxy : x = y
      · rw [if_pos hxy]
        exact ih hp'
      · rw [if_neg hxy]
        refine List.Pairwise.cons ?_ (ih hp')
        intro b hb
        have hbmem : b ∈ y :: ys := mem_dedupAdj _ b hb
        have hxley : x ≤ y := (List.pairwise_cons.mp hp).1 y (List.mem_cons_self y ys)
        have hyb : y ≤ b := by
          rcases List.mem_cons.mp hbmem with rfl | hbys
          · exact le_refl b
          · exact (List.pairwise_cons.mp hp').1 b hbys
        omega

/-- `getD` through `drop`. -/
theorem getD_drop_zero : ∀ (l : List Nat) (n i : Nat),
    (l.drop n).getD i 0 = l.getD (n + i) 0 := by
  intro l
  induction l with
  | nil => intro n i; simp
  | cons x xs ih =>
    intro n i
    cases n with
    | zero => simp
    | succ n =>
      show (xs.drop n).getD i 0 = (x :: xs).getD (n + 1 + i) 0
      rw [ih n i]
      have hidx : n + 1 + i = (n + i) + 1 := by omega
      rw [hidx, List.getD_cons_succ]

/-- The `i`-th sampled key is the `i * n`-th key of the underlying list. -/
theorem everyNthGo_getD (n : Nat) (hn : 1 ≤ n) :
    ∀ (f : Nat) (l : List Nat) (i : Nat), l.length ≤ f → i * n < l.length →
      (everyNthGo f l n).getD i 0 = l.getD (i * n) 0 := by
  intro f
  induction f with
  | zero =>
    intro l i hl hi
    have : l.length = 0 := by omega
    omega
  | succ f ih =>
    intro l i hl hi
    cases l with
    | nil => simp at hi
    | cons a rest =>
      rw [everyNthGo]
      cases i with
      | zero => simp
      | succ i =>
        have hsm : (i + 1) * n = i * n + n := by rw [Nat.succ_mul]
        have h1 : (rest.drop (n - 1)).length ≤ f := by
          rw [List.length_drop]
          simp only [List.length_cons] at hl
          omega
        have h2 : i * n < (rest.drop (n - 1)).length := by
          rw [List.length_drop]
          simp only [List.length_cons] at hi
          omega
        have hrec := ih (rest.drop (n - 1)) i h1 h2
        rw [List.getD_cons_succ, hrec, getD_drop_zero]
        have hidx : (i + 1) * n = (n - 1 + i * n) + 1 := by omega
        rw [hidx, List.getD_cons_succ]

theorem everyNth_getD (l : List Nat) (n i : Nat) (hn : 1 ≤ n)
    (hi : i * n < l.length) :
    (everyNth l n).getD i 0 = l.getD (i * n) 0 :=
  everyNthGo_getD n hn l.length l i (le_refl _) hi

/-- Claim C3 (amended): in `Diva::new_with_keys`, for every consecutive
boundary pair and every intermediate key `k` of that pair, the MSB placed
at the top of `k`'s extracted infix is `get_msb(b_i, k)` — the bit of the
boundary `b_i` (not of `k`) at position `63 - lcp(b_i, k)` (not
`63 - lcp(b_i, b_{i+1})`) — and since `b_i < k`, that bit is always 0, so
the infix's top bit (position `quotient_bits + remainder_size`) is clear. -/
theorem diva_msb_is_boundary_bit (keys : List Nat) (ts rs i j : Nat)
    (hts : 1 ≤ ts) (hbound : ∀ k ∈ keys, k < 2 ^ 64)
    (hj1 : i * ts + 1 ≤ j)
    (hj2 : j < min ((i + 1) * ts) (dedupAdj (sortKeys keys)).length) :
    Diva.get_msb ((everyNth (dedupAdj (sortKeys keys)) ts).getD i 0)
        ((dedupAdj (sortKeys keys)).getD j 0) =
      ((everyNth (dedupAdj (sortKeys keys)) ts).getD i 0 >>>
          (63 - longest_common_prefix_length
            ((everyNth (dedupAdj (sortKeys keys)) ts).getD i 0)
            ((dedupAdj (sortKeys keys)).getD j 0))) &&& 1 ∧
    Diva.get_msb ((everyNth (dedupAdj (sortKeys keys)) ts).getD i 0)
        ((dedupAdj (sortKeys keys)).getD j 0) = 0 ∧
    ∀ shared red qb,
      Nat.testBit
        (Diva.extract_partial_key ((dedupAdj (sortKeys keys)).getD j 0) shared red qb rs
          (Diva.get_msb ((everyNth (dedupAdj (sortKeys keys)) ts).getD i 0)
            ((dedupAdj (sortKeys keys)).getD j 0)))
        (qb + rs) = false := by
  have hsorted : (dedupAdj (sortKeys keys)).Pairwise (· < ·) :=
    dedupAdj_pairwise_lt _ (List.sorted_insertionSort (fun a b => a ≤ b) keys)
  have hjlen : j < (dedupAdj (sortKeys keys)).length := lt_of_lt_of_le hj2 (min_le_right _ _)
  have hilen : i * ts < (dedupAdj (sortKeys keys)).length := by omega
  have hb1 : (everyNth (dedupAdj (sortKeys keys)) ts).getD i 0 =
      (dedupAdj (sortKeys keys)).getD (i * ts) 0 :=
    everyNth_getD _ ts i hts hilen
  have hmemkeys : ∀ m, m < (dedupAdj (sortKeys keys)).length →
      (dedupAdj (sortKeys keys)).getD m 0 ∈ keys := by
    intro m hm
    have h1 : (dedupAdj (sortKeys keys)).getD m 0 ∈ dedupAdj (sortKeys keys) := by
      rw [List.getD_eq_getElem _ _ hm]
      exact List.getElem_mem hm
    have h2 := mem_dedupAdj _ _ h1
    exact ((List.perm_insertionSort (fun a b => a ≤ b) keys).mem_iff).mp h2
  have hlt : (dedupAdj (sortKeys keys)).getD (i * ts) 0 <
      (dedupAdj (sortKeys keys)).getD j 0 := by
    rw [List.getD_eq_getElem _ _ hilen, List.getD_eq_getElem _ _ hjlen]
    exact List.pairwise_iff_getElem.mp hsorted (i * ts) j hilen hjlen (by omega)
  rw [hb1]
  obtain ⟨hform, hzero⟩ := get_msb_eq_zero_of_lt
    ((dedupAdj (sortKeys keys)).getD (i * ts) 0)
    ((dedupAdj (sortKeys keys)).getD j 0)
    (hbound _ (hmemkeys _ hilen)) (hbound _ (hmemkeys _ hjlen)) hlt
  refine ⟨hform, hzero, ?_⟩
  intro shared red qb
  rw [hzero]
  exact extract_partial_key_top _ shared red qb rs

/-- Witness for C3's amended theorem: keys `[0, 5, 6]`, `target_size = 2`,
`remainder_size = 8`, pair 0, intermediate index 1 (key 5). -/
theorem diva_msb_is_boundary_bit_witness :
    (1 ≤ 2 ∧ (∀ k ∈ [0, 5, 6], k < 2 ^ 64) ∧ 0 * 2 + 1 ≤ 1 ∧
      1 < min ((0 + 1) * 2) (dedupAdj (sortKeys [0, 5, 6])).length) ∧
    Diva.get_msb ((everyNth (dedupAdj (sortKeys [0, 5, 6])) 2).getD 0 0)
        ((dedupAdj (sortKeys [0, 5, 6])).getD 1 0) = 0 :=
  ⟨⟨by decide, by decide, by decide, by decide⟩,
    (diva_msb_is_boundary_bit [0, 5, 6] 2 8 0 1 (by decide) (by decide) (by decide)
      (by decide)).2.1⟩

/-- Counterexample for C3 as stated: for `Diva::new_with_keys` on keys
`[0, 5, 6]` with `target_size = 2` and `remainder_size = 8`, the boundary
pair is `(0, 6)` with `shared_prefix_len = 61` and `quotient_bits = 2`;
the intermediate key `k = 5` produces the infix 1 whose MSB (bit
`quotient_bits + remainder_size = 10`) is 0, but the bit of `k` at
position `63 - shared_prefix_len = 2` is 1. -/
theorem diva_msb_not_key_bit :
    dedupAdj (sortKeys [0, 5, 6]) = [0, 5, 6] ∧
    everyNth (dedupAdj (sortKeys [0, 5, 6])) 2 = [0, 6] ∧
    longest_common_prefix_length 0 6 = 61 ∧
    (Diva.get_shared_ignore_implicit_size 0 6 false).2.2 = 2 ∧
    divaInfixesForPair [0, 5, 6] [0, 6] 2 8 0 = [1] ∧
    Nat.testBit 1 ((Diva.get_shared_ignore_implicit_size 0 6 false).2.2 + 8) = false ∧
    (5 >>> (63 - longest_common_prefix_length 0 6)) &&& 1 = 1 := by
  decide

/-! ### C8: half-cached rank and select agree with the plain versions -/

/-- Number of set bits of the bitmap at positions `[0, p)`:
the reference counting function. -/
def bitsBelow (data : List Nat) (p : Nat) : Nat :=
  (List.range p).countP (fun i => get_bit data i)

theorem popcountAux_eq_countP : ∀ (f x : Nat),
    popcountAux x f = (List.range f).countP (fun i => x.testBit i) := by
  intro f
  induction f with
  | zero => intro x; rfl
  | succ f ih =>
    intro x
    rw [popcountAux]
    by_cases hx : x = 0
    · subst hx
      simp
    · rw [if_neg hx, List.range_succ_eq_map, List.countP_cons, List.countP_map]
      have hcong : (List.range f).countP ((fun i => x.testBit i) ∘ Nat.succ) =
          (List.range f).countP (fun i => (x / 2).testBit i) := by
        refine List.countP_congr ?_
        intro i _
        simp [Function.comp, Nat.testBit_succ]
      have hbit : x % 2 = if x.testBit 0 then 1 else 0 := by
        rw [Nat.testBit_zero]
        rcases Nat.mod_two_eq_zero_or_one x with h | h <;> simp [h]
      rw [hcong, ← ih (x / 2), hbit]
      omega

theorem count_ones_eq_countP (x : Nat) :
    count_ones x = (List.range 64).countP (fun i => x.testBit i) :=
  popcountAux_eq_countP 64 x

/-- The bit test `w & (1 << m) != 0` is `testBit`. -/
theorem and_shl_one_ne_zero (w m : Nat) : (w &&& (1 <<< m) != 0) = w.testBit m := by
  rw [Nat.one_shiftLeft]
  by_cases h : w.testBit m
  · have hge := Nat.testBit_implies_ge (x := w &&& 2 ^ m) (i := m)
      (by simp [Nat.testBit_and, h, Nat.testBit_two_pow_self])
    have hpos : 0 < w &&& 2 ^ m :=
      lt_of_lt_of_le (Nat.pos_pow_of_pos _ (by norm_num)) hge
    simp [h, bne_iff_ne, Nat.pos_iff_ne_zero.mp hpos]
  · have hzero : w &&& 2 ^ m = 0 := by
      refine Nat.eq_of_testBit_eq fun i => ?_
      rw [Nat.testBit_and, Nat.zero_testBit]
      by_cases hi : i = m
      · subst hi
        simp [Bool.eq_false_iff.mpr h]
      · simp [Nat.testBit_two_pow_of_ne (Ne.symm hi)]
    simp [hzero, Bool.eq_false_iff.mpr h]

theorem get_bit_eq_testBit (data : List Nat) (p : Nat) :
    get_bit data p = (data.getD (p / 64) 0).testBit (p % 64) := by
  unfold get_bit
  exact and_shl_one_ne_zero _ _

/-- Positions at or beyond the bitmap hold no set bit. -/
theorem get_bit_beyond (data : List Nat) (p : Nat) (hp : 64 * data.length ≤ p) :
    get_bit data p = false := by
  rw [get_bit_eq_testBit, List.getD_eq_default]
  · exact Nat.zero_testBit _
  · omega

/-- One whole word contributes its popcount. -/
theorem countP_word (data : List Nat) (wi : Nat) :
    (List.range 64).countP (fun i => get_bit data (64 * wi + i)) =
      count_ones (data.getD wi 0) := by
  rw [count_ones_eq_countP]
  refine List.countP_congr ?_
  intro i hi
  have hi64 : i < 64 := List.mem_range.mp hi
  rw [get_bit_eq_testBit]
  have hdiv : (64 * wi + i) / 64 = wi := by omega
  have hmod : (64 * wi + i) % 64 = i := by omega
  rw [hdiv, hmod]

/-- The word-sum prelude of `rank` counts the bits below `64 * wi`. -/
theorem rank_sum_words (data : List Nat) : ∀ wi : Nat,
    ((List.range wi).map (fun i => count_ones (data.getD i 0))).sum =
      bitsBelow data (64 * wi) := by
  intro wi
  induction wi with
  | zero => rfl
  | succ wi ih =>
    rw [List.range_succ, List.map_append, List.sum_append]
    have hsplit : 64 * (wi + 1) = 64 * wi + 64 := by ring
    rw [hsplit]
    unfold bitsBelow
    rw [List.range_add, List.countP_append, List.countP_map]
    unfold bitsBelow at ih
    rw [ih]
    simp only [List.map_cons, List.map_nil, List.sum_cons, List.sum_nil]
    have : (List.range 64).countP ((fun i => get_bit data i) ∘ (fun x => 64 * wi + x)) =
        count_ones (data.getD wi 0) := by
      rw [← countP_word data wi]
      refine List.countP_congr ?_
      intro i _
      exact Iff.rfl
    omega

/-- The masked partial word counts the bits `[0, b)` of the word. -/
theorem count_ones_masked (w b : Nat) (hb : b ≤ 64) :
    count_ones (w &&& ((1 <<< b) - 1)) = (List.range b).countP (fun i => w.testBit i) := by
  rw [count_ones_eq_countP, Nat.one_shiftLeft, Nat.and_pow_two_sub_one_eq_mod]
  have hsplit : (64 : Nat) = b + (64 - b) := by omega
  rw [hsplit, List.range_add, List.countP_append]
  have h1 : (List.range b).countP (fun i => (w % 2 ^ b).testBit i) =
      (List.range b).countP (fun i => w.testBit i) := by
    refine List.countP_congr ?_
    intro i hi
    have : i < b := List.mem_range.mp hi
    simp [Nat.testBit_mod_two_pow, this]
  have h2 : ((List.range (64 - b)).map (b + ·)).countP (fun i => (w % 2 ^ b).testBit i) = 0 := by
    rw [List.countP_map]
    refine List.countP_eq_zero.mpr ?_
    intro i _
    have hnb : ¬(b + i < b) := by omega
    simp [Function.comp, Nat.testBit_mod_two_pow, hnb]
  omega

/-- `rank` equals the reference bit count. -/
theorem rank_eq_bitsBelow (data : List Nat) (pos : Nat) :
    rank data pos = bitsBelow data pos := by
  unfold rank
  by_cases hbi : pos % 64 > 0
  · simp only [hbi, if_true]
    rw [rank_sum_words, count_ones_masked _ _ (by omega)]
    have hsplit : pos = 64 * (pos / 64) + pos % 64 := by omega
    conv_rhs => rw [hsplit]
    unfold bitsBelow
    rw [List.range_add, List.countP_append, List.countP_map]
    have : ((List.range (pos % 64)).countP
        ((fun i => get_bit data i) ∘ (fun x => 64 * (pos / 64) + x))) =
        (List.range (pos % 64)).countP (fun i => (data.getD (pos / 64) 0).testBit i) := by
      refine List.countP_congr ?_
      intro i hi
      have hi64 : i < 64 := by have := List.mem_range.mp hi; omega
      simp only [Function.comp]
      rw [get_bit_eq_testBit]
      have hdiv : (64 * (pos / 64) + i) / 64 = pos / 64 := by omega
      have hmod : (64 * (pos / 64) + i) % 64 = i := by omega
      rw [hdiv, hmod]
    omega
  · simp only [hbi, if_false]
    rw [rank_sum_words]
    have : pos = 64 * (pos / 64) := by omega
    rw [← this]

/-- Reading a dropped bitmap is reading the original at an offset. -/
theorem get_bit_drop (data : List Nat) (h p : Nat) :
    get_bit (data.drop h) p = get_bit data (64 * h + p) := by
  rw [get_bit_eq_testBit, get_bit_eq_testBit, getD_drop_zero]
  have hdiv : (64 * h + p) / 64 = h + p / 64 := by omega
  have hmod : (64 * h + p) % 64 = p % 64 := by omega
  rw [hdiv, hmod]

/-- Splitting the reference count at a word-aligned midpoint. -/
theorem bitsBelow_split (data : List Nat) (h p : Nat) (hp : 64 * h ≤ p) :
    bitsBelow data p = bitsBelow data (64 * h) + bitsBelow (data.drop h) (p - 64 * h) := by
  unfold bitsBelow
  have hsplit : p = 64 * h + (p - 64 * h) := by omega
  conv_lhs => rw [hsplit]
  rw [List.range_add, List.countP_append, List.countP_map]
  congr 1
  refine List.countP_congr ?_
  intro i _
  simp only [Function.comp]
  rw [get_bit_drop]

/-- The in-word scan returns the position of the wanted set bit among the
scanned range. -/
theorem siwAux_spec (w r : Nat) : ∀ (fuel i count : Nat), count ≤ r →
    siwAux w r i count fuel =
      ((List.range' i fuel).filter (fun j => w.testBit j))[r - count]? := by
  intro fuel
  induction fuel with
  | zero => intro i count _; simp [siwAux]
  | succ fuel ih =>
    intro i count hc
    rw [siwAux, List.range'_succ]
    by_cases hbit : w.testBit i
    · have hcond : (w &&& (1 <<< i) != 0) = true := by rw [and_shl_one_ne_zero]; exact hbit
      rw [hcond, if_pos rfl, List.filter_cons_of_pos hbit]
      by_cases hcr : count = r
      · subst hcr
        rw [if_pos rfl, Nat.sub_self, List.getElem?_cons_zero]
      · rw [if_neg hcr]
        have hlt : count + 1 ≤ r := by omega
        rw [ih (i + 1) (count + 1) hlt]
        have hidx : r - count = (r - (count + 1)) + 1 := by omega
        rw [hidx, List.getElem?_cons_succ]
    · have hcond : (w &&& (1 <<< i) != 0) = false := by
        rw [and_shl_one_ne_zero]
        exact Bool.eq_false_iff.mpr hbit
      rw [hcond, if_neg (by simp), List.filter_cons_of_neg hbit]
      exact ih (i + 1) count hc

theorem select_in_word_spec (w r : Nat) :
    select_in_word w r = ((List.range 64).filter (fun j => w.testBit j))[r]? := by
  unfold select_in_word
  rw [siwAux_spec w r 64 0 0 (Nat.zero_le r), List.range_eq_range', Nat.sub_zero]

/-- Splitting the set-bit positions of `word :: rest`. -/
theorem filter_bits_cons (word : Nat) (rest : List Nat) :
    (List.range (64 * (word :: rest).length)).filter (fun p => get_bit (word :: rest) p) =
      ((List.range 64).filter (fun j => word.testBit j)) ++
        (((List.range (64 * rest.length)).filter (fun p => get_bit rest p)).map (64 + ·)) := by
  have hlen : 64 * (word :: rest).length = 64 + 64 * rest.length := by
    rw [List.length_cons]
    ring
  rw [hlen, List.range_add, List.filter_append, List.filter_map]
  congr 1
  · refine List.filter_congr ?_
    intro p hp
    have hp64 : p < 64 := List.mem_range.mp hp
    rw [get_bit_eq_testBit]
    have hd : p / 64 = 0 := by omega
    have hm : p % 64 = p := by omega
    rw [hd, hm]
    rfl
  · congr 1
    refine List.filter_congr ?_
    intro p _
    simp only [Function.comp]
    have hd : (64 + p) / 64 = p / 64 + 1 := by omega
    have hm : (64 + p) % 64 = p % 64 := by omega
    rw [get_bit_eq_testBit, get_bit_eq_testBit, hd, hm, List.getD_cons_succ]

/-- The word loop of `select` finds the `target`-th set bit past the
already-counted prefix. -/
theorem selectAux_spec : ∀ (l : List Nat) (target count wi : Nat), count < target →
    selectAux l target count wi =
      (((List.range (64 * l.length)).filter (fun p => get_bit l p))[target - 1 - count]?).map
        (fun p => wi * 64 + p) := by
  intro l
  induction l with
  | nil => intro target count wi _; simp [selectAux]
  | cons word rest ih =>
    intro target count wi hc
    rw [selectAux, filter_bits_cons]
    have hlen0 : ((List.range 64).filter (fun j => word.testBit j)).length =
        count_ones word := by
      rw [← List.countP_eq_length_filter, ← count_ones_eq_countP]
    by_cases hb : count + count_ones word ≥ target
    · rw [if_pos hb, select_in_word_spec]
      have hidx : target - 1 - count < ((List.range 64).filter (fun j => word.testBit j)).length := by
        rw [hlen0]; omega
      rw [List.getElem?_append_left hidx]
      have : target - count - 1 = target - 1 - count := by omega
      rw [this]
    · rw [if_neg hb]
      have hlt : count + count_ones word < target := by omega
      rw [ih target (count + count_ones word) (wi + 1) hlt]
      have hge : ((List.range 64).filter (fun j => word.testBit j)).length ≤
          target - 1 - count := by
        rw [hlen0]; omega
      rw [List.getElem?_append_right hge, List.getElem?_map, hlen0]
      have hidx : target - 1 - count - count_ones word = target - 1 - (count + count_ones word) := by
        omega
      rw [hidx, Option.map_map]
      cases ((List.range (64 * rest.length)).filter
          (fun p => get_bit rest p))[target - 1 - (count + count_ones word)]? with
      | none => rfl
      | some v =>
        show some ((wi + 1) * 64 + v) = some (wi * 64 + (64 + v))
        congr 1
        ring

/-- `select` returns the position of the `r`-th (0-based) set bit. -/
theorem select_spec (data : List Nat) (r : Nat) :
    select data r =
      ((List.range (64 * data.length)).filter (fun p => get_bit data p))[r]? := by
  unfold select
  rw [selectAux_spec data (r + 1) 0 0 (by omega)]
  simp only [Nat.add_sub_cancel, Nat.sub_zero, Nat.zero_mul, Nat.zero_add]
  cases ((List.range (64 * data.length)).filter (fun p => get_bit data p))[r]? with
  | none => rfl
  | some v => simp

/-- Past the whole bitmap, `bitsBelow` counts every set position. -/
theorem bitsBelow_total (data : List Nat) (q : Nat) (hq : 64 * data.length ≤ q) :
    bitsBelow data q =
      ((List.range (64 * data.length)).filter (fun p => get_bit data p)).length := by
  unfold bitsBelow
  rw [← List.countP_eq_length_filter]
  have hsplit : q = 64 * data.length + (q - 64 * data.length) := by omega
  rw [hsplit, List.range_add, List.countP_append]
  have hzero : ((List.range (q - 64 * data.length)).map (64 * data.length + ·)).countP
      (fun i => get_bit data i) = 0 := by
    rw [List.countP_map]
    refine List.countP_eq_zero.mpr ?_
    intro i _
    have hb := get_bit_beyond data (64 * data.length + i) (by omega)
    simp [Function.comp, hb]
  omega

/-- `select_cached` agrees with `select` under a word-aligned cached
popcount. -/
theorem select_cached_eq (data : List Nat) (r half cached : Nat)
    (hhalf : half % 64 = 0) (hcached : cached = rank data half) :
    select_cached data r half cached = select data r := by
  unfold select_cached
  by_cases hr : r < cached
  · rw [if_pos hr]
  · rw [if_neg hr]
    have hcb : cached = bitsBelow data half := by rw [hcached, rank_eq_bitsBelow]
    by_cases hlen : half / 64 < data.length
    · -- the suffix is a genuine part of the bitmap
      have hsp : bitsBelow data (64 * data.length) =
          bitsBelow data (64 * (half / 64)) +
            bitsBelow (data.drop (half / 64)) (64 * data.length - 64 * (half / 64)) :=
        bitsBelow_split data (half / 64) (64 * data.length) (by omega)
      rw [select_spec data r, select_spec (data.drop (half / 64)) (r - cached)]
      have hh64 : 64 * (half / 64) = half := by omega
      have hsplitlist :
          (List.range (64 * data.length)).filter (fun p => get_bit data p) =
            ((List.range half).filter (fun p => get_bit data p)) ++
              (((List.range (64 * (data.drop (half / 64)).length)).filter
                  (fun p => get_bit (data.drop (half / 64)) p)).map (half + ·)) := by
        have hlen2 : 64 * data.length = half + 64 * (data.drop (half / 64)).length := by
          rw [List.length_drop]
          omega
        rw [hlen2, List.range_add, List.filter_append, List.filter_map]
        congr 1
        refine congrArg _ ?_
        refine List.filter_congr ?_
        intro p _
        simp only [Function.comp]
        rw [get_bit_drop]
        rw [hh64]
      rw [hsplitlist]
      have hlenfirst : ((List.range half).filter (fun p => get_bit data p)).length = cached := by
        rw [← List.countP_eq_length_filter, hcb]
        rfl
      rw [List.getElem?_append_right (by omega), List.getElem?_map, hlenfirst]
      cases ((List.range (64 * (data.drop (half / 64)).length)).filter
          (fun p => get_bit (data.drop (half / 64)) p))[r - cached]? with
      | none => rfl
      | some v => simp [Nat.add_comm]
    · -- the midpoint is at or past the end: both sides are `none`
      have hdrop : data.drop (half / 64) = [] := by
        apply List.drop_eq_nil_of_le
        omega
      rw [hdrop]
      have hnone : select ([] : List Nat) (r - cached) = none := rfl
      rw [hnone, select_spec]
      have htotal : ((List.range (64 * data.length)).filter
          (fun p => get_bit data p)).length ≤ r := by
        have := bitsBelow_total data half (by omega)
        omega
      rw [List.getElem?_eq_none htotal]
      rfl

/-- Claim C8: for every bitmap of 64-bit words, every position `p` within
its bit range, and every word-aligned `half_pos` with
`cached_popcount = rank(bitmap, half_pos)`, `rank_cached` agrees with
`rank` at `p`, and `select_cached` agrees with `select` at every rank
`r`, including the missing case. -/
theorem rank_select_cached_eq (data : List Nat) (p half cached r : Nat)
    (hw : ∀ w ∈ data, w < 2 ^ 64) (hhalf : half % 64 = 0)
    (hcached : cached = rank data half) (hp : p ≤ 64 * data.length) :
    rank_cached data p half cached = rank data p ∧
    select_cached data r half cached = select data r := by
  refine ⟨?_, select_cached_eq data r half cached hhalf hcached⟩
  unfold rank_cached
  by_cases hple : p ≤ half
  · rw [if_pos hple]
  · rw [if_neg hple]
    rw [hcached, rank_eq_bitsBelow, rank_eq_bitsBelow, rank_eq_bitsBelow]
    have hsp := bitsBelow_split data (half / 64) p (by omega)
    have hh64 : 64 * (half / 64) = half := by omega
    rw [hh64] at hsp
    omega

/-- Witness for C8 on a concrete two-word bitmap with `half_pos = 64`. -/
theorem rank_select_cached_eq_witness :
    ((∀ w ∈ [2 ^ 63 + 5, 7], w < 2 ^ 64) ∧ 64 % 64 = 0 ∧
      rank [2 ^ 63 + 5, 7] 64 = rank [2 ^ 63 + 5, 7] 64 ∧ 70 ≤ 64 * 2) ∧
    (rank_cached [2 ^ 63 + 5, 7] 70 64 (rank [2 ^ 63 + 5, 7] 64) =
        rank [2 ^ 63 + 5, 7] 70 ∧
      select_cached [2 ^ 63 + 5, 7] 3 64 (rank [2 ^ 63 + 5, 7] 64) =
        select [2 ^ 63 + 5, 7] 3) :=
  ⟨⟨by decide, by decide, rfl, by decide⟩,
    rank_select_cached_eq [2 ^ 63 + 5, 7] 70 64 (rank [2 ^ 63 + 5, 7] 64) 3
      (by decide) (by decide) rfl (by decide)⟩

/-! ### C9: bulk construction is insensitive to input order -/

theorem sortKeys_perm (l : List Nat) : (sortKeys l).Perm l :=
  List.perm_insertionSort _ _

theorem sortKeys_sorted (l : List Nat) :
    (sortKeys l).Pairwise (fun a b => a ≤ b) :=
  List.sorted_insertionSort _ _

/-- Permuted inputs sort to the same list. -/
theorem sortKeys_eq_of_perm (l₁ l₂ : List Nat) (h : l₁.Perm l₂) :
    sortKeys l₁ = sortKeys l₂ :=
  List.eq_of_perm_of_sorted ((sortKeys_perm l₁).trans (h.trans (sortKeys_perm l₂).symm))
    (sortKeys_sorted l₁) (sortKeys_sorted l₂)

theorem dedupAdj_eq_self_of_pairwise_lt : ∀ l : List Nat,
    l.Pairwise (· < ·) → dedupAdj l = l := by
  intro l
  induction l with
  | nil => intro _; rfl
  | cons x xs ih =>
    cases xs with
    | nil => intro _; rfl
    | cons y ys =>
      intro hp
      have hxy : x < y := (List.pairwise_cons.mp hp).1 y (List.mem_cons_self y ys)
      rw [dedupAdj, if_neg (by omega), ih (List.pairwise_cons.mp hp).2]

theorem dedupAdj_ne_nil : ∀ l : List Nat, l ≠ [] → dedupAdj l ≠ [] := by
  intro l
  induction l with
  | nil => intro h; exact absurd rfl h
  | cons x xs ih =>
    cases xs with
    | nil => intro _; simp [dedupAdj]
    | cons y ys =>
      intro _
      rw [dedupAdj]
      by_cases hxy : x = y
      · rw [if_pos hxy]
        exact ih (by simp)
      · rw [if_neg hxy]
        simp

/-- Sorting then deduplicating is idempotent. -/
theorem dedupAdj_sortKeys_idem (ks : List Nat) :
    dedupAdj (sortKeys (dedupAdj (sortKeys ks))) = dedupAdj (sortKeys ks) := by
  have hlt : (dedupAdj (sortKeys ks)).Pairwise (· < ·) :=
    dedupAdj_pairwise_lt _ (sortKeys_sorted ks)
  have hle : (dedupAdj (sortKeys ks)).Pairwise (fun a b => a ≤ b) :=
    hlt.imp (fun h => Nat.le_of_lt h)
  have hsort : sortKeys (dedupAdj (sortKeys ks)) = dedupAdj (sortKeys ks) :=
    List.eq_of_perm_of_sorted (sortKeys_perm _) (sortKeys_sorted _) hle
  rw [hsort, dedupAdj_eq_self_of_pairwise_lt _ hlt]

theorem isEmpty_eq_of_perm (l₁ l₂ : List Nat) (h : l₁.Perm l₂) :
    l₁.isEmpty = l₂.isEmpty := by
  cases l₁ with
  | nil =>
    have := h.length_eq
    cases l₂ with
    | nil => rfl
    | cons y ys => simp at this
  | cons x xs =>
    have := h.length_eq
    cases l₂ with
    | nil => simp at this
    | cons y ys => rfl

/-- Claim C9: bulk construction is insensitive to input order:
`BinarySearchTreeGroup::new_with_keys` builds identical trees from
permuted inputs (the input is sorted internally), `YFastTrie` and `Diva`
additionally deduplicate, so every structure (and hence every public
query on it) built from a permuted, even duplicated, input equals the one
built from the sorted de-duplicated input. -/
theorem bulk_build_perm_insensitive (ks₁ ks₂ : List Nat) (w ts rs : Nat)
    (hperm : ks₁.Perm ks₂) :
    Tree.new_with_keys ks₁ = Tree.new_with_keys ks₂ ∧
    YFastTrie.new_with_keys ks₁ w = YFastTrie.new_with_keys ks₂ w ∧
    Diva.new_with_keys ks₁ ts rs = Diva.new_with_keys ks₂ ts rs ∧
    YFastTrie.new_with_keys ks₁ w =
      YFastTrie.new_with_keys (dedupAdj (sortKeys ks₁)) w ∧
    Diva.new_with_keys ks₁ ts rs =
      Diva.new_with_keys (dedupAdj (sortKeys ks₁)) ts rs ∧
    ∀ q, (YFastTrie.new_with_keys ks₁ w).predecessor q =
        (YFastTrie.new_with_keys (dedupAdj (sortKeys ks₂)) w).predecessor q ∧
      (YFastTrie.new_with_keys ks₁ w).successor q =
        (YFastTrie.new_with_keys (dedupAdj (sortKeys ks₂)) w).successor q ∧
      (YFastTrie.new_with_keys ks₁ w).contains q =
        (YFastTrie.new_with_keys (dedupAdj (sortKeys ks₂)) w).contains q := by
  have hsk : sortKeys ks₁ = sortKeys ks₂ := sortKeys_eq_of_perm ks₁ ks₂ hperm
  have hie : ks₁.isEmpty = ks₂.isEmpty := isEmpty_eq_of_perm ks₁ ks₂ hperm
  have htree : Tree.new_with_keys ks₁ = Tree.new_with_keys ks₂ := by
    unfold Tree.new_with_keys
    rw [hsk, hie]
  have hyfast : ∀ ks : List Nat, YFastTrie.new_with_keys ks w =
      YFastTrie.new_with_keys (dedupAdj (sortKeys ks)) w := by
    intro ks
    unfold YFastTrie.new_with_keys
    cases hks : ks with
    | nil => rfl
    | cons a rest =>
      have h1 : (a :: rest).isEmpty = false := rfl
      have h2 : (dedupAdj (sortKeys (a :: rest))).isEmpty = false := by
        have hne : dedupAdj (sortKeys (a :: rest)) ≠ [] := by
          apply dedupAdj_ne_nil
          intro hcon
          have := (sortKeys_perm (a :: rest)).length_eq
          rw [hcon] at this
          simp at this
        cases hd : dedupAdj (sortKeys (a :: rest)) with
        | nil => exact absurd hd hne
        | cons b bs => rfl
      rw [h1, h2, dedupAdj_sortKeys_idem]
  have hyeq : YFastTrie.new_with_keys ks₁ w = YFastTrie.new_with_keys ks₂ w := by
    unfold YFastTrie.new_with_keys
    rw [hsk, hie]
  have hdiva : Diva.new_with_keys ks₁ ts rs = Diva.new_with_keys ks₂ ts rs := by
    unfold Diva.new_with_keys
    rw [hsk]
  have hdiva2 : Diva.new_with_keys ks₁ ts rs =
      Diva.new_with_keys (dedupAdj (sortKeys ks₁)) ts rs := by
    unfold Diva.new_with_keys
    rw [dedupAdj_sortKeys_idem]
  refine ⟨htree, hyeq, hdiva, hyfast ks₁, hdiva2, ?_⟩
  intro q
  rw [hyeq, hyfast ks₂]
  exact ⟨rfl, rfl, rfl⟩

/-- Witness for C9 on a duplicated permutation pair. -/
theorem bulk_build_perm_insensitive_witness :
    ([3, 1, 2, 1] : List Nat).Perm [1, 1, 2, 3] ∧
    Tree.new_with_keys [3, 1, 2, 1] = Tree.new_with_keys [1, 1, 2, 3] ∧
    YFastTrie.new_with_keys [3, 1, 2, 1] 8 =
      YFastTrie.new_with_keys (dedupAdj (sortKeys [3, 1, 2, 1])) 8 :=
  ⟨by decide,
    (bulk_build_perm_insensitive [3, 1, 2, 1] [1, 1, 2, 3] 8 2 8 (by decide)).1,
    (bulk_build_perm_insensitive [3, 1, 2, 1] [1, 1, 2, 3] 8 2 8 (by decide)).2.2.2.1⟩

/-! ### C2: Infix Store bulk-construction round-trip -/

theorem getD_set_self (l : List Nat) (i v : Nat) (h : i < l.length) :
    (l.set i v).getD i 0 = v := by
  rw [List.getD_eq_getElem?_getD, List.getElem?_set_self h]
  rfl

theorem getD_set_ne (l : List Nat) (i j v : Nat) (h : i ≠ j) :
    (l.set i v).getD j 0 = l.getD j 0 := by
  rw [List.getD_eq_getElem?_getD, List.getElem?_set_ne h, ← List.getD_eq_getElem?_getD]

theorem getD_take_lt (l : List Nat) (n m : Nat) (h : m < n) :
    (l.take n).getD m 0 = l.getD m 0 := by
  rw [List.getD_eq_getElem?_getD, List.getElem?_take_of_lt h, ← List.getD_eq_getElem?_getD]

theorem getD_append_left (l₁ l₂ : List Nat) (m : Nat) (h : m < l₁.length) :
    (l₁ ++ l₂).getD m 0 = l₁.getD m 0 := by
  rw [List.getD_eq_getElem?_getD, List.getElem?_append_left h,
    ← List.getD_eq_getElem?_getD]

theorem getD_append_right (l₁ l₂ : List Nat) (m : Nat) (h : l₁.length ≤ m) :
    (l₁ ++ l₂).getD m 0 = l₂.getD (m - l₁.length) 0 := by
  rw [List.getD_eq_getElem?_getD, List.getElem?_append_right h,
    ← List.getD_eq_getElem?_getD]

theorem getD_sliceOf (data : List Nat) (s w i : Nat) :
    (sliceOf data s w).getD i 0 =
      if i < w then data.getD (s + i) 0 else 0 := by
  unfold sliceOf
  by_cases h : i < w
  · rw [if_pos h, getD_take_lt _ _ _ h, getD_drop_zero]
  · rw [if_neg h, List.getD_eq_default]
    rw [List.length_take]
    omega

theorem length_sliceOf (data : List Nat) (s w : Nat) (h : s + w ≤ data.length) :
    (sliceOf data s w).length = w := by
  unfold sliceOf
  rw [List.length_take, List.length_drop]
  omega

/-- Reading a bit of a shared slice. -/
theorem get_bit_sliceOf (data : List Nat) (s w p : Nat) :
    get_bit (sliceOf data s w) p =
      if p < 64 * w then get_bit data (64 * s + p) else false := by
  rw [get_bit_eq_testBit, getD_sliceOf]
  by_cases h : p < 64 * w
  · have hlt : p / 64 < w := by omega
    rw [if_pos hlt, if_pos h, get_bit_eq_testBit]
    have hd : (64 * s + p) / 64 = s + p / 64 := by omega
    have hm : (64 * s + p) % 64 = p % 64 := by omega
    rw [hd, hm]
  · have hge : ¬p / 64 < w := by omega
    rw [if_neg hge, if_neg h]
    exact Nat.zero_testBit _

/-- Reading a bit after a slice update: inside the region the mutated
slice is consulted, outside the original data. -/
theorem get_bit_updateSlice (data : List Nat) (s w : Nat) (f : List Nat → List Nat)
    (hlen : (f (sliceOf data s w)).length = w) (hsw : s + w ≤ data.length) (p : Nat) :
    get_bit (updateSlice data s w f) p =
      if 64 * s ≤ p ∧ p < 64 * (s + w) then get_bit (f (sliceOf data s w)) (p - 64 * s)
      else get_bit data p := by
  have hlt : (data.take s).length = s := by
    rw [List.length_take]
    omega
  unfold sliceOf at hlen ⊢
  rw [get_bit_eq_testBit]
  unfold updateSlice
  rw [List.append_assoc]
  by_cases h1 : p / 64 < s
  · have hout : ¬(64 * s ≤ p ∧ p < 64 * (s + w)) := by omega
    rw [if_neg hout, getD_append_left _ _ _ (by rw [hlt]; omega),
      getD_take_lt _ _ _ h1, get_bit_eq_testBit]
  · by_cases h2 : p / 64 < s + w
    · have hin : 64 * s ≤ p ∧ p < 64 * (s + w) := by omega
      rw [if_pos hin, getD_append_right _ _ _ (by rw [hlt]; omega), hlt,
        getD_append_left _ _ _ (by rw [hlen]; omega), get_bit_eq_testBit]
      have hd : (p - 64 * s) / 64 = p / 64 - s := by omega
      have hm : (p - 64 * s) % 64 = p % 64 := by omega
      rw [hd, hm]
    · have hout : ¬(64 * s ≤ p ∧ p < 64 * (s + w)) := by omega
      rw [if_neg hout, getD_append_right _ _ _ (by rw [hlt]; omega), hlt,
        getD_append_right _ _ _ (by rw [hlen]; omega), hlen, getD_drop_zero,
        get_bit_eq_testBit]
      have hd : s + w + (p / 64 - s - w) = p / 64 := by omega
      rw [hd]

theorem length_updateSlice (data : List Nat) (s w : Nat) (f : List Nat → List Nat)
    (hlen : (f (sliceOf data s w)).length = w) (hsw : s + w ≤ data.length) :
    (updateSlice data s w f).length = data.length := by
  unfold sliceOf at hlen
  unfold updateSlice
  rw [List.length_append, List.length_append, hlen, List.length_take,
    List.length_drop]
  omega

theorem length_set_bit (slots : List Nat) (pos : Nat) :
    (set_bit slots pos).length = slots.length := by
  unfold set_bit
  exact List.length_set _ _ _

/-- `set_bit` sets exactly the requested bit. -/
theorem get_bit_set_bit (slots : List Nat) (pos : Nat) (hpos : pos < 64 * slots.length)
    (p : Nat) :
    get_bit (set_bit slots pos) p = if p = pos then true else get_bit slots p := by
  unfold set_bit
  rw [get_bit_eq_testBit, get_bit_eq_testBit]
  by_cases hw : p / 64 = pos / 64
  · rw [hw, getD_set_self _ _ _ (by omega), Nat.testBit_or, Nat.one_shiftLeft]
    by_cases hp : p = pos
    · rw [if_pos hp, hp, Nat.testBit_two_pow_self]
      simp
    · rw [if_neg hp]
      have hmne : p % 64 ≠ pos % 64 := by omega
      rw [Nat.testBit_two_pow_of_ne (Ne.symm hmne)]
      simp
  · rw [getD_set_ne _ _ _ _ (Ne.symm hw)]
    have hp : p ≠ pos := by omega
    rw [if_neg hp]

theorem word_bound_set_bit (slots : List Nat) (pos : Nat)
    (hw : ∀ w ∈ slots, w < 2 ^ 64) :
    ∀ w ∈ set_bit slots pos, w < 2 ^ 64 := by
  unfold set_bit
  intro w hwmem
  rcases List.mem_or_eq_of_mem_set hwmem with h | h
  · exact hw w h
  · subst h
    refine Nat.or_lt_two_pow ?_ ?_
    · by_cases hlen : pos / 64 < slots.length
      · have := hw (slots.getD (pos / 64) 0) ?_
        · exact this
        · rw [List.getD_eq_getElem _ _ hlen]
          exact List.getElem_mem hlen
      · rw [List.getD_eq_default _ _ (by omega)]
        positivity
    · rw [Nat.one_shiftLeft]
      exact Nat.pow_lt_pow_right (by norm_num) (by omega)

theorem testBit_compl64 (m j : Nat) (hj : j < 64) :
    (compl64 m).testBit j = !m.testBit j := by
  unfold compl64
  rw [Nat.testBit_xor, Nat.testBit_two_pow_sub_one]
  simp [hj]

/-- Bit content of the first word written by `write_slot`: the `rs` bits
from `off` take the (truncated) remainder, everything else survives. -/
theorem word_writeback_bit (w r rs off j : Nat) (hj : j < 64) (hr : r < 2 ^ rs) :
    ((w &&& compl64 ((((1 <<< rs) - 1) <<< off) % 2 ^ 64)) |||
        ((r &&& ((1 <<< rs) - 1)) <<< off) % 2 ^ 64).testBit j =
      if off ≤ j ∧ j < off + rs then r.testBit (j - off) else w.testBit j := by
  have hrr : r &&& ((1 <<< rs) - 1) = r := by
    rw [Nat.one_shiftLeft]
    exact Nat.and_pow_two_sub_one_of_lt_two_pow hr
  rw [hrr, Nat.testBit_or, Nat.testBit_and, testBit_compl64 _ _ hj,
    Nat.testBit_mod_two_pow, Nat.testBit_mod_two_pow, Nat.one_shiftLeft,
    Nat.testBit_shiftLeft, Nat.testBit_shiftLeft, Nat.testBit_two_pow_sub_one]
  by_cases h1 : off ≤ j
  · by_cases h2 : j < off + rs
    · have hd1 : j - off < rs := by omega
      simp [h1, h2, hj, hd1, ge_iff_le]
    · have hd1 : ¬(j - off < rs) := by omega
      have hbit : r.testBit (j - off) = false :=
        Nat.testBit_lt_two_pow
          (lt_of_lt_of_le hr (Nat.pow_le_pow_right (by norm_num) (by omega)))
      simp [h1, h2, hj, hd1, hbit, ge_iff_le]
  · have h2 : ¬(off ≤ j ∧ j < off + rs) := by omega
    simp [h1, h2, hj, ge_iff_le]

/-- Bit content of the overflow word written by `write_slot`. -/
theorem word_overflow_bit (w1 r rs ov j : Nat) (hovlt : ov < 64) (hj : j < 64)
    (hr : r < 2 ^ rs) :
    ((w1 &&& compl64 ((1 <<< ov) - 1)) ||| r >>> (rs - ov)).testBit j =
      if j < ov then r.testBit (rs - ov + j) else w1.testBit j := by
  rw [Nat.testBit_or, Nat.testBit_and, Nat.one_shiftLeft, testBit_compl64 _ _ hj,
    Nat.testBit_two_pow_sub_one, Nat.testBit_shiftRight]
  by_cases hjov : j < ov
  · simp [hjov]
  · have hbit : r.testBit (rs - ov + j) = false :=
      Nat.testBit_lt_two_pow
        (lt_of_lt_of_le hr (Nat.pow_le_pow_right (by norm_num) (by omega)))
    simp [hjov, hbit]

theorem length_write_slot (slots : List Nat) (i r rs : Nat) :
    (write_slot slots i r rs).length = slots.length := by
  simp only [write_slot]
  by_cases h : i * rs % 64 + rs > 64 <;> simp [h]

theorem word_bound_write_slot (slots : List Nat) (i r rs : Nat)
    (hr : r < 2 ^ rs) (hrs2 : rs ≤ 16) (hw : ∀ w ∈ slots, w < 2 ^ 64) :
    ∀ w ∈ write_slot slots i r rs, w < 2 ^ 64 := by
  have hgetD : ∀ (l : List Nat) (k : Nat), (∀ w ∈ l, w < 2 ^ 64) →
      l.getD k 0 < 2 ^ 64 := by
    intro l k hl
    by_cases hk : k < l.length
    · refine hl _ ?_
      rw [List.getD_eq_getElem _ _ hk]
      exact List.getElem_mem hk
    · rw [List.getD_eq_default _ _ (by omega)]
      positivity
  have hset : ∀ (l : List Nat) (k v : Nat), (∀ w ∈ l, w < 2 ^ 64) → v < 2 ^ 64 →
      ∀ w ∈ l.set k v, w < 2 ^ 64 := by
    intro l k v hl hv w hmem
    rcases List.mem_or_eq_of_mem_set hmem with h | h
    · exact hl w h
    · omega
  simp only [write_slot]
  by_cases h : i * rs % 64 + rs > 64
  · simp only [h, if_true]
    refine hset _ _ _ (hset _ _ _ hw ?_) ?_
    · refine Nat.or_lt_two_pow (lt_of_le_of_lt Nat.and_le_left (hgetD _ _ hw)) ?_
      exact Nat.mod_lt _ (by positivity)
    · refine Nat.or_lt_two_pow
        (lt_of_le_of_lt Nat.and_le_left (hgetD _ _ (hset _ _ _ hw ?_))) ?_
      · refine Nat.or_lt_two_pow (lt_of_le_of_lt Nat.and_le_left (hgetD _ _ hw)) ?_
        exact Nat.mod_lt _ (by positivity)
      · have hle : r >>> (rs - (i * rs % 64 + rs - 64)) ≤ r := by
          rw [Nat.shiftRight_eq_div_pow]
          exact Nat.div_le_self _ _
        have : (2 : Nat) ^ rs ≤ 2 ^ 64 := Nat.pow_le_pow_right (by norm_num) (by omega)
        omega
  · simp only [h, if_false, ite_false]
    refine hset _ _ _ hw ?_
    refine Nat.or_lt_two_pow (lt_of_le_of_lt Nat.and_le_left (hgetD _ _ hw)) ?_
    exact Nat.mod_lt _ (by positivity)

/-- The bit-level effect of `write_slot`: exactly the bits of slot `i`
change, and they take the bits of the remainder. -/
theorem get_bit_write_slot (slots : List Nat) (i r rs : Nat)
    (hrs1 : 1 ≤ rs) (hrs2 : rs ≤ 16) (hr : r < 2 ^ rs)
    (hcap : (i + 1) * rs ≤ 64 * slots.length) (p : Nat) :
    get_bit (write_slot slots i r rs) p =
      if i * rs ≤ p ∧ p < (i + 1) * rs then r.testBit (p - i * rs)
      else get_bit slots p := by
  have hmul : (i + 1) * rs = i * rs + rs := by rw [Nat.succ_mul]
  have hwilt : i * rs / 64 < slots.length := by omega
  simp only [write_slot]
  by_cases hov : i * rs % 64 + rs > 64
  · rw [if_pos hov]
    have hwi1lt : i * rs / 64 + 1 < slots.length := by omega
    rw [get_bit_eq_testBit]
    by_cases hpw : p / 64 = i * rs / 64
    · rw [hpw, getD_set_ne _ _ _ _ (by omega), getD_set_self _ _ _ hwilt]
      rw [word_writeback_bit _ r rs (i * rs % 64) (p % 64) (by omega) hr]
      by_cases hin : i * rs ≤ p ∧ p < (i + 1) * rs
      · have hj : i * rs % 64 ≤ p % 64 ∧ p % 64 < i * rs % 64 + rs := by omega
        rw [if_pos hj, if_pos hin]
        congr 1
        omega
      · have hj : ¬(i * rs % 64 ≤ p % 64 ∧ p % 64 < i * rs % 64 + rs) := by omega
        rw [if_neg hj, if_neg hin, get_bit_eq_testBit, hpw]
    · by_cases hpw1 : p / 64 = i * rs / 64 + 1
      · rw [hpw1, getD_set_self _ _ _ (by rw [List.length_set]; omega),
          getD_set_ne _ _ _ _ (by omega)]
        rw [word_overflow_bit _ r rs (i * rs % 64 + rs - 64) (p % 64) (by omega)
          (by omega) hr]
        by_cases hin : i * rs ≤ p ∧ p < (i + 1) * rs
        · have hj : p % 64 < i * rs % 64 + rs - 64 := by omega
          rw [if_pos hj, if_pos hin]
          congr 1
          omega
        · have hj : ¬(p % 64 < i * rs % 64 + rs - 64) := by omega
          rw [if_neg hj, if_neg hin, get_bit_eq_testBit, hpw1]
      · have hout : ¬(i * rs ≤ p ∧ p < (i + 1) * rs) := by omega
        rw [if_neg hout, getD_set_ne _ _ _ _ (by omega), getD_set_ne _ _ _ _ (by omega),
          get_bit_eq_testBit]
  · rw [if_neg hov, get_bit_eq_testBit]
    by_cases hpw : p / 64 = i * rs / 64
    · rw [hpw, getD_set_self _ _ _ hwilt]
      rw [word_writeback_bit _ r rs (i * rs % 64) (p % 64) (by omega) hr]
      by_cases hin : i * rs ≤ p ∧ p < (i + 1) * rs
      · have hj : i * rs % 64 ≤ p % 64 ∧ p % 64 < i * rs % 64 + rs := by omega
        rw [if_pos hj, if_pos hin]
        congr 1
        omega
      · have hj : ¬(i * rs % 64 ≤ p % 64 ∧ p % 64 < i * rs % 64 + rs) := by omega
        rw [if_neg hj, if_neg hin, get_bit_eq_testBit, hpw]
    · have hout : ¬(i * rs ≤ p ∧ p < (i + 1) * rs) := by omega
      rw [if_neg hout, getD_set_ne _ _ _ _ (by omega), get_bit_eq_testBit]

theorem getD_lt_two_pow (l : List Nat) (k : Nat) (hl : ∀ w ∈ l, w < 2 ^ 64) :
    l.getD k 0 < 2 ^ 64 := by
  by_cases hk : k < l.length
  · refine hl _ ?_
    rw [List.getD_eq_getElem _ _ hk]
    exact List.getElem_mem hk
  · rw [List.getD_eq_default _ _ (by omega)]
    positivity

/-- `read_slot_raw` recovers the value whose bits sit in slot `i`. -/
theorem read_slot_raw_spec (slots : List Nat) (i rs v : Nat)
    (hrs1 : 1 ≤ rs) (hrs2 : rs ≤ 16) (hv : v < 2 ^ rs)
    (hwords : ∀ w ∈ slots, w < 2 ^ 64)
    (hbits : ∀ b, b < rs → get_bit slots (i * rs + b) = v.testBit b) :
    read_slot_raw slots i rs = v := by
  simp only [read_slot_raw]
  by_cases hov : i * rs % 64 + rs > 64
  · rw [if_pos hov]
    refine Nat.eq_of_testBit_eq fun b => ?_
    rw [Nat.testBit_or, Nat.testBit_and, Nat.one_shiftLeft, Nat.one_shiftLeft,
      Nat.testBit_two_pow_sub_one, Nat.testBit_shiftRight, Nat.testBit_mod_two_pow,
      Nat.testBit_shiftLeft, Nat.testBit_and, Nat.testBit_two_pow_sub_one]
    by_cases hb1 : b < rs - (i * rs % 64 + rs - 64)
    · have hblt : b < rs := by omega
      have hbit := hbits b hblt
      rw [get_bit_eq_testBit] at hbit
      have hd : (i * rs + b) / 64 = i * rs / 64 := by omega
      have hm : (i * rs + b) % 64 = i * rs % 64 + b := by omega
      rw [hd, hm] at hbit
      rw [List.getD_eq_getElem?_getD] at hbit
      have hge : ¬(rs - (i * rs % 64 + rs - 64) ≤ b) := by omega
      simp [hbit, hblt, hge, ge_iff_le]
    · by_cases hb2 : b < rs
      · have hw0 : (slots.getD (i * rs / 64) 0).testBit (i * rs % 64 + b) = false :=
          Nat.testBit_lt_two_pow
            (lt_of_lt_of_le (getD_lt_two_pow _ _ hwords)
              (Nat.pow_le_pow_right (by norm_num) (by omega)))
        have hbit := hbits b hb2
        rw [get_bit_eq_testBit] at hbit
        have hd : (i * rs + b) / 64 = i * rs / 64 + 1 := by omega
        have hm : (i * rs + b) % 64 = b - (rs - (i * rs % 64 + rs - 64)) := by omega
        rw [hd, hm] at hbit
        have hge : rs - (i * rs % 64 + rs - 64) ≤ b := by omega
        have hxlt : b - (rs - (i * rs % 64 + rs - 64)) < i * rs % 64 + rs - 64 := by omega
        have hb64 : b < 64 := by omega
        rw [List.getD_eq_getElem?_getD] at hbit hw0
        simp [hbit, hb2, hge, hxlt, hb64, hw0, ge_iff_le]
      · have hvb : v.testBit b = false :=
          Nat.testBit_lt_two_pow
            (lt_of_lt_of_le hv (Nat.pow_le_pow_right (by norm_num) (by omega)))
        have hxge : ¬(b - (rs - (i * rs % 64 + rs - 64)) < i * rs % 64 + rs - 64) := by
          omega
        simp [hb2, hvb, hxge, ge_iff_le]
  · rw [if_neg hov]
    refine Nat.eq_of_testBit_eq fun b => ?_
    rw [Nat.testBit_and, Nat.one_shiftLeft, Nat.testBit_two_pow_sub_one,
      Nat.testBit_shiftRight]
    by_cases hb : b < rs
    · have hbit := hbits b hb
      rw [get_bit_eq_testBit] at hbit
      have hd : (i * rs + b) / 64 = i * rs / 64 := by omega
      have hm : (i * rs + b) % 64 = i * rs % 64 + b := by omega
      rw [hd, hm] at hbit
      rw [List.getD_eq_getElem?_getD] at hbit
      simp [hbit, hb]
    · have hvb : v.testBit b = false :=
        Nat.testBit_lt_two_pow
          (lt_of_lt_of_le hv (Nat.pow_le_pow_right (by norm_num) (by omega)))
      simp [hb, hvb]

/-- Occupieds-region invariant: bit `q` of the occupieds bitmap is set
exactly for the quotients of the loaded infixes. -/
def occInv (d L : List Nat) (rs : Nat) : Prop :=
  ∀ p, p < 1024 →
    (get_bit d (64 + p) = true ↔ ∃ j, j < L.length ∧ L.getD j 0 >>> rs = p)

/-- Runends-region invariant during the load loop: bit `p` is set exactly
at the interior run boundaries seen so far. -/
def runInv (d L : List Nat) (rs runW : Nat) : Prop :=
  ∀ p, p < 64 * runW →
    (get_bit d (64 * 17 + p) = true ↔
      (p + 1 < L.length ∧ L.getD (p + 1) 0 >>> rs ≠ L.getD p 0 >>> rs))

/-- Slots-region invariant: the bits of slot `j` hold the `j`-th loaded
remainder. -/
def slotInv (d L : List Nat) (rs runW slotW : Nat) : Prop :=
  ∀ p, p < 64 * slotW →
    (get_bit d (64 * (17 + runW) + p) = true ↔
      (p < L.length * rs ∧ (L.getD (p / rs) 0 &&& ((1 <<< rs) - 1)).testBit (p % rs)))

theorem mem_sliceOf (data : List Nat) (s w x : Nat) (hx : x ∈ sliceOf data s w) :
    x ∈ data := by
  unfold sliceOf at hx
  exact List.mem_of_mem_drop (List.mem_of_mem_take hx)

theorem word_bound_updateSlice (d : List Nat) (s w : Nat) (f : List Nat → List Nat)
    (hf : ∀ x ∈ f (sliceOf d s w), x < 2 ^ 64) (hd : ∀ x ∈ d, x < 2 ^ 64) :
    ∀ x ∈ updateSlice d s w f, x < 2 ^ 64 := by
  intro x hx
  unfold updateSlice at hx
  rw [List.append_assoc] at hx
  rcases List.mem_append.mp hx with h | h
  · exact hd x (List.mem_of_mem_take h)
  · rcases List.mem_append.mp h with h2 | h2
    · exact hf x h2
    · exact hd x (List.mem_of_mem_drop h2)

/-- The main loop invariant of `load_infixes_to_store`: `loadAux` extends
all three region invariants by the remaining infixes. -/
theorem loadAux_spec (rs runW slotW : Nat) (hrs1 : 1 ≤ rs) (hrs2 : rs ≤ 16) :
    ∀ (rest processed d : List Nat),
    d.length = 17 + runW + slotW →
    (∀ w ∈ d, w < 2 ^ 64) →
    (processed ++ rest).length * rs ≤ 64 * slotW →
    (processed ++ rest).length ≤ 64 * runW →
    (∀ inf ∈ processed ++ rest, inf >>> rs < 1024) →
    occInv d processed rs →
    runInv d processed rs runW →
    slotInv d processed rs runW slotW →
    (loadAux rs 16 17 runW (17 + runW) slotW d rest processed.length
        (if processed.length = 0 then none
         else some (processed.getD (processed.length - 1) 0 >>> rs))).2 =
      (processed ++ rest).length ∧
    (loadAux rs 16 17 runW (17 + runW) slotW d rest processed.length
        (if processed.length = 0 then none
         else some (processed.getD (processed.length - 1) 0 >>> rs))).1.length =
      d.length ∧
    (∀ w ∈ (loadAux rs 16 17 runW (17 + runW) slotW d rest processed.length
        (if processed.length = 0 then none
         else some (processed.getD (processed.length - 1) 0 >>> rs))).1, w < 2 ^ 64) ∧
    occInv (loadAux rs 16 17 runW (17 + runW) slotW d rest processed.length
        (if processed.length = 0 then none
         else some (processed.getD (processed.length - 1) 0 >>> rs))).1
      (processed ++ rest) rs ∧
    runInv (loadAux rs 16 17 runW (17 + runW) slotW d rest processed.length
        (if processed.length = 0 then none
         else some (processed.getD (processed.length - 1) 0 >>> rs))).1
      (processed ++ rest) rs runW ∧
    slotInv (loadAux rs 16 17 runW (17 + runW) slotW d rest processed.length
        (if processed.length = 0 then none
         else some (processed.getD (processed.length - 1) 0 >>> rs))).1
      (processed ++ rest) rs runW slotW := by
  intro rest
  induction rest with
  | nil =>
    intro processed d hdlen hdw hcap hruncap hq hocc hrun hslot
    rw [List.append_nil]
    exact ⟨rfl, rfl, hdw, hocc, hrun, hslot⟩
  | cons inf rest ih =>
    intro processed d hdlen hdw hcap hruncap hq hocc hrun hslot
    have hqlt : inf >>> rs < 1024 := hq inf (by simp)
    have hlenapp : (processed ++ inf :: rest).length =
        processed.length + 1 + rest.length := by
      rw [List.length_append, List.length_cons]
      omega
    have hocc_ok : 1 + 16 ≤ d.length := by omega
    have hslice_occ : (sliceOf d 1 16).length = 16 := length_sliceOf _ _ _ hocc_ok
    -- step 1: occupieds update
    have hlen1span : (set_bit (sliceOf d 1 16) (inf >>> rs)).length = 16 := by
      rw [length_set_bit, hslice_occ]
    have hd1len : (updateSlice d 1 16 (fun s => set_bit s (inf >>> rs))).length =
        d.length :=
      length_updateSlice _ _ _ _ hlen1span hocc_ok
    have hd1w : ∀ w ∈ updateSlice d 1 16 (fun s => set_bit s (inf >>> rs)),
        w < 2 ^ 64 :=
      word_bound_updateSlice _ _ _ _
        (word_bound_set_bit _ _ (fun x hx => hdw x (mem_sliceOf _ _ _ _ hx))) hdw
    have hd1bit : ∀ p, get_bit (updateSlice d 1 16 (fun s => set_bit s (inf >>> rs))) p =
        if p = 64 + inf >>> rs then true else get_bit d p := by
      intro p
      rw [get_bit_updateSlice _ _ _ _ hlen1span hocc_ok]
      by_cases hin : 64 * 1 ≤ p ∧ p < 64 * (1 + 16)
      · rw [if_pos hin,
          get_bit_set_bit (sliceOf d 1 16) (inf >>> rs) (by rw [hslice_occ]; omega),
          get_bit_sliceOf]
        by_cases hpq : p = 64 + inf >>> rs
        · rw [if_pos (by omega), if_pos hpq]
        · rw [if_neg (by omega), if_neg hpq, if_pos (by omega)]
          congr 1
          omega
      · have hne : ¬(p = 64 + inf >>> rs) := by
          obtain ⟨A, hA⟩ : ∃ A, inf >>> rs = A := ⟨_, rfl⟩
          have hqlt2 := hqlt
          rw [hA] at hqlt2 ⊢
          omega
        rw [if_neg hin, if_neg hne]
    set d1 := updateSlice d 1 16 (fun s => set_bit s (inf >>> rs)) with hd1def
    -- step 2: conditional runend update
    set C := is_last_check
      (if processed.length = 0 then none
       else some (processed.getD (processed.length - 1) 0 >>> rs)) (inf >>> rs)
      with hCdef
    have hcond : C = true ↔
        (0 < processed.length ∧
          processed.getD (processed.length - 1) 0 >>> rs ≠ inf >>> rs) := by
      rw [hCdef]
      by_cases h0 : processed.length = 0
      · simp [h0, is_last_check]
      · rw [if_neg h0]
        simp only [is_last_check, bne_iff_ne, ne_eq]
        constructor
        · intro hne
          exact ⟨Nat.pos_of_ne_zero h0, hne⟩
        · intro hc
          exact hc.2
    have hslice_run : (sliceOf d1 17 runW).length = runW :=
      length_sliceOf _ _ _ (by omega)
    have hlen2span : (set_bit (sliceOf d1 17 runW) (processed.length - 1)).length =
        runW := by
      rw [length_set_bit, hslice_run]
    set d2 := if C then
        updateSlice d1 17 runW (fun s => set_bit s (processed.length - 1))
      else d1 with hd2def
    have hd2len : d2.length = d.length := by
      rw [hd2def]
      by_cases h : C
      · rw [if_pos h, length_updateSlice _ _ _ _ hlen2span (by omega), hd1len]
      · rw [if_neg h, hd1len]
    have hd2w : ∀ w ∈ d2, w < 2 ^ 64 := by
      rw [hd2def]
      by_cases h : C
      · rw [if_pos h]
        exact word_bound_updateSlice _ _ _ _
          (word_bound_set_bit _ _ (fun x hx => hd1w x (mem_sliceOf _ _ _ _ hx))) hd1w
      · rw [if_neg h]
        exact hd1w
    have hd2bit : ∀ p, get_bit d2 p =
        if C = true ∧ p = 64 * 17 + (processed.length - 1) then true
        else get_bit d1 p := by
      intro p
      rw [hd2def]
      by_cases h : C
      · rw [if_pos h, get_bit_updateSlice _ _ _ _ hlen2span (by omega)]
        have hposlt : processed.length - 1 < 64 * runW := by
          have h0 := (hcond.mp h).1
          rw [hlenapp] at hruncap
          omega
        by_cases hin : 64 * 17 ≤ p ∧ p < 64 * (17 + runW)
        · rw [if_pos hin,
            get_bit_set_bit (sliceOf d1 17 runW) (processed.length - 1)
              (by rw [hslice_run]; omega),
            get_bit_sliceOf]
          by_cases hpq : p = 64 * 17 + (processed.length - 1)
          · rw [if_pos (by omega), if_pos ⟨h, hpq⟩]
          · have hne1 : ¬(p - 64 * 17 = processed.length - 1) := by omega
            have hne2 : ¬(C = true ∧ p = 64 * 17 + (processed.length - 1)) := by
              intro hcon
              exact hpq hcon.2
            have hlt2 : p - 64 * 17 < 64 * runW := by omega
            have harg : 64 * 17 + (p - 64 * 17) = p := by omega
            rw [if_neg hne1, if_neg hne2, if_pos hlt2, harg]
        · have hne2 : ¬(C = true ∧ p = 64 * 17 + (processed.length - 1)) := by
            rintro ⟨_, hpe⟩
            rw [hpe] at hin
            exact hin ⟨by omega, by omega⟩
          rw [if_neg hin, if_neg hne2]
      · have hne2 : ¬(C = true ∧ p = 64 * 17 + (processed.length - 1)) := by
          intro hcon
          exact h hcon.1
        rw [if_neg h, if_neg hne2]
    -- step 3: slot write
    have hrlt : inf &&& ((1 <<< rs) - 1) < 2 ^ rs := by
      rw [Nat.one_shiftLeft, Nat.and_pow_two_sub_one_eq_mod]
      exact Nat.mod_lt _ (by positivity)
    have hslice_slot : (sliceOf d2 (17 + runW) slotW).length = slotW :=
      length_sliceOf _ _ _ (by omega)
    have hslotcap : (processed.length + 1) * rs ≤ 64 * slotW := by
      rw [hlenapp] at hcap
      calc (processed.length + 1) * rs
          ≤ (processed.length + 1 + rest.length) * rs :=
            Nat.mul_le_mul_right _ (by omega)
        _ ≤ 64 * slotW := hcap
    have hlen3span : (write_slot (sliceOf d2 (17 + runW) slotW) processed.length
        (inf &&& ((1 <<< rs) - 1)) rs).length = slotW := by
      rw [length_write_slot, hslice_slot]
    set d3 := updateSlice d2 (17 + runW) slotW
      (fun s => write_slot s processed.length (inf &&& ((1 <<< rs) - 1)) rs)
      with hd3def
    have hd3len : d3.length = d.length := by
      rw [hd3def, length_updateSlice _ _ _ _ hlen3span (by omega), hd2len]
    have hd3w : ∀ w ∈ d3, w < 2 ^ 64 := by
      rw [hd3def]
      exact word_bound_updateSlice _ _ _ _
        (word_bound_write_slot _ _ _ _ hrlt hrs2
          (fun x hx => hd2w x (mem_sliceOf _ _ _ _ hx))) hd2w
    have hmulp1 : (processed.length + 1) * rs = processed.length * rs + rs := by
      rw [Nat.succ_mul]
    have hd3bit : ∀ p, get_bit d3 p =
        if 64 * (17 + runW) + processed.length * rs ≤ p ∧
            p < 64 * (17 + runW) + (processed.length + 1) * rs then
          (inf &&& ((1 <<< rs) - 1)).testBit
            (p - (64 * (17 + runW) + processed.length * rs))
        else get_bit d2 p := by
      intro p
      rw [hd3def, get_bit_updateSlice _ _ _ _ hlen3span (by omega)]
      by_cases hin : 64 * (17 + runW) ≤ p ∧ p < 64 * (17 + runW + slotW)
      · rw [if_pos hin,
          get_bit_write_slot (sliceOf d2 (17 + runW) slotW) processed.length
            (inf &&& ((1 <<< rs) - 1)) rs hrs1 hrs2 hrlt
            (by rw [hslice_slot]; exact hslotcap)]
        by_cases hslotp : 64 * (17 + runW) + processed.length * rs ≤ p ∧
            p < 64 * (17 + runW) + (processed.length + 1) * rs
        · rw [if_pos (by omega), if_pos hslotp]
          congr 1
          omega
        · have harg : 64 * (17 + runW) + (p - 64 * (17 + runW)) = p := by omega
          rw [if_neg (by omega), if_neg hslotp, get_bit_sliceOf, if_pos (by omega),
            harg]
      · have hout : ¬(64 * (17 + runW) + processed.length * rs ≤ p ∧
            p < 64 * (17 + runW) + (processed.length + 1) * rs) := by omega
        rw [if_neg hin, if_neg hout]
    -- getD transfers to the extended list
    have hget_app_lt : ∀ j, j < processed.length →
        (processed ++ [inf]).getD j 0 = processed.getD j 0 := by
      intro j hj
      exact getD_append_left _ _ _ hj
    have hget_app_last : (processed ++ [inf]).getD processed.length 0 = inf := by
      rw [getD_append_right _ _ _ (le_refl _), Nat.sub_self]
      rfl
    have hlen_app1 : (processed ++ [inf]).length = processed.length + 1 := by
      rw [List.length_append, List.length_singleton]
    -- extended invariants
    have hocc3 : occInv d3 (processed ++ [inf]) rs := by
      intro p hp
      rw [hd3bit, if_neg (by omega), hd2bit, if_neg (by
          rintro ⟨hC, hpe⟩
          have h0 := (hcond.mp hC).1
          rw [hlenapp] at hruncap
          omega),
        hd1bit, hlen_app1]
      by_cases hpq : 64 + p = 64 + inf >>> rs
      · rw [if_pos hpq]
        refine ⟨fun _ => ⟨processed.length, by omega, ?_⟩, fun _ => rfl⟩
        rw [hget_app_last]
        omega
      · rw [if_neg hpq]
        rw [hocc p hp]
        constructor
        · rintro ⟨j, hj, hjq⟩
          exact ⟨j, by omega, by rw [hget_app_lt j hj]; exact hjq⟩
        · rintro ⟨j, hj, hjq⟩
          by_cases hjlt : j < processed.length
          · rw [hget_app_lt j hjlt] at hjq
            exact ⟨j, hjlt, hjq⟩
          · exfalso
            have hjeq : j = processed.length := by omega
            subst hjeq
            rw [hget_app_last] at hjq
            omega
    have hrun3 : runInv d3 (processed ++ [inf]) rs runW := by
      intro p hp
      have hd1at : get_bit d1 (64 * 17 + p) = get_bit d (64 * 17 + p) := by
        rw [hd1bit, if_neg (by omega)]
      rw [hd3bit, if_neg (by omega), hd2bit, hd1at, hlen_app1]
      by_cases hpc : p + 1 < processed.length
      · rw [if_neg (by
          rintro ⟨hC, hpe⟩
          have h0 := (hcond.mp hC).1
          omega)]
        rw [hrun p hp, hget_app_lt (p + 1) hpc, hget_app_lt p (by omega)]
        constructor
        · rintro ⟨h1, h2⟩
          exact ⟨by omega, h2⟩
        · rintro ⟨_, h2⟩
          exact ⟨hpc, h2⟩
      · by_cases hpe : p + 1 = processed.length
        · have ht1 : 0 < processed.length := by omega
          have hgp1 : (processed ++ [inf]).getD (p + 1) 0 = inf := by
            rw [hpe, hget_app_last]
          have hgp : (processed ++ [inf]).getD p 0 = processed.getD p 0 :=
            hget_app_lt p (by omega)
          rw [hgp1, hgp]
          by_cases hC : C = true
          · rw [if_pos ⟨hC, by omega⟩]
            refine ⟨fun _ => ⟨by omega, ?_⟩, fun _ => rfl⟩
            have hne := (hcond.mp hC).2
            have hpeq : p = processed.length - 1 := by omega
            rw [hpeq]
            exact fun hcon => hne hcon.symm
          · rw [if_neg (by
              rintro ⟨hC2, _⟩
              exact hC hC2)]
            rw [hrun p hp]
            constructor
            · rintro ⟨h1, _⟩
              exact absurd h1 (by omega)
            · rintro ⟨_, hne⟩
              exfalso
              have heq : processed.getD (processed.length - 1) 0 >>> rs = inf >>> rs := by
                by_contra hcon
                exact hC (hcond.mpr ⟨ht1, hcon⟩)
              have hpeq : p = processed.length - 1 := by omega
              rw [hpeq] at hne
              exact hne heq.symm
        · rw [if_neg (by
            rintro ⟨hC, hpe2⟩
            have h0 := (hcond.mp hC).1
            omega)]
          rw [hrun p hp]
          constructor
          · rintro ⟨h1, _⟩
            exact absurd h1 (by omega)
          · rintro ⟨h1, _⟩
            exact absurd h1 (by omega)
    have hslot3 : slotInv d3 (processed ++ [inf]) rs runW slotW := by
      intro p hp
      rw [hd3bit, hlen_app1]
      by_cases hin : processed.length * rs ≤ p ∧ p < (processed.length + 1) * rs
      · rw [if_pos (by omega)]
        have hdiv : p / rs = processed.length := Nat.div_eq_of_lt_le hin.1 hin.2
        have hdm := Nat.div_add_mod p rs
        rw [hdiv, Nat.mul_comm] at hdm
        have hmod : p % rs = p - processed.length * rs := by omega
        rw [hdiv, hmod, hget_app_last]
        constructor
        · intro hbit
          refine ⟨by omega, ?_⟩
          have hidx : 64 * (17 + runW) + p - (64 * (17 + runW) + processed.length * rs) =
              p - processed.length * rs := by omega
          rw [hidx] at hbit
          exact hbit
        · rintro ⟨_, hbit⟩
          have hidx : 64 * (17 + runW) + p - (64 * (17 + runW) + processed.length * rs) =
              p - processed.length * rs := by omega
          rw [hidx]
          exact hbit
      · rw [if_neg (by omega), hd2bit, if_neg (by
          rintro ⟨hC, hpe⟩
          have h0 := (hcond.mp hC).1
          rw [hlenapp] at hruncap
          omega),
          hd1bit, if_neg (by omega)]
        rw [hslot p hp]
        by_cases hplt : p < processed.length * rs
        · have hdivlt : p / rs < processed.length :=
            Nat.div_lt_of_lt_mul (by rw [Nat.mul_comm]; exact hplt)
          rw [hget_app_lt (p / rs) hdivlt]
          constructor
          · rintro ⟨_, hbit⟩
            exact ⟨by omega, hbit⟩
          · rintro ⟨_, hbit⟩
            exact ⟨hplt, hbit⟩
        · constructor
          · rintro ⟨h1, _⟩
            exact absurd h1 hplt
          · rintro ⟨h1, _⟩
            exact absurd h1 (by omega)
    -- take the loop step and apply the induction hypothesis
    have hstep : loadAux rs 16 17 runW (17 + runW) slotW d (inf :: rest)
        processed.length
        (if processed.length = 0 then none
         else some (processed.getD (processed.length - 1) 0 >>> rs)) =
        loadAux rs 16 17 runW (17 + runW) slotW d3 rest (processed.length + 1)
          (some (inf >>> rs)) := rfl
    have hassoc : processed ++ inf :: rest = (processed ++ [inf]) ++ rest := by
      rw [List.append_assoc]
      rfl
    have happlen : (processed ++ [inf]).length = processed.length + 1 := hlen_app1
    have hprev : (if (processed ++ [inf]).length = 0 then none
        else some ((processed ++ [inf]).getD ((processed ++ [inf]).length - 1) 0 >>> rs)) =
        some (inf >>> rs) := by
      rw [happlen, if_neg (by omega)]
      have : processed.length + 1 - 1 = processed.length := by omega
      rw [this, hget_app_last]
    have hih := ih (processed ++ [inf]) d3
      (by rw [hd3len, hdlen])
      hd3w
      (by rw [← hassoc]; exact hcap)
      (by rw [← hassoc]; exact hruncap)
      (by rw [← hassoc]; exact hq)
      hocc3 hrun3 hslot3
    rw [hprev, happlen, hd3len] at hih
    rw [hstep, hassoc]
    exact hih

theorem getD_zero_of_all_zero (l : List Nat) (h : ∀ x ∈ l, x = 0) (k : Nat) :
    l.getD k 0 = 0 := by
  by_cases hk : k < l.length
  · refine h _ ?_
    rw [List.getD_eq_getElem _ _ hk]
    exact List.getElem_mem hk
  · rw [List.getD_eq_default _ _ (by omega)]

/-- All-zero data has no set bits. -/
theorem get_bit_all_zero (data : List Nat) (h : ∀ x ∈ data, x = 0) (p : Nat) :
    get_bit data p = false := by
  rw [get_bit_eq_testBit, getD_zero_of_all_zero _ h]
  exact Nat.zero_testBit _

/-- Setting one bit inside a region changes exactly that global bit. -/
theorem get_bit_set_bit_region (d : List Nat) (s w q : Nat)
    (hsw : s + w ≤ d.length) (hq : q < 64 * w) (p : Nat) :
    get_bit (updateSlice d s w (fun t => set_bit t q)) p =
      if p = 64 * s + q then true else get_bit d p := by
  have hsl : (sliceOf d s w).length = w := length_sliceOf _ _ _ hsw
  have hspan : (set_bit (sliceOf d s w) q).length = w := by
    rw [length_set_bit, hsl]
  rw [get_bit_updateSlice _ _ _ _ hspan hsw]
  by_cases hin : 64 * s ≤ p ∧ p < 64 * (s + w)
  · rw [if_pos hin, get_bit_set_bit (sliceOf d s w) q (by rw [hsl]; exact hq),
      get_bit_sliceOf]
    by_cases hpq : p = 64 * s + q
    · rw [if_pos (by omega), if_pos hpq]
    · have harg : 64 * s + (p - 64 * s) = p := by omega
      rw [if_neg (by omega), if_neg hpq, if_pos (by omega), harg]
  · have hno : ¬(p = 64 * s + q) := by omega
    rw [if_neg hin, if_neg hno]

theorem length_set_bit_region (d : List Nat) (s w q : Nat) (hsw : s + w ≤ d.length) :
    (updateSlice d s w (fun t => set_bit t q)).length = d.length := by
  refine length_updateSlice _ _ _ _ ?_ hsw
  rw [length_set_bit, length_sliceOf _ _ _ hsw]

theorem word_bound_set_bit_region (d : List Nat) (s w q : Nat)
    (hd : ∀ x ∈ d, x < 2 ^ 64) :
    ∀ x ∈ updateSlice d s w (fun t => set_bit t q), x < 2 ^ 64 :=
  word_bound_updateSlice _ _ _ _
    (word_bound_set_bit _ _ (fun x hx => hd x (mem_sliceOf _ _ _ _ hx))) hd

theorem length_compute_popcounts (data : List Nat) (occS runS ns : Nat) :
    (compute_popcounts data occS runS ns).length = data.length := by
  simp only [compute_popcounts]
  exact List.length_set _ _ _

/-- `compute_popcounts` only touches word 0 of the data. -/
theorem get_bit_compute_popcounts (data : List Nat) (occS runS ns p : Nat)
    (hp : 64 ≤ p) :
    get_bit (compute_popcounts data occS runS ns) p = get_bit data p := by
  simp only [compute_popcounts]
  rw [get_bit_eq_testBit, get_bit_eq_testBit, getD_set_ne _ _ _ _ (by omega)]

theorem word_bound_compute_popcounts (data : List Nat) (occS runS ns : Nat)
    (hd : ∀ x ∈ data, x < 2 ^ 64) :
    ∀ x ∈ compute_popcounts data occS runS ns, x < 2 ^ 64 := by
  simp only [compute_popcounts]
  intro x hx
  rcases List.mem_or_eq_of_mem_set hx with h | h
  · exact hd x h
  · subst h
    refine Nat.or_lt_two_pow ?_ ?_
    · rw [Nat.shiftLeft_eq]
      have h1 : rank (sliceOf data occS ((TARGET_SIZE + 63) / 64)) (TARGET_SIZE / 2) %
          2 ^ 32 < 2 ^ 32 := Nat.mod_lt _ (by positivity)
      calc rank (sliceOf data occS ((TARGET_SIZE + 63) / 64)) (TARGET_SIZE / 2) %
            2 ^ 32 * 2 ^ 32 < 2 ^ 32 * 2 ^ 32 :=
            mul_lt_mul_of_pos_right h1 (by positivity)
        _ = 2 ^ 64 := by norm_num
    · have h2 : rank (sliceOf data runS ((ns + 63) / 64)) (ns / 2) % 2 ^ 32 < 2 ^ 32 :=
        Nat.mod_lt _ (by positivity)
      have h3 : (2 : Nat) ^ 32 < 2 ^ 64 := by norm_num
      omega

/-- Counts that fit the largest grade get a store with enough slots. -/
theorem choose_size_grade_le (n : Nat) (hn : n ≤ 2326) :
    n ≤ SCALED_SIZES.getD (choose_size_grade n) 0 := by
  have hmod : n % 65536 = n := Nat.mod_eq_of_lt (by omega)
  unfold choose_size_grade
  rw [hmod]
  have h30 : SCALED_SIZES.getD 30 0 = 2326 := rfl
  have hfound := choose_size_grade_go_found n SIZE_GRADE_COUNT 0
    (fun g' hg' => absurd hg' (Nat.not_lt_zero _))
    ⟨30, by omega, by
      have h31 : SIZE_GRADE_COUNT = 31 := rfl
      omega, by omega⟩
  exact hfound.1

/-- Unfolding `new_with_infixes` on a nonempty input. -/
theorem new_with_infixes_ne (L : List Nat) (rs : Nat) (h : L ≠ []) :
    InfixStore.new_with_infixes L rs =
      { elem_count := L.length % 65536,
        size_grade := choose_size_grade L.length,
        remainder_size := rs,
        data := load_infixes_to_store
          (List.replicate (1 + (TARGET_SIZE + 63) / 64 +
            (SCALED_SIZES.getD (choose_size_grade L.length) 0 + 63) / 64 +
            (SCALED_SIZES.getD (choose_size_grade L.length) 0 * rs + 63) / 64) 0)
          L rs (SCALED_SIZES.getD (choose_size_grade L.length) 0) } := by
  cases L with
  | nil => exact absurd rfl h
  | cons a l => rfl

/-- Unfolding `new_with_infixes` on the empty input. -/
theorem new_with_infixes_nil (rs : Nat) :
    InfixStore.new_with_infixes [] rs =
      { elem_count := 0, size_grade := choose_size_grade 0,
        remainder_size := rs,
        data := List.replicate (1 + (TARGET_SIZE + 63) / 64 +
          (SCALED_SIZES.getD (choose_size_grade 0) 0 + 63) / 64 +
          (SCALED_SIZES.getD (choose_size_grade 0) 0 * rs + 63) / 64) 0 } := rfl

theorem is_occupied_mk (e g r : Nat) (data : List Nat) (q : Nat) :
    InfixStore.is_occupied ⟨e, g, r, data⟩ q = get_bit (sliceOf data 1 16) q := rfl

theorem is_runend_mk (e g r : Nat) (data : List Nat) (i : Nat) :
    InfixStore.is_runend ⟨e, g, r, data⟩ i =
      get_bit (sliceOf data 17 ((SCALED_SIZES.getD g 0 + 63) / 64)) i := rfl

theorem read_slot_mk (e g r : Nat) (data : List Nat) (i : Nat) :
    InfixStore.read_slot ⟨e, g, r, data⟩ i =
      read_slot_raw
        (sliceOf data (17 + (SCALED_SIZES.getD g 0 + 63) / 64)
          ((SCALED_SIZES.getD g 0 * r + 63) / 64)) i r := rfl

theorem bool_eq_of_iff (a b : Bool) (h : a = true ↔ b = true) : a = b := by
  cases a <;> cases b <;> simp_all

/-- Claim C2: For every sorted list of infixes whose quotients (the bits above
the low `remainder_size` bits) are all below 1024, with `remainder_size` in
`[1, 16]` and at most 2326 infixes, the store built by
`InfixStore::new_with_infixes` satisfies: `elem_count` equals the number of
input infixes; for every `i` below that count, `read_slot i` returns the
`i`-th input infix's remainder; `is_occupied q` holds exactly for the
quotients that appear in the input; and `is_runend i` holds exactly when slot
`i` holds the last infix of its quotient's run (the next infix has a
different quotient, or `i` is the final slot). -/
theorem infix_store_roundtrip (L : List Nat) (rs : Nat)
    (hrs1 : 1 ≤ rs) (hrs2 : rs ≤ 16)
    (hsorted : L.Pairwise (fun a b => a ≤ b))
    (hq : ∀ x ∈ L, x >>> rs < 1024)
    (hlen : L.length ≤ 2326) :
    (InfixStore.new_with_infixes L rs).elem_count = L.length ∧
    (∀ i, i < L.length →
      (InfixStore.new_with_infixes L rs).read_slot i =
        L.getD i 0 &&& ((1 <<< rs) - 1)) ∧
    (∀ q, ((InfixStore.new_with_infixes L rs).is_occupied q = true ↔
      ∃ j, j < L.length ∧ L.getD j 0 >>> rs = q)) ∧
    (∀ i, ((InfixStore.new_with_infixes L rs).is_runend i = true ↔
      (i < L.length ∧ (i + 1 = L.length ∨
        L.getD (i + 1) 0 >>> rs ≠ L.getD i 0 >>> rs)))) := by
  by_cases hL : L = []
  · subst hL
    rw [new_with_infixes_nil]
    have hzd : ∀ x ∈ List.replicate (1 + (TARGET_SIZE + 63) / 64 +
        (SCALED_SIZES.getD (choose_size_grade 0) 0 + 63) / 64 +
        (SCALED_SIZES.getD (choose_size_grade 0) 0 * rs + 63) / 64) (0 : Nat),
        x = 0 :=
      fun x hx => List.eq_of_mem_replicate hx
    refine ⟨rfl, ?_, ?_, ?_⟩
    · intro i hi
      exact absurd hi (by simp)
    · intro q
      rw [is_occupied_mk,
        get_bit_all_zero _ (fun x hx => hzd x (mem_sliceOf _ _ _ _ hx)) q]
      simp
    · intro i
      rw [is_runend_mk,
        get_bit_all_zero _ (fun x hx => hzd x (mem_sliceOf _ _ _ _ hx)) i]
      simp
  · have hLpos : 0 < L.length := by
      cases L with
      | nil => exact absurd rfl hL
      | cons a l => simp
    set g := choose_size_grade L.length with hg
    set ns := SCALED_SIZES.getD g 0 with hns
    set runW := (ns + 63) / 64 with hrunW
    set slotW := (ns * rs + 63) / 64 with hslotW
    set total := 1 + 16 + runW + slotW with htotal
    set d0 := List.replicate total (0 : Nat) with hd0
    have hnle : L.length ≤ ns := by
      rw [hns, hg]
      exact choose_size_grade_le _ hlen
    have hcapS : L.length * rs ≤ 64 * slotW := by
      have h1 : L.length * rs ≤ ns * rs := Nat.mul_le_mul_right _ hnle
      rw [hslotW]
      omega
    have hcapR : L.length ≤ 64 * runW := by
      rw [hrunW]
      omega
    have hd0len : d0.length = 17 + runW + slotW := by
      rw [hd0, List.length_replicate, htotal]
    have hd0w : ∀ x ∈ d0, x < 2 ^ 64 := by
      rw [hd0]
      intro x hx
      rw [List.eq_of_mem_replicate hx]
      positivity
    have hz0 : ∀ p, get_bit d0 p = false := by
      intro p
      rw [hd0]
      exact get_bit_all_zero _ (fun x hx => List.eq_of_mem_replicate hx) p
    have hocc0 : occInv d0 [] rs := by
      intro p hp
      rw [hz0]
      simp
    have hrun0 : runInv d0 [] rs runW := by
      intro p hp
      rw [hz0]
      simp
    have hslot0 : slotInv d0 [] rs runW slotW := by
      intro p hp
      rw [hz0]
      simp
    have hspec := loadAux_spec rs runW slotW hrs1 hrs2 L [] d0 hd0len hd0w
      (by rw [List.nil_append]; exact hcapS)
      (by rw [List.nil_append]; exact hcapR)
      (by rw [List.nil_append]; exact hq)
      hocc0 hrun0 hslot0
    have hLA : loadAux rs 16 17 runW (17 + runW) slotW d0 L
        ([] : List Nat).length
        (if ([] : List Nat).length = 0 then none
         else some (([] : List Nat).getD (([] : List Nat).length - 1) 0 >>> rs)) =
        loadAux rs 16 17 runW (17 + runW) slotW d0 L 0 none := rfl
    rw [hLA, List.nil_append] at hspec
    obtain ⟨hcnt, hlen1, hw1, hocc1, hrun1, hslot1⟩ := hspec
    set d1 := (loadAux rs 16 17 runW (17 + runW) slotW d0 L 0 none).1 with hd1
    have hunf : load_infixes_to_store d0 L rs ns =
        compute_popcounts
          (if (loadAux rs 16 17 runW (17 + runW) slotW d0 L 0 none).2 > 0 then
            updateSlice d1 17 runW
              (fun s => set_bit s
                ((loadAux rs 16 17 runW (17 + runW) slotW d0 L 0 none).2 - 1))
          else d1) 1 17 ns := rfl
    rw [hcnt] at hunf
    rw [if_pos (show L.length > 0 from hLpos)] at hunf
    set d2 := updateSlice d1 17 runW (fun s => set_bit s (L.length - 1)) with hd2
    set dfin := compute_popcounts d2 1 17 ns with hdfin
    have hd1len : d1.length = 17 + runW + slotW := by rw [hlen1, hd0len]
    have hd2len : d2.length = 17 + runW + slotW := by
      rw [hd2, length_set_bit_region _ _ _ _ (by omega), hd1len]
    have hd2w : ∀ x ∈ d2, x < 2 ^ 64 := by
      rw [hd2]
      exact word_bound_set_bit_region _ _ _ _ hw1
    have hd2bit : ∀ p, get_bit d2 p =
        if p = 64 * 17 + (L.length - 1) then true else get_bit d1 p := by
      intro p
      rw [hd2]
      exact get_bit_set_bit_region _ _ _ _ (by omega) (by omega) p
    have hflen : dfin.length = 17 + runW + slotW := by
      rw [hdfin, length_compute_popcounts, hd2len]
    have hfw : ∀ x ∈ dfin, x < 2 ^ 64 := by
      rw [hdfin]
      exact word_bound_compute_popcounts _ _ _ _ hd2w
    have hfbit : ∀ p, 64 ≤ p → get_bit dfin p = get_bit d2 p := by
      intro p hp
      rw [hdfin]
      exact get_bit_compute_popcounts _ _ _ _ p hp
    have hocc16 : (TARGET_SIZE + 63) / 64 = 16 := rfl
    rw [new_with_infixes_ne L rs hL, ← hg, ← hns, ← hrunW, ← hslotW, hocc16,
      ← htotal, ← hd0, hunf]
    refine ⟨Nat.mod_eq_of_lt (by omega), ?_, ?_, ?_⟩
    · intro i hi
      rw [read_slot_mk, ← hns, ← hrunW, ← hslotW]
      have hmul : (i + 1) * rs = i * rs + rs := by rw [Nat.succ_mul]
      have hle : (i + 1) * rs ≤ L.length * rs := Nat.mul_le_mul_right _ (by omega)
      refine read_slot_raw_spec _ _ _ _ hrs1 hrs2 ?_ ?_ ?_
      · rw [Nat.one_shiftLeft, Nat.and_pow_two_sub_one_eq_mod]
        exact Nat.mod_lt _ (by positivity)
      · intro x hx
        exact hfw x (mem_sliceOf _ _ _ _ hx)
      · intro b hb
        have hpb : i * rs + b < 64 * slotW := by omega
        rw [get_bit_sliceOf, if_pos hpb, hfbit _ (by omega), hd2bit,
          if_neg (by omega)]
        have hdiv : (i * rs + b) / rs = i :=
          Nat.div_eq_of_lt_le (by omega) (by omega)
        have hdm := Nat.div_add_mod (i * rs + b) rs
        rw [hdiv, Nat.mul_comm] at hdm
        have hmod : (i * rs + b) % rs = b := by omega
        have hs := hslot1 (i * rs + b) hpb
        rw [hdiv, hmod] at hs
        refine bool_eq_of_iff _ _ ?_
        rw [hs]
        constructor
        · rintro ⟨_, hbit⟩
          exact hbit
        · intro hbit
          exact ⟨by omega, hbit⟩
    · intro q
      rw [is_occupied_mk]
      by_cases hq1024 : q < 1024
      · rw [get_bit_sliceOf, if_pos (by omega), hfbit _ (by omega), hd2bit,
          if_neg (by omega)]
        have ho := hocc1 q hq1024
        have h641 : 64 * 1 + q = 64 + q := by omega
        rw [h641]
        exact ho
      · rw [get_bit_sliceOf, if_neg (by omega)]
        constructor
        · intro h
          exact absurd h Bool.false_ne_true
        · rintro ⟨j, hj, hjq⟩
          exfalso
          have hqj := hq (L.getD j 0) (by
            rw [List.getD_eq_getElem _ _ hj]
            exact List.getElem_mem hj)
          rw [hjq] at hqj
          exact hq1024 hqj
    · intro i
      rw [is_runend_mk, ← hns, ← hrunW]
      by_cases hiW : i < 64 * runW
      · rw [get_bit_sliceOf, if_pos hiW, hfbit _ (by omega), hd2bit]
        by_cases hieq : i = L.length - 1
        · rw [if_pos (by omega)]
          constructor
          · intro _
            exact ⟨by omega, Or.inl (by omega)⟩
          · intro _
            rfl
        · rw [if_neg (by omega)]
          have hr := hrun1 i hiW
          rw [hr]
          constructor
          · rintro ⟨h1, h2⟩
            exact ⟨by omega, Or.inr h2⟩
          · rintro ⟨h1, h2⟩
            rcases h2 with h2 | h2
            · exact absurd (by omega : i = L.length - 1) hieq
            · exact ⟨by omega, h2⟩
      · rw [get_bit_sliceOf, if_neg hiW]
        constructor
        · intro h
          exact absurd h Bool.false_ne_true
        · rintro ⟨h1, _⟩
          exact absurd h1 (by omega)

/-! ### X-Fast trie development: prefix arithmetic and list extrema -/

theorem shiftRight_le_shiftRight (a b n : Nat) (h : a ≤ b) : a >>> n ≤ b >>> n := by
  rw [Nat.shiftRight_eq_div_pow, Nat.shiftRight_eq_div_pow]
  exact Nat.div_le_div_right h

theorem lt_of_shiftRight_lt (a b n : Nat) (h : a >>> n < b >>> n) : a < b := by
  by_contra hcon
  exact absurd (shiftRight_le_shiftRight b a n (by omega)) (by omega)

/-- Matching prefixes are preserved when shifting further. -/
theorem shiftRight_down (a b s d : Nat) (h : a >>> s = b >>> s) :
    a >>> (s + d) = b >>> (s + d) := by
  rw [Nat.shiftRight_add, Nat.shiftRight_add, h]

theorem shiftRight_eq_zero_of_lt (a w : Nat) (h : a < 2 ^ w) : a >>> w = 0 := by
  rw [Nat.shiftRight_eq_div_pow]
  exact Nat.div_eq_of_lt h

/-- The top bit of a `w`-bit value is 0 or 1. -/
theorem top_bit_lt (a w : Nat) (hw : 1 ≤ w) (h : a < 2 ^ w) : a >>> (w - 1) < 2 := by
  rw [Nat.shiftRight_eq_div_pow]
  apply Nat.div_lt_of_lt_mul
  calc a < 2 ^ w := h
    _ = 2 ^ (w - 1) * 2 := by
        rw [← Nat.pow_succ]
        congr 1
        omega

theorem listMinD_eq_none (l : List Nat) : listMinD l = none ↔ l = [] := by
  cases l with
  | nil => simp [listMinD]
  | cons x xs =>
    rw [listMinD]
    cases listMinD xs <;> simp

theorem listMaxD_eq_none (l : List Nat) : listMaxD l = none ↔ l = [] := by
  cases l with
  | nil => simp [listMaxD]
  | cons x xs =>
    rw [listMaxD]
    cases listMaxD xs <;> simp

theorem listMinD_spec (l : List Nat) : ∀ m, listMinD l = some m →
    m ∈ l ∧ ∀ x ∈ l, m ≤ x := by
  induction l with
  | nil =>
    intro m h
    simp [listMinD] at h
  | cons x xs ih =>
    intro m h
    rw [listMinD] at h
    cases hxs : listMinD xs with
    | none =>
      rw [hxs] at h
      have hx : m = x := (Option.some.inj h).symm
      have hnil : xs = [] := (listMinD_eq_none xs).mp hxs
      subst hx
      subst hnil
      exact ⟨List.mem_singleton_self _, by
        intro y hy
        rw [List.mem_singleton.mp hy]⟩
    | some mm =>
      rw [hxs] at h
      have hx : m = min x mm := (Option.some.inj h).symm
      obtain ⟨hmem, hbd⟩ := ih mm hxs
      subst hx
      constructor
      · rcases Nat.le_total x mm with hle | hle
        · rw [Nat.min_eq_left hle]
          exact List.mem_cons_self _ _
        · rw [Nat.min_eq_right hle]
          exact List.mem_cons_of_mem _ hmem
      · intro y hy
        rcases List.mem_cons.mp hy with hy | hy
        · subst hy
          exact Nat.min_le_left _ _
        · exact le_trans (Nat.min_le_right _ _) (hbd y hy)

theorem listMaxD_spec (l : List Nat) : ∀ m, listMaxD l = some m →
    m ∈ l ∧ ∀ x ∈ l, x ≤ m := by
  induction l with
  | nil =>
    intro m h
    simp [listMaxD] at h
  | cons x xs ih =>
    intro m h
    rw [listMaxD] at h
    cases hxs : listMaxD xs with
    | none =>
      rw [hxs] at h
      have hx : m = x := (Option.some.inj h).symm
      have hnil : xs = [] := (listMaxD_eq_none xs).mp hxs
      subst hx
      subst hnil
      exact ⟨List.mem_singleton_self _, by
        intro y hy
        rw [List.mem_singleton.mp hy]⟩
    | some mm =>
      rw [hxs] at h
      have hx : m = max x mm := (Option.some.inj h).symm
      obtain ⟨hmem, hbd⟩ := ih mm hxs
      subst hx
      constructor
      · rcases Nat.le_total x mm with hle | hle
        · rw [Nat.max_eq_right hle]
          exact List.mem_cons_of_mem _ hmem
        · rw [Nat.max_eq_left hle]
          exact List.mem_cons_self _ _
      · intro y hy
        rcases List.mem_cons.mp hy with hy | hy
        · subst hy
          exact Nat.le_max_left _ _
        · exact le_trans (hbd y hy) (Nat.le_max_right _ _)

/-- The minimum only depends on the members. -/
theorem listMinD_congr (l l' : List Nat) (hmem : ∀ x, x ∈ l ↔ x ∈ l') :
    listMinD l = listMinD l' := by
  cases h1 : listMinD l with
  | none =>
    cases h2 : listMinD l' with
    | none => rfl
    | some m =>
      have hm := (listMinD_spec l' m h2).1
      have : l = [] := (listMinD_eq_none l).mp h1
      subst this
      exact absurd ((hmem m).mpr hm) (List.not_mem_nil _)
  | some m =>
    cases h2 : listMinD l' with
    | none =>
      have hm := (listMinD_spec l m h1).1
      have : l' = [] := (listMinD_eq_none l').mp h2
      subst this
      exact absurd ((hmem m).mp hm) (List.not_mem_nil _)
    | some m' =>
      obtain ⟨hm1, hb1⟩ := listMinD_spec l m h1
      obtain ⟨hm2, hb2⟩ := listMinD_spec l' m' h2
      have h12 : m ≤ m' := hb1 m' ((hmem m').mpr hm2)
      have h21 : m' ≤ m := hb2 m ((hmem m).mp hm1)
      rw [Nat.le_antisymm h12 h21]

theorem listMaxD_congr (l l' : List Nat) (hmem : ∀ x, x ∈ l ↔ x ∈ l') :
    listMaxD l = listMaxD l' := by
  cases h1 : listMaxD l with
  | none =>
    cases h2 : listMaxD l' with
    | none => rfl
    | some m =>
      have hm := (listMaxD_spec l' m h2).1
      have : l = [] := (listMaxD_eq_none l).mp h1
      subst this
      exact absurd ((hmem m).mpr hm) (List.not_mem_nil _)
  | some m =>
    cases h2 : listMaxD l' with
    | none =>
      have hm := (listMaxD_spec l m h1).1
      have : l' = [] := (listMaxD_eq_none l').mp h2
      subst this
      exact absurd ((hmem m).mp hm) (List.not_mem_nil _)
    | some m' =>
      obtain ⟨hm1, hb1⟩ := listMaxD_spec l m h1
      obtain ⟨hm2, hb2⟩ := listMaxD_spec l' m' h2
      have h12 : m' ≤ m := hb1 m' ((hmem m').mpr hm2)
      have h21 : m ≤ m' := hb2 m ((hmem m).mp hm1)
      rw [Nat.le_antisymm h21 h12]

theorem listMinD_append_singleton (l : List Nat) (x : Nat) :
    listMinD (l ++ [x]) =
      some (match listMinD l with | none => x | some m => min m x) := by
  induction l with
  | nil => rfl
  | cons y ys ih =>
    rw [List.cons_append, listMinD, ih, listMinD]
    cases hys : listMinD ys with
    | none => rfl
    | some m =>
      show some (min y (min m x)) = some (min (min y m) x)
      rw [Nat.min_assoc]

theorem listMaxD_append_singleton (l : List Nat) (x : Nat) :
    listMaxD (l ++ [x]) =
      some (match listMaxD l with | none => x | some m => max m x) := by
  induction l with
  | nil => rfl
  | cons y ys ih =>
    rw [List.cons_append, listMaxD, ih, listMaxD]
    cases hys : listMaxD ys with
    | none => rfl
    | some m =>
      show some (max y (max m x)) = some (max (max y m) x)
      rw [Nat.max_assoc]

theorem listMinD_cons_of_lb (a : Nat) (l : List Nat) (h : ∀ x ∈ l, a ≤ x) :
    listMinD (a :: l) = some a := by
  rw [listMinD]
  cases hl : listMinD l with
  | none => rfl
  | some m =>
    have hm := (listMinD_spec l m hl).1
    show some (min a m) = some a
    rw [Nat.min_eq_left (h m hm)]

theorem listMaxD_concat_of_ub (a : Nat) (l : List Nat) (h : ∀ x ∈ l, x ≤ a) :
    listMaxD (l ++ [a]) = some a := by
  rw [listMaxD_append_singleton]
  cases hl : listMaxD l with
  | none => rfl
  | some m =>
    have hm := (listMaxD_spec l m hl).1
    show some (max m a) = some a
    rw [Nat.max_eq_right (h m hm)]

theorem listMinD_eq_some_of (l : List Nat) (m : Nat) (hmem : m ∈ l)
    (hlb : ∀ x ∈ l, m ≤ x) : listMinD l = some m := by
  cases h : listMinD l with
  | none =>
    rw [listMinD_eq_none] at h
    subst h
    exact absurd hmem (List.not_mem_nil _)
  | some m' =>
    obtain ⟨hm', hb'⟩ := listMinD_spec l m' h
    rw [Nat.le_antisymm (hb' m hmem) (hlb m' hm')]

theorem listMaxD_eq_some_of (l : List Nat) (m : Nat) (hmem : m ∈ l)
    (hub : ∀ x ∈ l, x ≤ m) : listMaxD l = some m := by
  cases h : listMaxD l with
  | none =>
    rw [listMaxD_eq_none] at h
    subst h
    exact absurd hmem (List.not_mem_nil _)
  | some m' =>
    obtain ⟨hm', hb'⟩ := listMaxD_spec l m' h
    rw [Nat.le_antisymm (hub m' hm') (hb' m hmem)]

theorem mem_coneOf (w : Nat) (ks : List Nat) (l p k : Nat) :
    k ∈ coneOf w ks l p ↔ k ∈ ks ∧ k >>> (w - l) = p := by
  unfold coneOf
  simp [List.mem_filter]

/-- A nonempty association list succeeds on the lookup of its first key. -/
theorem lookup_first (e : Nat × XFastValue) (es : XTable) :
    List.lookup e.1 ((e :: es : XTable)) = some e.2 := by
  obtain ⟨k, v⟩ := e
  simp [List.lookup]

theorem isEmpty_false_iff (tb : XTable) : tb.isEmpty = false ↔ tb ≠ [] := by
  cases tb <;> simp

/-- Correctness of the binary search of `find_longest_prefix_length`:
under the invariant the result is the deepest level at which the query's
prefix is present, within the searched range. -/
theorem bsearch_go_spec (w : Nat) (ks : List Nat) (t : XFastTrie)
    (inv : XInv w ks t) (key : Nat) :
    ∀ f low high, high ≤ w → low ≤ high → high - low ≤ f →
      (low = 0 ∨ Matching w ks key low) →
      (∀ l, high < l → l ≤ w → ¬Matching w ks key l) →
      low ≤ bsearch_go t key f low high ∧
      bsearch_go t key f low high ≤ high ∧
      (bsearch_go t key f low high = 0 ∨
        Matching w ks key (bsearch_go t key f low high)) ∧
      (∀ l, bsearch_go t key f low high < l → l ≤ w →
        ¬Matching w ks key l) := by
  intro f
  induction f with
  | zero =>
    intro low high hhw hlh hf hlow habove
    have heq : low = high := by omega
    have hres : bsearch_go t key 0 low high = low := rfl
    rw [hres]
    exact ⟨le_refl _, hlh, hlow, by rw [heq]; exact habove⟩
  | succ f ih =>
    intro low high hhw hlh hf hlow habove
    have hstep : bsearch_go t key (f + 1) low high =
        if low < high then
          (if (List.lookup (key >>> (t.no_levels - (low + high + 1) / 2))
                (t.levels ((low + high + 1) / 2))).isSome = true then
            bsearch_go t key f ((low + high + 1) / 2) high
          else bsearch_go t key f low ((low + high + 1) / 2 - 1))
        else low := rfl
    by_cases hcmp : low < high
    · rw [hstep, if_pos hcmp]
      clear hstep
      set mid := (low + high + 1) / 2 with hmid
      have hmid1 : 1 ≤ mid := by omega
      have hmidlo : low < mid := by omega
      have hmidhi : mid ≤ high := by omega
      have hP : ((List.lookup (key >>> (t.no_levels - mid))
          (t.levels mid)).isSome = true) ↔ Matching w ks key mid := by
        rw [inv.wlev]
        exact inv.lev_mem mid (key >>> (w - mid)) hmid1 (by omega)
      by_cases htest : (List.lookup (key >>> (t.no_levels - mid))
          (t.levels mid)).isSome = true
      · rw [if_pos htest]
        obtain ⟨h1, h2, h3, h4⟩ := ih mid high hhw hmidhi (by omega)
          (Or.inr (hP.mp htest)) habove
        exact ⟨by omega, h2, h3, h4⟩
      · rw [if_neg htest]
        have habove' : ∀ l, mid - 1 < l → l ≤ w → ¬Matching w ks key l := by
          intro l hl hlw hex
          by_cases hlh2 : high < l
          · exact habove l hlh2 hlw hex
          · unfold Matching at hex
            obtain ⟨k, hk, hkeq⟩ := hex
            have hdown : k >>> (w - mid) = key >>> (w - mid) := by
              have hds : w - mid = (w - l) + (l - mid) := by omega
              rw [hds]
              exact shiftRight_down _ _ _ _ hkeq
            exact htest (hP.mpr ⟨k, hk, hdown⟩)
        obtain ⟨h1, h2, h3, h4⟩ := ih low (mid - 1) (by omega) (by omega)
          (by omega) hlow habove'
        exact ⟨h1, by omega, h3, h4⟩
    · rw [hstep, if_neg hcmp]
      clear hstep
      have heq : low = high := by omega
      exact ⟨le_refl _, hlh, hlow, by rw [heq]; exact habove⟩

/-- `find_longest_prefix_length` returns the longest level at which the
query's prefix is present (0 when none is). -/
theorem flpl_spec (w : Nat) (ks : List Nat) (t : XFastTrie) (inv : XInv w ks t)
    (hw : 1 ≤ w) (key : Nat) :
    t.find_longest_prefix_length key ≤ w ∧
    (t.find_longest_prefix_length key = 0 ∨
      Matching w ks key (t.find_longest_prefix_length key)) ∧
    (∀ l, t.find_longest_prefix_length key < l → l ≤ w →
      ¬Matching w ks key l) := by
  have hstep : t.find_longest_prefix_length key =
      if (t.levels 1).isEmpty = true then 0
      else bsearch_go t key t.no_levels 0 t.no_levels := rfl
  by_cases hE : (t.levels 1).isEmpty = true
  · rw [hstep, if_pos hE]
    refine ⟨by omega, Or.inl rfl, ?_⟩
    intro l hl hlw hex
    unfold Matching at hex
    obtain ⟨k, hk, hkeq⟩ := hex
    have h1 : k >>> (w - 1) = key >>> (w - 1) := by
      have hds : w - 1 = (w - l) + (l - 1) := by omega
      rw [hds]
      exact shiftRight_down _ _ _ _ hkeq
    have hsome := (inv.lev_mem 1 (key >>> (w - 1)) (le_refl _) hw).mpr ⟨k, hk, h1⟩
    have hnil : t.levels 1 = [] := by
      cases h : t.levels 1 with
      | nil => rfl
      | cons e es =>
        rw [h] at hE
        simp [List.isEmpty] at hE
    rw [hnil] at hsome
    simp [List.lookup] at hsome
  · rw [hstep, if_neg hE]
    obtain ⟨_, h2, h3, h4⟩ := bsearch_go_spec w ks t inv key t.no_levels 0
      t.no_levels (by have := inv.wlev; omega) (by omega) (by omega)
      (Or.inl rfl)
      (by
        intro l h1 h2 hex
        have := inv.wlev
        omega)
    exact ⟨by have := inv.wlev; omega, h3, h4⟩

/-- Under the invariant, `predecessor` returns the largest inserted key
that is at most the query. -/
theorem pred_correct (w : Nat) (ks : List Nat) (t : XFastTrie) (inv : XInv w ks t)
    (hw : 1 ≤ w) (hks : ∀ k ∈ ks, k < 2 ^ w) (key : Nat) (hkey : key < 2 ^ w) :
    t.predecessor key = maxLe ks key := by
  have hstep : t.predecessor key =
      if (t.levels 1).isEmpty = true then none
      else
        if t.find_longest_prefix_length key = 0 ∧
            key >>> (t.no_levels - 1) = 1 then
          match List.lookup 0 (t.levels 1) with
          | some v => v.max_rep
          | none => t.pred_rest key (t.find_longest_prefix_length key)
        else if t.find_longest_prefix_length key = 0 ∧
            key >>> (t.no_levels - 1) = 0 then none
        else t.pred_rest key (t.find_longest_prefix_length key) := rfl
  by_cases hE : (t.levels 1).isEmpty = true
  · rw [hstep, if_pos hE]
    have hksnil : ks = [] := by
      cases hc : ks with
      | nil => rfl
      | cons k0 ks' =>
        exfalso
        have hmem := (inv.lev_mem 1 (k0 >>> (w - 1)) (le_refl _) hw).mpr
          ⟨k0, by rw [hc]; exact List.mem_cons_self _ _, rfl⟩
        have hnil : t.levels 1 = [] := by
          cases h : t.levels 1 with
          | nil => rfl
          | cons e es =>
            rw [h] at hE
            simp at hE
        rw [hnil] at hmem
        simp [List.lookup] at hmem
    subst hksnil
    rfl
  · have hkne : ks ≠ [] := by
      intro hnil
      subst hnil
      have := inv.lev_empty rfl 1 (le_refl _)
      rw [this] at hE
      simp at hE
    rw [hstep, if_neg hE]
    obtain ⟨hLw, hLmatch, hLabove⟩ := flpl_spec w ks t inv hw key
    set L := t.find_longest_prefix_length key with hL
    rw [inv.wlev]
    have htop : key >>> (w - 1) < 2 := top_bit_lt key w hw hkey
    by_cases hL0 : L = 0
    · by_cases htop1 : key >>> (w - 1) = 1
      · rw [if_pos ⟨hL0, htop1⟩]
        have hall0 : ∀ k ∈ ks, k >>> (w - 1) = 0 := by
          intro k hk
          have hother := hLabove 1 (by omega) hw
          have hk2 : k >>> (w - 1) < 2 := top_bit_lt k w hw (hks k hk)
          obtain ⟨A, hA⟩ : ∃ A, k >>> (w - 1) = A := ⟨_, rfl⟩
          rw [hA] at hk2 ⊢
          by_contra hne
          have hkk : A = 1 := by omega
          subst hkk
          exact hother ⟨k, hk, by rw [hA, htop1]⟩
        have hsome := (inv.lev_mem 1 0 (le_refl _) hw).mpr (by
          obtain ⟨k0, hk0⟩ := List.exists_mem_of_ne_nil ks hkne
          exact ⟨k0, hk0, hall0 k0 hk0⟩)
        obtain ⟨v, hv⟩ := Option.isSome_iff_exists.mp hsome
        rw [hv]
        obtain ⟨_, hmax⟩ := inv.lev_minmax 1 0 v (le_refl _) hw hv
        show v.max_rep = maxLe ks key
        rw [hmax]
        have hcone : coneOf w ks 1 0 = ks := by
          unfold coneOf
          apply List.filter_eq_self.mpr
          intro a ha
          simp [hall0 a ha]
        have hfilter : ks.filter (fun x => decide (x ≤ key)) = ks := by
          apply List.filter_eq_self.mpr
          intro a ha
          have hlt : a < key := lt_of_shiftRight_lt a key (w - 1)
            (by rw [hall0 a ha, htop1]; omega)
          simp
          omega
        unfold maxLe
        rw [hcone, hfilter]
      · have htop0 : key >>> (w - 1) = 0 := by
          obtain ⟨A, hA⟩ : ∃ A, key >>> (w - 1) = A := ⟨_, rfl⟩
          rw [hA] at htop htop1 ⊢
          omega
        rw [if_neg (by rintro ⟨_, h1⟩; exact htop1 h1), if_pos ⟨hL0, htop0⟩]
        have hall1 : ∀ k ∈ ks, k >>> (w - 1) = 1 := by
          intro k hk
          have hother := hLabove 1 (by omega) hw
          have hk2 : k >>> (w - 1) < 2 := top_bit_lt k w hw (hks k hk)
          obtain ⟨A, hA⟩ : ∃ A, k >>> (w - 1) = A := ⟨_, rfl⟩
          rw [hA] at hk2 ⊢
          by_contra hne
          have hkk : A = 0 := by omega
          subst hkk
          exact hother ⟨k, hk, by rw [hA, htop0]⟩
        symm
        unfold maxLe
        have hfilter : ks.filter (fun x => decide (x ≤ key)) = [] := by
          apply List.filter_eq_nil_iff.mpr
          intro a ha
          have hgt : key < a := lt_of_shiftRight_lt key a (w - 1)
            (by rw [hall1 a ha, htop0]; omega)
          simp
          omega
        rw [hfilter]
        rfl
    · have hL1 : 1 ≤ L := by omega
      rw [if_neg (by rintro ⟨h0, _⟩; exact hL0 h0),
        if_neg (by rintro ⟨h0, _⟩; exact hL0 h0)]
      have hmatch := hLmatch.resolve_left hL0
      unfold Matching at hmatch
      obtain ⟨k0, hk0, hk0eq⟩ := hmatch
      have hsome := (inv.lev_mem L (key >>> (w - L)) hL1 hLw).mpr ⟨k0, hk0, hk0eq⟩
      obtain ⟨v, hv⟩ := Option.isSome_iff_exists.mp hsome
      obtain ⟨hminv, hmaxv⟩ := inv.lev_minmax L (key >>> (w - L)) v hL1 hLw hv
      have hk0c : k0 ∈ coneOf w ks L (key >>> (w - L)) :=
        (mem_coneOf _ _ _ _ _).mpr ⟨hk0, hk0eq⟩
      cases hmm : listMinD (coneOf w ks L (key >>> (w - L))) with
      | none =>
        rw [listMinD_eq_none] at hmm
        rw [hmm] at hk0c
        exact absurd hk0c (List.not_mem_nil _)
      | some m =>
      cases hMM : listMaxD (coneOf w ks L (key >>> (w - L))) with
      | none =>
        rw [listMaxD_eq_none] at hMM
        rw [hMM] at hk0c
        exact absurd hk0c (List.not_mem_nil _)
      | some M =>
      obtain ⟨hmc, hmlb⟩ := listMinD_spec _ m hmm
      obtain ⟨hMc, hMub⟩ := listMaxD_spec _ M hMM
      rw [hmm] at hminv
      rw [hMM] at hmaxv
      have hmp : m >>> (w - L) = key >>> (w - L) := ((mem_coneOf _ _ _ _ _).mp hmc).2
      have hMp : M >>> (w - L) = key >>> (w - L) := ((mem_coneOf _ _ _ _ _).mp hMc).2
      have hmks : m ∈ ks := ((mem_coneOf _ _ _ _ _).mp hmc).1
      have hMks : M ∈ ks := ((mem_coneOf _ _ _ _ _).mp hMc).1
      have hveq : List.lookup (key >>> (t.no_levels - L)) (t.levels L) = some v := by
        rw [inv.wlev]
        exact hv
      have hrest0 : t.pred_rest key L =
          match List.lookup (key >>> (t.no_levels - L)) (t.levels L) with
          | none => none
          | some v =>
            match v.max_rep with
            | some m2 =>
              if m2 ≤ key then some m2
              else
                match v.min_rep with
                | some mn =>
                  if mn ≤ key then some mn
                  else match t.reps mn with
                    | some r => r.left
                    | none => none
                | none => none
            | none =>
              match v.min_rep with
              | some mn =>
                if mn ≤ key then some mn
                else match t.reps mn with
                  | some r => r.left
                  | none => none
              | none => none := rfl
      rw [hrest0, hveq]
      simp only [hmaxv, hminv]
      by_cases hMk : M ≤ key
      · rw [if_pos hMk]
        symm
        unfold maxLe
        apply listMaxD_eq_some_of
        · exact List.mem_filter.mpr ⟨hMks, by simp; omega⟩
        · intro x hx
          obtain ⟨hxks, hxle⟩ := List.mem_filter.mp hx
          have hxkey : x ≤ key := by
            simp at hxle
            omega
          by_cases hxc : x >>> (w - L) = key >>> (w - L)
          · exact hMub x ((mem_coneOf _ _ _ _ _).mpr ⟨hxks, hxc⟩)
          · have hlt : x >>> (w - L) < key >>> (w - L) :=
              lt_of_le_of_ne (shiftRight_le_shiftRight _ _ _ hxkey) hxc
            exact le_of_lt (lt_of_shiftRight_lt x M _ (by rw [hMp]; exact hlt))
      · rw [if_neg hMk]
        by_cases hmk : m ≤ key
        · exfalso
          have hLltw : L < w := by
            rcases Nat.lt_or_ge L w with h | h
            · exact h
            · exfalso
              have hLw' : L = w := by omega
              rw [hLw', Nat.sub_self, Nat.shiftRight_zero, Nat.shiftRight_zero]
                at hMp
              omega
          have hmm1 := hLabove (L + 1) (by omega) (by omega)
          have hmne : m >>> (w - (L + 1)) ≠ key >>> (w - (L + 1)) := by
            intro hcon
            exact hmm1 ⟨m, hmks, hcon⟩
          have hMne : M >>> (w - (L + 1)) ≠ key >>> (w - (L + 1)) := by
            intro hcon
            exact hmm1 ⟨M, hMks, hcon⟩
          have hs : w - L = (w - (L + 1)) + 1 := by omega
          have hm2 : m >>> (w - (L + 1)) / 2 = key >>> (w - (L + 1)) / 2 := by
            have hh := hmp
            rw [hs, Nat.shiftRight_succ, Nat.shiftRight_succ] at hh
            exact hh
          have hM2 : M >>> (w - (L + 1)) / 2 = key >>> (w - (L + 1)) / 2 := by
            have hh := hMp
            rw [hs, Nat.shiftRight_succ, Nat.shiftRight_succ] at hh
            exact hh
          have hmlt : m >>> (w - (L + 1)) < key >>> (w - (L + 1)) :=
            lt_of_le_of_ne (shiftRight_le_shiftRight _ _ _ hmk) hmne
          have hMgt : key >>> (w - (L + 1)) < M >>> (w - (L + 1)) :=
            lt_of_le_of_ne (shiftRight_le_shiftRight _ _ _ (by omega)) (Ne.symm hMne)
          obtain ⟨A, hA⟩ : ∃ A, m >>> (w - (L + 1)) = A := ⟨_, rfl⟩
          obtain ⟨B, hB⟩ : ∃ B, M >>> (w - (L + 1)) = B := ⟨_, rfl⟩
          obtain ⟨C, hC⟩ : ∃ C, key >>> (w - (L + 1)) = C := ⟨_, rfl⟩
          rw [hA, hC] at hm2
          rw [hB, hC] at hM2
          rw [hA, hC] at hmlt
          rw [hC, hB] at hMgt
          omega
        · rw [if_neg hmk]
          have hrsome := (inv.reps_mem m).mpr hmks
          obtain ⟨r, hr⟩ := Option.isSome_iff_exists.mp hrsome
          rw [hr]
          obtain ⟨_, hleft, _⟩ := inv.reps_val m r hr
          show r.left = maxLe ks key
          rw [hleft]
          unfold maxLt maxLe
          congr 1
          apply List.filter_congr
          intro x hxks
          rw [decide_eq_decide]
          constructor
          · intro hxm
            by_cases hxc : x >>> (w - L) = key >>> (w - L)
            · have hxcone := (mem_coneOf _ _ _ _ _).mpr ⟨hxks, hxc⟩
              have := hmlb x hxcone
              omega
            · have hxm2 : x >>> (w - L) < key >>> (w - L) := by
                have h1 : x >>> (w - L) ≤ m >>> (w - L) :=
                  shiftRight_le_shiftRight _ _ _ (le_of_lt hxm)
                rw [hmp] at h1
                exact lt_of_le_of_ne h1 hxc
              exact le_of_lt (lt_of_shiftRight_lt _ _ _ hxm2)
          · intro hxkey
            omega

/-- Under the invariant, `successor` returns the smallest inserted key
that is at least the query. -/
theorem succ_correct (w : Nat) (ks : List Nat) (t : XFastTrie) (inv : XInv w ks t)
    (hw : 1 ≤ w) (hks : ∀ k ∈ ks, k < 2 ^ w) (key : Nat) (hkey : key < 2 ^ w) :
    t.successor key = minGe ks key := by
  have hstep : t.successor key =
      if (t.levels 1).isEmpty = true then none
      else
        if t.find_longest_prefix_length key = 0 ∧
            key >>> (t.no_levels - 1) = 1 then none
        else if t.find_longest_prefix_length key = 0 ∧
            key >>> (t.no_levels - 1) = 0 then
          match List.lookup 1 (t.levels 1) with
          | some v => v.min_rep
          | none => t.succ_rest key (t.find_longest_prefix_length key)
        else t.succ_rest key (t.find_longest_prefix_length key) := rfl
  by_cases hE : (t.levels 1).isEmpty = true
  · rw [hstep, if_pos hE]
    have hksnil : ks = [] := by
      cases hc : ks with
      | nil => rfl
      | cons k0 ks' =>
        exfalso
        have hmem := (inv.lev_mem 1 (k0 >>> (w - 1)) (le_refl _) hw).mpr
          ⟨k0, by rw [hc]; exact List.mem_cons_self _ _, rfl⟩
        have hnil : t.levels 1 = [] := by
          cases h : t.levels 1 with
          | nil => rfl
          | cons e es =>
            rw [h] at hE
            simp at hE
        rw [hnil] at hmem
        simp [List.lookup] at hmem
    subst hksnil
    rfl
  · have hkne : ks ≠ [] := by
      intro hnil
      subst hnil
      have := inv.lev_empty rfl 1 (le_refl _)
      rw [this] at hE
      simp at hE
    rw [hstep, if_neg hE]
    obtain ⟨hLw, hLmatch, hLabove⟩ := flpl_spec w ks t inv hw key
    set L := t.find_longest_prefix_length key with hL
    rw [inv.wlev]
    have htop : key >>> (w - 1) < 2 := top_bit_lt key w hw hkey
    by_cases hL0 : L = 0
    · by_cases htop1 : key >>> (w - 1) = 1
      · rw [if_pos ⟨hL0, htop1⟩]
        have hall0 : ∀ k ∈ ks, k >>> (w - 1) = 0 := by
          intro k hk
          have hother := hLabove 1 (by omega) hw
          have hk2 : k >>> (w - 1) < 2 := top_bit_lt k w hw (hks k hk)
          obtain ⟨A, hA⟩ : ∃ A, k >>> (w - 1) = A := ⟨_, rfl⟩
          rw [hA] at hk2 ⊢
          by_contra hne
          have hkk : A = 1 := by omega
          subst hkk
          exact hother ⟨k, hk, by rw [hA, htop1]⟩
        symm
        unfold minGe
        have hfilter : ks.filter (fun x => decide (key ≤ x)) = [] := by
          apply List.filter_eq_nil_iff.mpr
          intro a ha
          have hlt : a < key := lt_of_shiftRight_lt a key (w - 1)
            (by rw [hall0 a ha, htop1]; omega)
          simp
          omega
        rw [hfilter]
        rfl
      · have htop0 : key >>> (w - 1) = 0 := by
          obtain ⟨A, hA⟩ : ∃ A, key >>> (w - 1) = A := ⟨_, rfl⟩
          rw [hA] at htop htop1 ⊢
          omega
        rw [if_neg (by rintro ⟨_, h1⟩; exact htop1 h1), if_pos ⟨hL0, htop0⟩]
        have hall1 : ∀ k ∈ ks, k >>> (w - 1) = 1 := by
          intro k hk
          have hother := hLabove 1 (by omega) hw
          have hk2 : k >>> (w - 1) < 2 := top_bit_lt k w hw (hks k hk)
          obtain ⟨A, hA⟩ : ∃ A, k >>> (w - 1) = A := ⟨_, rfl⟩
          rw [hA] at hk2 ⊢
          by_contra hne
          have hkk : A = 0 := by omega
          subst hkk
          exact hother ⟨k, hk, by rw [hA, htop0]⟩
        have hsome := (inv.lev_mem 1 1 (le_refl _) hw).mpr (by
          obtain ⟨k0, hk0⟩ := List.exists_mem_of_ne_nil ks hkne
          exact ⟨k0, hk0, hall1 k0 hk0⟩)
        obtain ⟨v, hv⟩ := Option.isSome_iff_exists.mp hsome
        rw [hv]
        obtain ⟨hmin, _⟩ := inv.lev_minmax 1 1 v (le_refl _) hw hv
        show v.min_rep = minGe ks key
        rw [hmin]
        have hcone : coneOf w ks 1 1 = ks := by
          unfold coneOf
          apply List.filter_eq_self.mpr
          intro a ha
          simp [hall1 a ha]
        have hfilter : ks.filter (fun x => decide (key ≤ x)) = ks := by
          apply List.filter_eq_self.mpr
          intro a ha
          have hgt : key < a := lt_of_shiftRight_lt key a (w - 1)
            (by rw [hall1 a ha, htop0]; omega)
          simp
          omega
        unfold minGe
        rw [hcone, hfilter]
    · have hL1 : 1 ≤ L := by omega
      rw [if_neg (by rintro ⟨h0, _⟩; exact hL0 h0),
        if_neg (by rintro ⟨h0, _⟩; exact hL0 h0)]
      have hmatch := hLmatch.resolve_left hL0
      unfold Matching at hmatch
      obtain ⟨k0, hk0, hk0eq⟩ := hmatch
      have hsome := (inv.lev_mem L (key >>> (w - L)) hL1 hLw).mpr ⟨k0, hk0, hk0eq⟩
      obtain ⟨v, hv⟩ := Option.isSome_iff_exists.mp hsome
      obtain ⟨hminv, hmaxv⟩ := inv.lev_minmax L (key >>> (w - L)) v hL1 hLw hv
      have hk0c : k0 ∈ coneOf w ks L (key >>> (w - L)) :=
        (mem_coneOf _ _ _ _ _).mpr ⟨hk0, hk0eq⟩
      cases hmm : listMinD (coneOf w ks L (key >>> (w - L))) with
      | none =>
        rw [listMinD_eq_none] at hmm
        rw [hmm] at hk0c
        exact absurd hk0c (List.not_mem_nil _)
      | some m =>
      cases hMM : listMaxD (coneOf w ks L (key >>> (w - L))) with
      | none =>
        rw [listMaxD_eq_none] at hMM
        rw [hMM] at hk0c
        exact absurd hk0c (List.not_mem_nil _)
      | some M =>
      obtain ⟨hmc, hmlb⟩ := listMinD_spec _ m hmm
      obtain ⟨hMc, hMub⟩ := listMaxD_spec _ M hMM
      rw [hmm] at hminv
      rw [hMM] at hmaxv
      have hmp : m >>> (w - L) = key >>> (w - L) := ((mem_coneOf _ _ _ _ _).mp hmc).2
      have hMp : M >>> (w - L) = key >>> (w - L) := ((mem_coneOf _ _ _ _ _).mp hMc).2
      have hmks : m ∈ ks := ((mem_coneOf _ _ _ _ _).mp hmc).1
      have hMks : M ∈ ks := ((mem_coneOf _ _ _ _ _).mp hMc).1
      have hveq : List.lookup (key >>> (t.no_levels - L)) (t.levels L) = some v := by
        rw [inv.wlev]
        exact hv
      have hrest0 : t.succ_rest key L =
          match List.lookup (key >>> (t.no_levels - L)) (t.levels L) with
          | none => none
          | some v =>
            match v.min_rep with
            | some mn =>
              if mn ≥ key then some mn
              else
                match v.max_rep with
                | some m2 =>
                  if m2 ≥ key then some m2
                  else match t.reps m2 with
                    | some r => r.right
                    | none => none
                | none => none
            | none =>
              match v.max_rep with
              | some m2 =>
                if m2 ≥ key then some m2
                else match t.reps m2 with
                  | some r => r.right
                  | none => none
              | none => none := rfl
      rw [hrest0, hveq]
      simp only [hmaxv, hminv]
      by_cases hmk : m ≥ key
      · rw [if_pos hmk]
        symm
        unfold minGe
        apply listMinD_eq_some_of
        · exact List.mem_filter.mpr ⟨hmks, by simp; omega⟩
        · intro x hx
          obtain ⟨hxks, hxle⟩ := List.mem_filter.mp hx
          have hxkey : key ≤ x := by
            simp at hxle
            omega
          by_cases hxc : x >>> (w - L) = key >>> (w - L)
          · exact hmlb x ((mem_coneOf _ _ _ _ _).mpr ⟨hxks, hxc⟩)
          · have hlt : key >>> (w - L) < x >>> (w - L) :=
              lt_of_le_of_ne (shiftRight_le_shiftRight _ _ _ hxkey) (Ne.symm hxc)
            exact le_of_lt (lt_of_shiftRight_lt m x _ (by rw [hmp]; exact hlt))
      · rw [if_neg hmk]
        by_cases hMk : M ≥ key
        · exfalso
          have hLltw : L < w := by
            rcases Nat.lt_or_ge L w with h | h
            · exact h
            · exfalso
              have hLw' : L = w := by omega
              rw [hLw', Nat.sub_self, Nat.shiftRight_zero, Nat.shiftRight_zero]
                at hmp
              omega
          have hmm1 := hLabove (L + 1) (by omega) (by omega)
          have hmne : m >>> (w - (L + 1)) ≠ key >>> (w - (L + 1)) := by
            intro hcon
            exact hmm1 ⟨m, hmks, hcon⟩
          have hMne : M >>> (w - (L + 1)) ≠ key >>> (w - (L + 1)) := by
            intro hcon
            exact hmm1 ⟨M, hMks, hcon⟩
          have hs : w - L = (w - (L + 1)) + 1 := by omega
          have hm2 : m >>> (w - (L + 1)) / 2 = key >>> (w - (L + 1)) / 2 := by
            have hh := hmp
            rw [hs, Nat.shiftRight_succ, Nat.shiftRight_succ] at hh
            exact hh
          have hM2 : M >>> (w - (L + 1)) / 2 = key >>> (w - (L + 1)) / 2 := by
            have hh := hMp
            rw [hs, Nat.shiftRight_succ, Nat.shiftRight_succ] at hh
            exact hh
          have hmlt : m >>> (w - (L + 1)) < key >>> (w - (L + 1)) :=
            lt_of_le_of_ne (shiftRight_le_shiftRight _ _ _ (by omega)) hmne
          have hMgt : key >>> (w - (L + 1)) < M >>> (w - (L + 1)) :=
            lt_of_le_of_ne (shiftRight_le_shiftRight _ _ _ hMk) (Ne.symm hMne)
          obtain ⟨A, hA⟩ : ∃ A, m >>> (w - (L + 1)) = A := ⟨_, rfl⟩
          obtain ⟨B, hB⟩ : ∃ B, M >>> (w - (L + 1)) = B := ⟨_, rfl⟩
          obtain ⟨C, hC⟩ : ∃ C, key >>> (w - (L + 1)) = C := ⟨_, rfl⟩
          rw [hA, hC] at hm2
          rw [hB, hC] at hM2
          rw [hA, hC] at hmlt
          rw [hC, hB] at hMgt
          omega
        · rw [if_neg hMk]
          have hrsome := (inv.reps_mem M).mpr hMks
          obtain ⟨r, hr⟩ := Option.isSome_iff_exists.mp hrsome
          rw [hr]
          obtain ⟨_, _, hright⟩ := inv.reps_val M r hr
          show r.right = minGe ks key
          rw [hright]
          unfold minGt minGe
          congr 1
          apply List.filter_congr
          intro x hxks
          rw [decide_eq_decide]
          constructor
          · intro hxM
            by_cases hxc : x >>> (w - L) = key >>> (w - L)
            · have hxcone := (mem_coneOf _ _ _ _ _).mpr ⟨hxks, hxc⟩
              have := hMub x hxcone
              omega
            · have hxm2 : key >>> (w - L) < x >>> (w - L) := by
                have h1 : M >>> (w - L) ≤ x >>> (w - L) :=
                  shiftRight_le_shiftRight _ _ _ (le_of_lt hxM)
                rw [hMp] at h1
                exact lt_of_le_of_ne h1 (Ne.symm hxc)
              exact le_of_lt (lt_of_shiftRight_lt _ _ _ hxm2)
          · intro hxkey
            omega

theorem lookup_cons (k : Nat) (v : XFastValue) (es : XTable) (p : Nat) :
    List.lookup p (((k, v) :: es : XTable)) =
      if p = k then some v else List.lookup p es := by
  by_cases h : p = k
  · subst h
    simp [List.lookup]
  · have hb : (p == k) = false := beq_eq_false_iff_ne.mpr h
    simp [List.lookup, hb, h]

theorem lookup_filter_ne (tb : XTable) (k p : Nat) (hp : p ≠ k) :
    List.lookup p (tb.filter (fun e => e.1 != k)) = List.lookup p tb := by
  induction tb with
  | nil => rfl
  | cons e es ih =>
    obtain ⟨ek, ev⟩ := e
    rw [List.filter_cons]
    by_cases he : ek = k
    · rw [if_neg (by simp [he]), ih, lookup_cons, if_neg (by omega)]
    · rw [if_pos (by simp [he]), lookup_cons, lookup_cons]
      by_cases hpe : p = ek
      · rw [if_pos hpe, if_pos hpe]
      · rw [if_neg hpe, if_neg hpe, ih]

/-- `DashMap::insert` replaces the entry for the key, keeping the rest. -/
theorem lookup_tbl_insert (tb : XTable) (k : Nat) (v : XFastValue) (p : Nat) :
    List.lookup p (tbl_insert tb k v) =
      if p = k then some v else List.lookup p tb := by
  unfold tbl_insert
  rw [lookup_cons]
  by_cases hp : p = k
  · rw [if_pos hp, if_pos hp]
  · rw [if_neg hp, if_neg hp, lookup_filter_ne _ _ _ hp]

/-- `get_mut` followed by a field update maps the entry for the key. -/
theorem lookup_tbl_update (tb : XTable) (k : Nat) (f : XFastValue → XFastValue)
    (p : Nat) :
    List.lookup p (tbl_update tb k f) =
      if p = k then (List.lookup p tb).map f else List.lookup p tb := by
  induction tb with
  | nil =>
    by_cases hp : p = k <;> simp [tbl_update, List.lookup, hp]
  | cons e es ih =>
    obtain ⟨ek, ev⟩ := e
    have hhead : tbl_update (((ek, ev) :: es : XTable)) k f =
        (if ek = k then (ek, f ev) else (ek, ev)) :: tbl_update es k f := rfl
    rw [hhead]
    by_cases hek : ek = k
    · rw [if_pos hek, lookup_cons, lookup_cons]
      by_cases hpe : p = ek
      · rw [if_pos hpe, if_pos hpe, if_pos (show p = k by omega)]
        rfl
      · rw [if_neg hpe, if_neg hpe, ih]
    · rw [if_neg hek, lookup_cons, lookup_cons]
      by_cases hpe : p = ek
      · rw [if_pos hpe, if_pos hpe, if_neg (show ¬p = k by omega)]
      · rw [if_neg hpe, if_neg hpe, ih]

theorem upd_level_levels (t : XFastTrie) (i : Nat) (tb : XTable) (j : Nat) :
    (upd_level t i tb).levels j = if j = i then tb else t.levels j := rfl

/-- The child-pointer update of insert step 3 keeps `min_rep`/`max_rep`. -/
theorem mmOf_map_child (o : Option XFastValue) (nv : XFastValue) (bit : Nat) :
    mmOf (o.map (fun pv => match pv with
      | .mk lc rc mn mx =>
        if bit = 0 then .mk (some nv) rc mn mx else .mk lc (some nv) mn mx)) =
      mmOf o := by
  cases o with
  | none => rfl
  | some v =>
    cases v with
    | mk lc rc mn mx =>
      by_cases hb : bit = 0 <;>
        simp [mmOf, hb, XFastValue.min_rep, XFastValue.max_rep]

theorem insert_step3_fields (t : XFastTrie) (key pl : Nat) :
    (insert_step3 t key pl).no_levels = t.no_levels ∧
    (insert_step3 t key pl).reps = t.reps ∧
    (insert_step3 t key pl).head_rep = t.head_rep ∧
    (insert_step3 t key pl).tail_rep = t.tail_rep := by
  unfold insert_step3
  split <;> exact ⟨rfl, rfl, rfl, rfl⟩

/-- The `min_rep`/`max_rep` effect of one insert step 3 iteration on the
level tables: the fresh prefix entry carries `key` as both extrema, and
every other entry's extrema are untouched. -/
theorem insert_step3_mm (t : XFastTrie) (key pl : Nat) (hpl : 1 ≤ pl) :
    ∀ l p, 1 ≤ l →
      mmOf (List.lookup p ((insert_step3 t key pl).levels l)) =
        if l = pl ∧ p = key >>> (t.no_levels - pl) then some (some key, some key)
        else mmOf (List.lookup p (t.levels l)) := by
  intro l p hl
  unfold insert_step3
  by_cases hgt : pl > 1
  · rw [if_pos hgt, upd_level_levels]
    by_cases hlp : l = pl - 1
    · rw [if_pos hlp]
      have ht1 : (upd_level t pl (tbl_insert (t.levels pl)
          (key >>> (t.no_levels - pl))
          (XFastValue.mk none none (some key) (some key)))).levels (pl - 1) =
          t.levels (pl - 1) := by
        rw [upd_level_levels, if_neg (by omega)]
      rw [lookup_tbl_update, ht1]
      by_cases hpp : p = key >>> (t.no_levels - (pl - 1))
      · rw [if_pos hpp, mmOf_map_child, if_neg (by rintro ⟨h1, _⟩; omega), hlp]
      · rw [if_neg hpp, if_neg (by rintro ⟨h1, _⟩; omega), hlp]
    · rw [if_neg hlp, upd_level_levels]
      by_cases hlpl : l = pl
      · rw [if_pos hlpl, lookup_tbl_insert]
        by_cases hpp : p = key >>> (t.no_levels - pl)
        · rw [if_pos hpp, if_pos ⟨hlpl, hpp⟩]
          rfl
        · rw [if_neg hpp, if_neg (by rintro ⟨_, h2⟩; exact hpp h2), hlpl]
      · rw [if_neg hlpl, if_neg (by rintro ⟨h1, _⟩; exact hlpl h1)]
  · rw [if_neg hgt, upd_level_levels, if_neg (by omega), upd_level_levels]
    by_cases hlpl : l = pl
    · rw [if_pos hlpl, lookup_tbl_insert]
      by_cases hpp : p = key >>> (t.no_levels - pl)
      · rw [if_pos hpp, if_pos ⟨hlpl, hpp⟩]
        rfl
      · rw [if_neg hpp, if_neg (by rintro ⟨_, h2⟩; exact hpp h2), hlpl]
    · rw [if_neg hlpl, if_neg (by rintro ⟨h1, _⟩; exact hlpl h1)]

theorem step3_fold_fields (key : Nat) :
    ∀ (pls : List Nat) (t : XFastTrie),
      ((pls.foldl (fun acc pl => insert_step3 acc key pl) t).no_levels =
        t.no_levels) ∧
      ((pls.foldl (fun acc pl => insert_step3 acc key pl) t).reps = t.reps) ∧
      ((pls.foldl (fun acc pl => insert_step3 acc key pl) t).head_rep =
        t.head_rep) ∧
      ((pls.foldl (fun acc pl => insert_step3 acc key pl) t).tail_rep =
        t.tail_rep) := by
  intro pls
  induction pls with
  | nil =>
    intro t
    exact ⟨rfl, rfl, rfl, rfl⟩
  | cons pl pls ih =>
    intro t
    rw [List.foldl_cons]
    obtain ⟨h1, h2, h3, h4⟩ := ih (insert_step3 t key pl)
    obtain ⟨g1, g2, g3, g4⟩ := insert_step3_fields t key pl
    exact ⟨h1.trans g1, h2.trans g2, h3.trans g3, h4.trans g4⟩

/-- The `min_rep`/`max_rep` effect of the whole step 3 loop: fresh entries
carrying `key` at every level in the processed range on the key's path,
everything else untouched. -/
theorem step3_fold_mm (key : Nat) :
    ∀ (n a : Nat) (t : XFastTrie), 1 ≤ a →
      ∀ l p, 1 ≤ l →
        mmOf (List.lookup p
          (((List.range' a n).foldl (fun acc pl => insert_step3 acc key pl)
            t).levels l)) =
          if a ≤ l ∧ l < a + n ∧ p = key >>> (t.no_levels - l) then
            some (some key, some key)
          else mmOf (List.lookup p (t.levels l)) := by
  intro n
  induction n with
  | zero =>
    intro a t ha l p hl
    rw [if_neg (by omega)]
    rfl
  | succ n ih =>
    intro a t ha l p hl
    rw [List.range'_succ, List.foldl_cons]
    have hfold := ih (a + 1) (insert_step3 t key a) (by omega) l p hl
    rw [(insert_step3_fields t key a).1] at hfold
    rw [hfold]
    by_cases hcase : a + 1 ≤ l ∧ l < a + 1 + n ∧ p = key >>> (t.no_levels - l)
    · rw [if_pos hcase, if_pos (show a ≤ l ∧ l < a + (n + 1) ∧
        p = key >>> (t.no_levels - l) from ⟨by omega, by omega, hcase.2.2⟩)]
    · rw [if_neg hcase, insert_step3_mm t key a (by omega) l p hl]
      by_cases hstep : l = a ∧ p = key >>> (t.no_levels - a)
      · rw [if_pos hstep, if_pos (show a ≤ l ∧ l < a + (n + 1) ∧
          p = key >>> (t.no_levels - l) from
          ⟨by omega, by omega, by rw [hstep.1]; exact hstep.2⟩)]
      · rw [if_neg hstep, if_neg (by
          rintro ⟨h1, h2, h3⟩
          by_cases hla : l = a
          · exact hstep ⟨hla, by rw [← hla]; exact h3⟩
          · exact hcase ⟨by omega, by omega, h3⟩)]

theorem insert_step4_fields (t : XFastTrie) (key pl : Nat) :
    (insert_step4 t key pl).no_levels = t.no_levels ∧
    (insert_step4 t key pl).reps = t.reps ∧
    (insert_step4 t key pl).head_rep = t.head_rep ∧
    (insert_step4 t key pl).tail_rep = t.tail_rep :=
  ⟨rfl, rfl, rfl, rfl⟩

/-- The `min_rep`/`max_rep` effect of one insert step 4 iteration. -/
theorem insert_step4_mm (t : XFastTrie) (key pl : Nat) :
    ∀ l p,
      mmOf (List.lookup p ((insert_step4 t key pl).levels l)) =
        if l = pl ∧ p = key >>> (t.no_levels - pl) then
          (mmOf (List.lookup p (t.levels l))).map
            (fun mm => (mmUpdMin key mm.1, mmUpdMax key mm.2))
        else mmOf (List.lookup p (t.levels l)) := by
  intro l p
  unfold insert_step4
  rw [upd_level_levels]
  by_cases hlp : l = pl
  · rw [if_pos hlp, lookup_tbl_update]
    by_cases hpp : p = key >>> (t.no_levels - pl)
    · rw [if_pos hpp, if_pos ⟨hlp, hpp⟩, hlp]
      cases ho : List.lookup p (t.levels pl) with
      | none => rfl
      | some v =>
        cases v with
        | mk lc rc mn mx => rfl
    · rw [if_neg hpp, if_neg (by rintro ⟨_, h2⟩; exact hpp h2), hlp]
  · rw [if_neg hlp, if_neg (by rintro ⟨h1, _⟩; exact hlp h1)]

theorem step4_fold_fields (key : Nat) :
    ∀ (pls : List Nat) (t : XFastTrie),
      ((pls.foldl (fun acc pl => insert_step4 acc key pl) t).no_levels =
        t.no_levels) ∧
      ((pls.foldl (fun acc pl => insert_step4 acc key pl) t).reps = t.reps) ∧
      ((pls.foldl (fun acc pl => insert_step4 acc key pl) t).head_rep =
        t.head_rep) ∧
      ((pls.foldl (fun acc pl => insert_step4 acc key pl) t).tail_rep =
        t.tail_rep) := by
  intro pls
  induction pls with
  | nil =>
    intro t
    exact ⟨rfl, rfl, rfl, rfl⟩
  | cons pl pls ih =>
    intro t
    rw [List.foldl_cons]
    obtain ⟨h1, h2, h3, h4⟩ := ih (insert_step4 t key pl)
    exact ⟨h1, h2, h3, h4⟩

/-- The `min_rep`/`max_rep` effect of the whole step 4 loop: a conditional
extrema update at every level `1..n` on the key's path. -/
theorem step4_fold_mm (key : Nat) :
    ∀ (n : Nat) (t : XFastTrie) (l p : Nat),
      mmOf (List.lookup p
        ((((List.range' 1 n).reverse).foldl (fun acc pl => insert_step4 acc key pl)
          t).levels l)) =
        if 1 ≤ l ∧ l < 1 + n ∧ p = key >>> (t.no_levels - l) then
          (mmOf (List.lookup p (t.levels l))).map
            (fun mm => (mmUpdMin key mm.1, mmUpdMax key mm.2))
        else mmOf (List.lookup p (t.levels l)) := by
  intro n
  induction n with
  | zero =>
    intro t l p
    rw [if_neg (by omega)]
    rfl
  | succ n ih =>
    intro t l p
    have hrange : (List.range' 1 (n + 1)).reverse =
        (1 + n) :: (List.range' 1 n).reverse := by
      rw [List.range'_concat, List.reverse_append]
      norm_num
    rw [hrange, List.foldl_cons]
    have hfold := ih (insert_step4 t key (1 + n)) l p
    rw [(insert_step4_fields t key (1 + n)).1] at hfold
    rw [hfold]
    have hacc := insert_step4_mm t key (1 + n) l p
    by_cases hcase : 1 ≤ l ∧ l < 1 + n ∧ p = key >>> (t.no_levels - l)
    · rw [if_pos hcase]
      rw [if_neg (by rintro ⟨h1, _⟩; omega)] at hacc
      rw [hacc, if_pos (show 1 ≤ l ∧ l < 1 + (n + 1) ∧
        p = key >>> (t.no_levels - l) from ⟨by omega, by omega, hcase.2.2⟩)]
    · rw [if_neg hcase]
      by_cases hstep : l = 1 + n ∧ p = key >>> (t.no_levels - (1 + n))
      · rw [if_pos hstep] at hacc
        rw [hacc, if_pos (show 1 ≤ l ∧ l < 1 + (n + 1) ∧
          p = key >>> (t.no_levels - l) from
          ⟨by omega, by omega, by rw [hstep.1]; exact hstep.2⟩)]
      · rw [if_neg hstep] at hacc
        rw [hacc, if_neg (by
          rintro ⟨h1, h2, h3⟩
          by_cases hla : l = 1 + n
          · exact hstep ⟨hla, by rw [← hla]; exact h3⟩
          · exact hcase ⟨h1, by omega, h3⟩)]

theorem isSome_mmOf (o : Option XFastValue) : (mmOf o).isSome = o.isSome := by
  cases o <;> rfl

theorem mmOf_some (v : XFastValue) : mmOf (some v) = some (v.min_rep, v.max_rep) :=
  rfl

theorem listMinD_concat_of_lb (a : Nat) (l : List Nat) (h : ∀ x ∈ l, a ≤ x) :
    listMinD (l ++ [a]) = some a := by
  rw [listMinD_append_singleton]
  cases hl : listMinD l with
  | none => rfl
  | some m =>
    have hm := (listMinD_spec l m hl).1
    show some (min m a) = some a
    rw [Nat.min_eq_right (h m hm)]

theorem filter_append_single (p : Nat → Bool) (l : List Nat) (x : Nat) :
    (l ++ [x]).filter p = l.filter p ++ (if p x then [x] else []) := by
  rw [List.filter_append]
  congr 1
  rw [List.filter_singleton]
  cases p x <;> rfl

theorem maxLe_spec (ks : List Nat) (q m : Nat) (h : maxLe ks q = some m) :
    m ∈ ks ∧ m ≤ q ∧ ∀ x ∈ ks, x ≤ q → x ≤ m := by
  unfold maxLe at h
  obtain ⟨hmem, hub⟩ := listMaxD_spec _ m h
  obtain ⟨hks, hle⟩ := List.mem_filter.mp hmem
  refine ⟨hks, by simpa using hle, ?_⟩
  intro x hx hxq
  exact hub x (List.mem_filter.mpr ⟨hx, by simpa using hxq⟩)

theorem minGe_spec (ks : List Nat) (q m : Nat) (h : minGe ks q = some m) :
    m ∈ ks ∧ q ≤ m ∧ ∀ x ∈ ks, q ≤ x → m ≤ x := by
  unfold minGe at h
  obtain ⟨hmem, hlb⟩ := listMinD_spec _ m h
  obtain ⟨hks, hle⟩ := List.mem_filter.mp hmem
  refine ⟨hks, by simpa using hle, ?_⟩
  intro x hx hxq
  exact hlb x (List.mem_filter.mpr ⟨hx, by simpa using hxq⟩)

theorem maxLe_none_spec (ks : List Nat) (q : Nat) (h : maxLe ks q = none) :
    ∀ x ∈ ks, ¬(x ≤ q) := by
  unfold maxLe at h
  rw [listMaxD_eq_none] at h
  intro x hx hxq
  have : x ∈ ks.filter (fun x => decide (x ≤ q)) :=
    List.mem_filter.mpr ⟨hx, by simpa using hxq⟩
  rw [h] at this
  exact absurd this (List.not_mem_nil _)

theorem minGe_none_spec (ks : List Nat) (q : Nat) (h : minGe ks q = none) :
    ∀ x ∈ ks, ¬(q ≤ x) := by
  unfold minGe at h
  rw [listMinD_eq_none] at h
  intro x hx hxq
  have : x ∈ ks.filter (fun x => decide (q ≤ x)) :=
    List.mem_filter.mpr ⟨hx, by simpa using hxq⟩
  rw [h] at this
  exact absurd this (List.not_mem_nil _)

/-- The new key's own left pointer: the largest strictly smaller key of
the extended set is the old `maxLe`. -/
theorem maxLt_append_key_self (ks : List Nat) (key : Nat) (hnew : key ∉ ks) :
    maxLt (ks ++ [key]) key = maxLe ks key := by
  unfold maxLt maxLe
  rw [filter_append_single, if_neg (by simp), List.append_nil]
  congr 1
  apply List.filter_congr
  intro x hx
  rw [decide_eq_decide]
  constructor
  · intro h
    omega
  · intro h
    rcases Nat.lt_or_ge x key with h2 | h2
    · exact h2
    · exfalso
      have : x = key := by omega
      subst this
      exact hnew hx

theorem minGt_append_key_self (ks : List Nat) (key : Nat) (hnew : key ∉ ks) :
    minGt (ks ++ [key]) key = minGe ks key := by
  unfold minGt minGe
  rw [filter_append_single, if_neg (by simp), List.append_nil]
  congr 1
  apply List.filter_congr
  intro x hx
  rw [decide_eq_decide]
  constructor
  · intro h
    omega
  · intro h
    rcases Nat.lt_or_ge key x with h2 | h2
    · exact h2
    · exfalso
      have : x = key := by omega
      subst this
      exact hnew hx

theorem maxLt_append_of_ge (ks : List Nat) (key k : Nat) (h : ¬key < k) :
    maxLt (ks ++ [key]) k = maxLt ks k := by
  unfold maxLt
  rw [filter_append_single, if_neg (by simpa using h), List.append_nil]

theorem minGt_append_of_le (ks : List Nat) (key k : Nat) (h : ¬k < key) :
    minGt (ks ++ [key]) k = minGt ks k := by
  unfold minGt
  rw [filter_append_single, if_neg (by simpa using h), List.append_nil]

/-- The old predecessor's new right pointer is the inserted key. -/
theorem minGt_append_eq_key (ks : List Nat) (key k : Nat) (h1 : k < key)
    (h2 : ∀ x ∈ ks, k < x → key ≤ x) :
    minGt (ks ++ [key]) k = some key := by
  unfold minGt
  rw [filter_append_single, if_pos (by simpa using h1)]
  apply listMinD_concat_of_lb
  intro x hx
  obtain ⟨hxks, hxk⟩ := List.mem_filter.mp hx
  exact h2 x hxks (by simpa using hxk)

/-- The old successor's new left pointer is the inserted key. -/
theorem maxLt_append_eq_key (ks : List Nat) (key k : Nat) (h1 : key < k)
    (h2 : ∀ x ∈ ks, x < k → x ≤ key) :
    maxLt (ks ++ [key]) k = some key := by
  unfold maxLt
  rw [filter_append_single, if_pos (by simpa using h1)]
  apply listMaxD_concat_of_ub
  intro x hx
  obtain ⟨hxks, hxk⟩ := List.mem_filter.mp hx
  exact h2 x hxks (by simpa using hxk)

/-- A node separated from the key by another member keeps its left
pointer. -/
theorem maxLt_append_untouched (ks : List Nat) (key k s : Nat) (hs : s ∈ ks)
    (h1 : key < s) (h2 : s < k) :
    maxLt (ks ++ [key]) k = maxLt ks k := by
  unfold maxLt
  rw [filter_append_single, if_pos (by simp; omega)]
  have hsf : s ∈ ks.filter (fun x => decide (x < k)) :=
    List.mem_filter.mpr ⟨hs, by simpa using h2⟩
  cases hm : listMaxD (ks.filter (fun x => decide (x < k))) with
  | none =>
    rw [listMaxD_eq_none] at hm
    rw [hm] at hsf
    exact absurd hsf (List.not_mem_nil _)
  | some m0 =>
    have hub := (listMaxD_spec _ m0 hm).2 s hsf
    rw [listMaxD_append_singleton, hm]
    show some (max m0 key) = some m0
    rw [Nat.max_eq_left (by omega)]

/-- A node separated from the key by another member keeps its right
pointer. -/
theorem minGt_append_untouched (ks : List Nat) (key k s : Nat) (hs : s ∈ ks)
    (h1 : s < key) (h2 : k < s) :
    minGt (ks ++ [key]) k = minGt ks k := by
  unfold minGt
  rw [filter_append_single, if_pos (by simp; omega)]
  have hsf : s ∈ ks.filter (fun x => decide (k < x)) :=
    List.mem_filter.mpr ⟨hs, by simpa using h2⟩
  cases hm : listMinD (ks.filter (fun x => decide (k < x))) with
  | none =>
    rw [listMinD_eq_none] at hm
    rw [hm] at hsf
    exact absurd hsf (List.not_mem_nil _)
  | some n0 =>
    have hlb := (listMinD_spec _ n0 hm).2 s hsf
    rw [listMinD_append_singleton, hm]
    show some (min n0 key) = some n0
    rw [Nat.min_eq_left (by omega)]

theorem isSome_opt_map (f : Option Nat × Option Nat → Option Nat × Option Nat)
    (o : Option (Option Nat × Option Nat)) : (o.map f).isSome = o.isSome := by
  cases o <;> rfl

/-- Effect of `insert` on the level tables: membership extends to the new
key's prefixes and the cone extrema absorb the new key. -/
theorem insert_levels_inv (w : Nat) (ks : List Nat) (t : XFastTrie)
    (inv : XInv w ks t) (hw : 1 ≤ w) (key : Nat)
    (hnew : key ∉ ks) :
    (∀ l p, 1 ≤ l → l ≤ w →
      ((List.lookup p ((t.insert key).levels l)).isSome = true ↔
        ∃ k ∈ ks ++ [key], k >>> (w - l) = p)) ∧
    (∀ l p v, 1 ≤ l → l ≤ w →
      List.lookup p ((t.insert key).levels l) = some v →
      v.min_rep = listMinD (coneOf w (ks ++ [key]) l p) ∧
      v.max_rep = listMaxD (coneOf w (ks ++ [key]) l p)) := by
  have hwl : t.no_levels = w := inv.wlev
  obtain ⟨hLw, hLmatch, hLabove⟩ := flpl_spec w ks t inv hw key
  have hlevels : (t.insert key).levels =
      (if t.find_longest_prefix_length key > 0 then
        ((List.range' 1 (t.no_levels - 1)).reverse).foldl
          (fun acc pl => insert_step4 acc key pl)
          ((List.range' (t.find_longest_prefix_length key + 1)
            (t.no_levels - t.find_longest_prefix_length key)).foldl
            (fun acc pl => insert_step3 acc key pl) t)
      else
        (List.range' (t.find_longest_prefix_length key + 1)
          (t.no_levels - t.find_longest_prefix_length key)).foldl
          (fun acc pl => insert_step3 acc key pl) t).levels := rfl
  set L := t.find_longest_prefix_length key with hLdef
  set T3 := (List.range' (L + 1) (t.no_levels - L)).foldl
    (fun acc pl => insert_step3 acc key pl) t with hT3def
  have hLltw : L < w := by
    rcases Nat.lt_or_ge L w with h | h
    · exact h
    · exfalso
      have hLw' : L = w := by omega
      rcases hLmatch with h0 | hm
      · omega
      · unfold Matching at hm
        obtain ⟨k, hk, hkeq⟩ := hm
        rw [hLw', Nat.sub_self, Nat.shiftRight_zero, Nat.shiftRight_zero]
          at hkeq
        exact hnew (hkeq ▸ hk)
  have hT3no : T3.no_levels = t.no_levels := by
    rw [hT3def]
    exact (step3_fold_fields key _ t).1
  have hKK : (some ((some key : Option Nat), (some key : Option Nat))).map
      (fun mm => (mmUpdMin key mm.1, mmUpdMax key mm.2)) =
      some (some key, some key) := by
    simp [mmUpdMin, mmUpdMax]
  have hmm : ∀ l p, 1 ≤ l →
      mmOf (List.lookup p ((t.insert key).levels l)) =
        if L + 1 ≤ l ∧ l ≤ w ∧ p = key >>> (w - l) then
          some (some key, some key)
        else if 1 ≤ l ∧ l ≤ L ∧ p = key >>> (w - l) then
          (mmOf (List.lookup p (t.levels l))).map
            (fun mm => (mmUpdMin key mm.1, mmUpdMax key mm.2))
        else mmOf (List.lookup p (t.levels l)) := by
    intro l p hl
    rw [hlevels]
    have h3 := step3_fold_mm key (t.no_levels - L) (L + 1) t (by omega) l p hl
    rw [← hT3def, hwl] at h3
    by_cases hL0 : L > 0
    · rw [if_pos hL0, hwl]
      have h4 := step4_fold_mm key (w - 1) T3 l p
      rw [hT3no, hwl, h3] at h4
      rw [h4]
      by_cases hpw : p = key >>> (w - l)
      · by_cases hle : l ≤ L
        · rw [if_pos (show 1 ≤ l ∧ l < 1 + (w - 1) ∧ p = key >>> (w - l)
              from ⟨hl, by omega, hpw⟩),
            if_neg (show ¬(L + 1 ≤ l ∧ l < L + 1 + (w - L) ∧
              p = key >>> (w - l)) from by rintro ⟨h1, _, _⟩; omega),
            if_neg (show ¬(L + 1 ≤ l ∧ l ≤ w ∧ p = key >>> (w - l)) from
              by rintro ⟨h1, _, _⟩; omega),
            if_pos (show 1 ≤ l ∧ l ≤ L ∧ p = key >>> (w - l) from
              ⟨hl, hle, hpw⟩)]
        · rcases Nat.lt_trichotomy l w with hlt | heq | hgt
          · rw [if_pos (show 1 ≤ l ∧ l < 1 + (w - 1) ∧ p = key >>> (w - l)
                from ⟨hl, by omega, hpw⟩),
              if_pos (show L + 1 ≤ l ∧ l < L + 1 + (w - L) ∧
                p = key >>> (w - l) from ⟨by omega, by omega, hpw⟩),
              hKK,
              if_pos (show L + 1 ≤ l ∧ l ≤ w ∧ p = key >>> (w - l) from
                ⟨by omega, by omega, hpw⟩)]
          · rw [if_neg (show ¬(1 ≤ l ∧ l < 1 + (w - 1) ∧
                p = key >>> (w - l)) from by rintro ⟨_, h2, _⟩; omega),
              if_pos (show L + 1 ≤ l ∧ l < L + 1 + (w - L) ∧
                p = key >>> (w - l) from ⟨by omega, by omega, hpw⟩),
              if_pos (show L + 1 ≤ l ∧ l ≤ w ∧ p = key >>> (w - l) from
                ⟨by omega, by omega, hpw⟩)]
          · rw [if_neg (show ¬(1 ≤ l ∧ l < 1 + (w - 1) ∧
                p = key >>> (w - l)) from by rintro ⟨_, h2, _⟩; omega),
              if_neg (show ¬(L + 1 ≤ l ∧ l < L + 1 + (w - L) ∧
                p = key >>> (w - l)) from by rintro ⟨_, h2, _⟩; omega),
              if_neg (show ¬(L + 1 ≤ l ∧ l ≤ w ∧ p = key >>> (w - l)) from
                by rintro ⟨_, h2, _⟩; omega),
              if_neg (show ¬(1 ≤ l ∧ l ≤ L ∧ p = key >>> (w - l)) from
                by rintro ⟨_, h2, _⟩; omega)]
      · rw [if_neg (show ¬(1 ≤ l ∧ l < 1 + (w - 1) ∧
            p = key >>> (w - l)) from by rintro ⟨_, _, h3c⟩; exact hpw h3c),
          if_neg (show ¬(L + 1 ≤ l ∧ l < L + 1 + (w - L) ∧
            p = key >>> (w - l)) from by rintro ⟨_, _, h3c⟩; exact hpw h3c),
          if_neg (show ¬(L + 1 ≤ l ∧ l ≤ w ∧ p = key >>> (w - l)) from
            by rintro ⟨_, _, h3c⟩; exact hpw h3c),
          if_neg (show ¬(1 ≤ l ∧ l ≤ L ∧ p = key >>> (w - l)) from
            by rintro ⟨_, _, h3c⟩; exact hpw h3c)]
    · rw [if_neg hL0, h3]
      have hL0' : L = 0 := by omega
      by_cases hpw : p = key >>> (w - l)
      · rcases le_or_lt l w with hlew | hgt
        · rw [if_pos (show L + 1 ≤ l ∧ l < L + 1 + (w - L) ∧
              p = key >>> (w - l) from ⟨by omega, by omega, hpw⟩),
            if_pos (show L + 1 ≤ l ∧ l ≤ w ∧ p = key >>> (w - l) from
              ⟨by omega, hlew, hpw⟩)]
        · rw [if_neg (show ¬(L + 1 ≤ l ∧ l < L + 1 + (w - L) ∧
              p = key >>> (w - l)) from by rintro ⟨_, h2, _⟩; omega),
            if_neg (show ¬(L + 1 ≤ l ∧ l ≤ w ∧ p = key >>> (w - l)) from
              by rintro ⟨_, h2, _⟩; omega),
            if_neg (show ¬(1 ≤ l ∧ l ≤ L ∧ p = key >>> (w - l)) from
              by rintro ⟨_, h2, _⟩; omega)]
      · rw [if_neg (show ¬(L + 1 ≤ l ∧ l < L + 1 + (w - L) ∧
            p = key >>> (w - l)) from by rintro ⟨_, _, h3c⟩; exact hpw h3c),
          if_neg (show ¬(L + 1 ≤ l ∧ l ≤ w ∧ p = key >>> (w - l)) from
            by rintro ⟨_, _, h3c⟩; exact hpw h3c),
          if_neg (show ¬(1 ≤ l ∧ l ≤ L ∧ p = key >>> (w - l)) from
            by rintro ⟨_, _, h3c⟩; exact hpw h3c)]
  constructor
  · intro l p hl hlw
    rw [← isSome_mmOf, hmm l p hl]
    by_cases hpw : p = key >>> (w - l)
    · by_cases hle : l ≤ L
      · rw [if_neg (show ¬(L + 1 ≤ l ∧ l ≤ w ∧ p = key >>> (w - l)) from
            by rintro ⟨h1, _, _⟩; omega),
          if_pos (show 1 ≤ l ∧ l ≤ L ∧ p = key >>> (w - l) from
            ⟨hl, hle, hpw⟩),
          isSome_opt_map, isSome_mmOf, inv.lev_mem l p hl hlw]
        constructor
        · rintro ⟨k, hk, hkeq⟩
          exact ⟨k, List.mem_append_left _ hk, hkeq⟩
        · rintro ⟨k, hk, hkeq⟩
          rcases List.mem_append.mp hk with hk2 | hk2
          · exact ⟨k, hk2, hkeq⟩
          · rw [List.mem_singleton] at hk2
            have hM := hLmatch.resolve_left (by omega)
            unfold Matching at hM
            obtain ⟨k2, hk2m, hk2eq⟩ := hM
            refine ⟨k2, hk2m, ?_⟩
            have hdown : k2 >>> (w - l) = key >>> (w - l) := by
              have hds : w - l = (w - L) + (L - l) := by omega
              rw [hds]
              exact shiftRight_down _ _ _ _ hk2eq
            rw [hdown]
            exact hpw.symm
      · rw [if_pos (show L + 1 ≤ l ∧ l ≤ w ∧ p = key >>> (w - l) from
            ⟨by omega, hlw, hpw⟩)]
        constructor
        · intro _
          exact ⟨key, by simp, hpw.symm⟩
        · intro _
          rfl
    · rw [if_neg (show ¬(L + 1 ≤ l ∧ l ≤ w ∧ p = key >>> (w - l)) from
          by rintro ⟨_, _, h3c⟩; exact hpw h3c),
        if_neg (show ¬(1 ≤ l ∧ l ≤ L ∧ p = key >>> (w - l)) from
          by rintro ⟨_, _, h3c⟩; exact hpw h3c),
        isSome_mmOf, inv.lev_mem l p hl hlw]
      constructor
      · rintro ⟨k, hk, hkeq⟩
        exact ⟨k, List.mem_append_left _ hk, hkeq⟩
      · rintro ⟨k, hk, hkeq⟩
        rcases List.mem_append.mp hk with hk2 | hk2
        · exact ⟨k, hk2, hkeq⟩
        · rw [List.mem_singleton] at hk2
          rw [hk2] at hkeq
          exact absurd hkeq.symm hpw
  · intro l p v hl hlw hv
    have h := hmm l p hl
    rw [hv] at h
    have hcone : coneOf w (ks ++ [key]) l p =
        coneOf w ks l p ++ (if key >>> (w - l) = p then [key] else []) := by
      unfold coneOf
      rw [filter_append_single]
      congr 1
      by_cases hd : key >>> (w - l) = p
      · rw [if_pos (decide_eq_true hd), if_pos hd]
      · rw [if_neg (by simpa using hd), if_neg hd]
    by_cases hpw : p = key >>> (w - l)
    · by_cases hle : l ≤ L
      · rw [if_neg (show ¬(L + 1 ≤ l ∧ l ≤ w ∧ p = key >>> (w - l)) from
            by rintro ⟨h1, _, _⟩; omega),
          if_pos (show 1 ≤ l ∧ l ≤ L ∧ p = key >>> (w - l) from
            ⟨hl, hle, hpw⟩)] at h
        have hM := hLmatch.resolve_left (by omega)
        unfold Matching at hM
        obtain ⟨k2, hk2m, hk2eq⟩ := hM
        have hdown : k2 >>> (w - l) = key >>> (w - l) := by
          have hds : w - l = (w - L) + (L - l) := by omega
          rw [hds]
          exact shiftRight_down _ _ _ _ hk2eq
        have hold : (List.lookup p (t.levels l)).isSome = true :=
          (inv.lev_mem l p hl hlw).mpr ⟨k2, hk2m, by rw [hdown]; exact hpw.symm⟩
        obtain ⟨v0, hv0⟩ := Option.isSome_iff_exists.mp hold
        obtain ⟨hmin0, hmax0⟩ := inv.lev_minmax l p v0 hl hlw hv0
        have hk2c : k2 ∈ coneOf w ks l p :=
          (mem_coneOf _ _ _ _ _).mpr ⟨hk2m, by rw [hdown]; exact hpw.symm⟩
        cases hmm0 : listMinD (coneOf w ks l p) with
        | none =>
          rw [listMinD_eq_none] at hmm0
          rw [hmm0] at hk2c
          exact absurd hk2c (List.not_mem_nil _)
        | some m =>
          cases hMM0 : listMaxD (coneOf w ks l p) with
          | none =>
            rw [listMaxD_eq_none] at hMM0
            rw [hMM0] at hk2c
            exact absurd hk2c (List.not_mem_nil _)
          | some M =>
            rw [hv0, mmOf_some, mmOf_some, hmin0, hmax0, hmm0, hMM0,
              Option.map_some'] at h
            have h2 := Option.some.inj h
            have hminv : v.min_rep = mmUpdMin key (some m) :=
              congrArg Prod.fst h2
            have hmaxv : v.max_rep = mmUpdMax key (some M) :=
              congrArg Prod.snd h2
            constructor
            · rw [hcone, if_pos hpw.symm, hminv,
                listMinD_append_singleton, hmm0]
              show (if key < m then some key else some m) = some (min m key)
              rcases Nat.lt_or_ge key m with hlt | hge
              · rw [if_pos hlt, Nat.min_eq_right (Nat.le_of_lt hlt)]
              · rw [if_neg (by omega), Nat.min_eq_left hge]
            · rw [hcone, if_pos hpw.symm, hmaxv,
                listMaxD_append_singleton, hMM0]
              show (if M < key then some key else some M) = some (max M key)
              rcases Nat.lt_or_ge M key with hlt | hge
              · rw [if_pos hlt, Nat.max_eq_right (Nat.le_of_lt hlt)]
              · rw [if_neg (by omega), Nat.max_eq_left hge]
      · rw [if_pos (show L + 1 ≤ l ∧ l ≤ w ∧ p = key >>> (w - l) from
            ⟨by omega, hlw, hpw⟩), mmOf_some] at h
        have h2 := Option.some.inj h
        have hminv : v.min_rep = some key := congrArg Prod.fst h2
        have hmaxv : v.max_rep = some key := congrArg Prod.snd h2
        have hconeold : coneOf w ks l p = [] := by
          unfold coneOf
          rw [List.filter_eq_nil_iff]
          intro a ha
          simp only [decide_eq_true_eq]
          intro haeq
          have hM : Matching w ks key l := by
            unfold Matching
            exact ⟨a, ha, by rw [haeq]; exact hpw⟩
          exact hLabove l (by omega) hlw hM
        constructor
        · rw [hcone, if_pos hpw.symm, hconeold, List.nil_append]
          exact hminv
        · rw [hcone, if_pos hpw.symm, hconeold, List.nil_append]
          exact hmaxv
    · rw [if_neg (show ¬(L + 1 ≤ l ∧ l ≤ w ∧ p = key >>> (w - l)) from
          by rintro ⟨_, _, h3c⟩; exact hpw h3c),
        if_neg (show ¬(1 ≤ l ∧ l ≤ L ∧ p = key >>> (w - l)) from
          by rintro ⟨_, _, h3c⟩; exact hpw h3c)] at h
      cases hold : List.lookup p (t.levels l) with
      | none =>
        rw [hold, mmOf_some] at h
        simp [mmOf] at h
      | some v0 =>
        rw [hold, mmOf_some, mmOf_some] at h
        have h2 := Option.some.inj h
        have hminv : v.min_rep = v0.min_rep := congrArg Prod.fst h2
        have hmaxv : v.max_rep = v0.max_rep := congrArg Prod.snd h2
        obtain ⟨hmin0, hmax0⟩ := inv.lev_minmax l p v0 hl hlw hold
        have hcone2 : coneOf w (ks ++ [key]) l p = coneOf w ks l p := by
          rw [hcone, if_neg (fun hc => hpw hc.symm), List.append_nil]
        constructor
        · rw [hcone2]
          exact hminv.trans hmin0
        · rw [hcone2]
          exact hmaxv.trans hmax0

theorem insert_t4_reps (t : XFastTrie) (key : Nat) :
    (insert_t4 t key).reps = t.reps := by
  simp only [insert_t4]
  by_cases hL0 : t.find_longest_prefix_length key > 0
  · rw [if_pos hL0, (step4_fold_fields key _ _).2.1,
      (step3_fold_fields key _ t).2.1]
  · rw [if_neg hL0, (step3_fold_fields key _ t).2.1]

/-- The representative map after `insert`: a fresh node for the key, the
predecessor's right and the successor's left pointers redirected, the rest
untouched. -/
theorem insert_reps (t : XFastTrie) (key k : Nat) :
    (t.insert key).reps k =
      (if k = key then
        some { key := key, left := t.predecessor key,
               right := t.successor key, bst_group := some Tree.leaf }
      else if some k = t.predecessor key then
        (t.reps k).map (fun r => { r with right := some key })
      else if some k = t.successor key then
        (t.reps k).map (fun r => { r with left := some key })
      else t.reps k) := by
  have h0 : (t.insert key).reps k =
      (if k = key then
        some { key := key, left := t.predecessor key,
               right := t.successor key, bst_group := some Tree.leaf }
      else if some k = t.predecessor key then
        ((insert_t4 t key).reps k).map (fun r => { r with right := some key })
      else if some k = t.successor key then
        ((insert_t4 t key).reps k).map (fun r => { r with left := some key })
      else (insert_t4 t key).reps k) := rfl
  rw [h0, insert_t4_reps]

theorem insert_fields (t : XFastTrie) (key : Nat) :
    (t.insert key).no_levels = t.no_levels ∧
    ((t.insert key).head_rep = match t.head_rep with
      | some h => if key < h then some key else some h
      | none => some key) ∧
    ((t.insert key).tail_rep = match t.tail_rep with
      | some tl => if tl < key then some key else some tl
      | none => some key) :=
  ⟨rfl, rfl, rfl⟩

/-- Inserting a fresh `w`-bit key preserves the structure invariant, with
the insert set extended by the key. -/
theorem insert_inv (w : Nat) (ks : List Nat) (t : XFastTrie)
    (inv : XInv w ks t) (hw : 1 ≤ w) (hks : ∀ k ∈ ks, k < 2 ^ w)
    (key : Nat) (hkey : key < 2 ^ w) (hnew : key ∉ ks) :
    XInv w (ks ++ [key]) (t.insert key) := by
  obtain ⟨hmem', hminmax'⟩ := insert_levels_inv w ks t inv hw key hnew
  have hpredK : t.predecessor key = maxLe ks key :=
    pred_correct w ks t inv hw hks key hkey
  have hsuccK : t.successor key = minGe ks key :=
    succ_correct w ks t inv hw hks key hkey
  obtain ⟨hno, hhead, htail⟩ := insert_fields t key
  refine ⟨?_, hmem', hminmax', ?_, ?_, ?_, ?_, ?_⟩
  · rw [hno]
    exact inv.wlev
  · intro k
    rw [insert_reps]
    by_cases hkk : k = key
    · rw [if_pos hkk]
      constructor
      · intro _
        rw [hkk]
        simp
      · intro _
        rfl
    · rw [if_neg hkk]
      have hsplit : (if some k = t.predecessor key then
          (t.reps k).map (fun r => { r with right := some key })
        else if some k = t.successor key then
          (t.reps k).map (fun r => { r with left := some key })
        else t.reps k).isSome = (t.reps k).isSome := by
        by_cases h1 : some k = t.predecessor key
        · rw [if_pos h1]
          cases t.reps k <;> rfl
        · rw [if_neg h1]
          by_cases h2 : some k = t.successor key
          · rw [if_pos h2]
            cases t.reps k <;> rfl
          · rw [if_neg h2]
      rw [hsplit, inv.reps_mem k]
      constructor
      · intro h
        exact List.mem_append_left _ h
      · intro h
        rcases List.mem_append.mp h with h2 | h2
        · exact h2
        · rw [List.mem_singleton] at h2
          exact absurd h2 hkk
  · intro k r hr
    rw [insert_reps] at hr
    by_cases hkk : k = key
    · rw [if_pos hkk] at hr
      have hR := Option.some.inj hr
      subst hR
      refine ⟨hkk.symm, ?_, ?_⟩
      · show t.predecessor key = maxLt (ks ++ [key]) k
        rw [hpredK, hkk]
        exact (maxLt_append_key_self ks key hnew).symm
      · show t.successor key = minGt (ks ++ [key]) k
        rw [hsuccK, hkk]
        exact (minGt_append_key_self ks key hnew).symm
    · rw [if_neg hkk] at hr
      by_cases h1 : some k = t.predecessor key
      · rw [if_pos h1] at hr
        cases hrep : t.reps k with
        | none =>
          rw [hrep] at hr
          simp at hr
        | some r0 =>
          rw [hrep, Option.map_some'] at hr
          have hR := Option.some.inj hr
          subst hR
          obtain ⟨hrk, hrl, hrr⟩ := inv.reps_val k r0 hrep
          have hk2 : maxLe ks key = some k := by
            rw [← hpredK]
            exact h1.symm
          obtain ⟨hkmem, hkle, hkopt⟩ := maxLe_spec ks key k hk2
          have hklt : k < key := by
            rcases Nat.lt_or_ge k key with h | h
            · exact h
            · exfalso
              have hcon : k = key := by omega
              rw [hcon] at hkmem
              exact hnew hkmem
          refine ⟨hrk, ?_, ?_⟩
          · show r0.left = maxLt (ks ++ [key]) k
            rw [hrl, maxLt_append_of_ge ks key k (by omega)]
          · show (some key : Option Nat) = minGt (ks ++ [key]) k
            refine (minGt_append_eq_key ks key k hklt ?_).symm
            intro x hx hkx
            rcases Nat.lt_or_ge x key with hxlt | hxge
            · exfalso
              have := hkopt x hx (by omega)
              omega
            · exact hxge
      · rw [if_neg h1] at hr
        by_cases h2 : some k = t.successor key
        · rw [if_pos h2] at hr
          cases hrep : t.reps k with
          | none =>
            rw [hrep] at hr
            simp at hr
          | some r0 =>
            rw [hrep, Option.map_some'] at hr
            have hR := Option.some.inj hr
            subst hR
            obtain ⟨hrk, hrl, hrr⟩ := inv.reps_val k r0 hrep
            have hk2 : minGe ks key = some k := by
              rw [← hsuccK]
              exact h2.symm
            obtain ⟨hkmem, hkge, hkopt⟩ := minGe_spec ks key k hk2
            have hkgt : key < k := by
              rcases Nat.lt_or_ge key k with h | h
              · exact h
              · exfalso
                have hcon : k = key := by omega
                rw [hcon] at hkmem
                exact hnew hkmem
            refine ⟨hrk, ?_, ?_⟩
            · show (some key : Option Nat) = maxLt (ks ++ [key]) k
              refine (maxLt_append_eq_key ks key k hkgt ?_).symm
              intro x hx hxk
              rcases Nat.lt_or_ge key x with hxgt | hxle
              · exfalso
                have := hkopt x hx (by omega)
                omega
              · exact hxle
            · show r0.right = minGt (ks ++ [key]) k
              rw [hrr, minGt_append_of_le ks key k (by omega)]
        · rw [if_neg h2] at hr
          obtain ⟨hrk, hrl, hrr⟩ := inv.reps_val k r hr
          have hkmem : k ∈ ks := (inv.reps_mem k).mp (by simp [hr])
          refine ⟨hrk, ?_, ?_⟩
          · rw [hrl]
            rcases Nat.lt_or_ge key k with hgt | hle2
            · cases hs : minGe ks key with
              | none =>
                exfalso
                exact (minGe_none_spec ks key hs) k hkmem (by omega)
              | some s =>
                obtain ⟨hsmem, hsge, hsopt⟩ := minGe_spec ks key s hs
                have hsk : s ≤ k := hsopt k hkmem (by omega)
                have hsne : s ≠ k := by
                  intro hcon
                  apply h2
                  rw [hsuccK, hs, hcon]
                have hsnekey : s ≠ key := by
                  intro hcon
                  rw [hcon] at hsmem
                  exact hnew hsmem
                exact (maxLt_append_untouched ks key k s hsmem (by omega)
                  (by omega)).symm
            · exact (maxLt_append_of_ge ks key k (by omega)).symm
          · rw [hrr]
            rcases Nat.lt_or_ge k key with hlt | hge2
            · cases hp : maxLe ks key with
              | none =>
                exfalso
                exact (maxLe_none_spec ks key hp) k hkmem (by omega)
              | some s =>
                obtain ⟨hsmem, hsle, hsopt⟩ := maxLe_spec ks key s hp
                have hks' : k ≤ s := hsopt k hkmem (by omega)
                have hsne : s ≠ k := by
                  intro hcon
                  apply h1
                  rw [hpredK, hp, hcon]
                have hsnekey : s ≠ key := by
                  intro hcon
                  rw [hcon] at hsmem
                  exact hnew hsmem
                exact (minGt_append_untouched ks key k s hsmem (by omega)
                  (by omega)).symm
            · exact (minGt_append_of_le ks key k (by omega)).symm
  · rw [hhead, inv.head_eq, listMinD_append_singleton]
    cases hks0 : listMinD ks with
    | none => rfl
    | some m =>
      show (if key < m then some key else some m) = some (min m key)
      rcases Nat.lt_or_ge key m with hlt | hge
      · rw [if_pos hlt, Nat.min_eq_right (Nat.le_of_lt hlt)]
      · rw [if_neg (by omega), Nat.min_eq_left hge]
  · rw [htail, inv.tail_eq, listMaxD_append_singleton]
    cases hks0 : listMaxD ks with
    | none => rfl
    | some m =>
      show (if m < key then some key else some m) = some (max m key)
      rcases Nat.lt_or_ge m key with hlt | hge
      · rw [if_pos hlt, Nat.max_eq_right (Nat.le_of_lt hlt)]
      · rw [if_neg (by omega), Nat.max_eq_left hge]
  · intro habs
    exact absurd habs (by simp)

/-- The empty trie satisfies the invariant for the empty insert set. -/
theorem new_inv (w : Nat) : XInv w [] (XFastTrie.new w) := by
  refine ⟨rfl, ?_, ?_, ?_, ?_, rfl, rfl, ?_⟩
  · intro l p h1 _
    simp only [XFastTrie.new]
    rw [if_neg (by omega)]
    simp [List.lookup]
  · intro l p v h1 _ hv
    simp only [XFastTrie.new] at hv
    rw [if_neg (by omega)] at hv
    simp [List.lookup] at hv
  · intro k
    simp [XFastTrie.new]
  · intro k r hr
    simp [XFastTrie.new] at hr
  · intro _ l h1
    simp only [XFastTrie.new]
    rw [if_neg (by omega)]

/-- Folding `insert` over a duplicate-free list of in-range keys keeps the
invariant, with the insert set growing accordingly. -/
theorem insertAll_inv (w : Nat) (hw : 1 ≤ w) :
    ∀ (rest acc : List Nat) (t : XFastTrie), XInv w acc t →
      (∀ k ∈ acc ++ rest, k < 2 ^ w) → (acc ++ rest).Nodup →
      XInv w (acc ++ rest) (t.insertAll rest) := by
  intro rest
  induction rest with
  | nil =>
    intro acc t hinv hb hnd
    rw [List.append_nil]
    exact hinv
  | cons k rest ih =>
    intro acc t hinv hb hnd
    have hstep : t.insertAll (k :: rest) = (t.insert k).insertAll rest := rfl
    rw [hstep]
    have hknotin : k ∉ acc := by
      have hdisj := (List.nodup_append.mp hnd).2.2
      intro hkacc
      exact hdisj hkacc (by simp)
    have hinv' : XInv w (acc ++ [k]) (t.insert k) :=
      insert_inv w acc t hinv hw
        (fun x hx => hb x (List.mem_append_left _ hx)) k
        (hb k (by simp)) hknotin
    rw [List.append_cons]
    refine ih (acc ++ [k]) (t.insert k) hinv' ?_ ?_
    · intro x hx
      apply hb x
      rw [List.append_cons]
      exact hx
    · rw [← List.append_cons]
      exact hnd

/-- The trie built by inserting a duplicate-free list of `w`-bit keys
satisfies the structure invariant. -/
theorem buildX_inv (w : Nat) (ks : List Nat) (hw : 1 ≤ w)
    (hb : ∀ k ∈ ks, k < 2 ^ w) (hnd : ks.Nodup) : XInv w ks (buildX w ks) := by
  have h := insertAll_inv w hw ks [] (XFastTrie.new w) (new_inv w)
    (by simpa using hb) (by simpa using hnd)
  simpa using h

theorem perm_filter_le (a : Nat) :
    ∀ (ks : List Nat), ks.Nodup → a ∈ ks →
      (ks.filter (fun x => decide (a ≤ x))).Perm
        (a :: ks.filter (fun x => decide (a < x))) := by
  intro ks
  induction ks with
  | nil =>
    intro _ h
    exact absurd h (List.not_mem_nil _)
  | cons b ks ih =>
    intro hnd hmem
    rw [List.nodup_cons] at hnd
    obtain ⟨hbnot, hnd'⟩ := hnd
    rcases List.mem_cons.mp hmem with hab | hmem'
    · subst hab
      have h1 : (a :: ks).filter (fun x => decide (a ≤ x)) =
          a :: ks.filter (fun x => decide (a ≤ x)) := by
        rw [List.filter_cons, if_pos (by simp)]
      have h2 : (a :: ks).filter (fun x => decide (a < x)) =
          ks.filter (fun x => decide (a < x)) := by
        rw [List.filter_cons, if_neg (by simp)]
      rw [h1, h2]
      have h3 : ks.filter (fun x => decide (a ≤ x)) =
          ks.filter (fun x => decide (a < x)) := by
        apply List.filter_congr
        intro x hx
        have hxa : x ≠ a := fun hcon => hbnot (hcon ▸ hx)
        simp only [decide_eq_decide]
        omega
      rw [h3]
    · have hperm := ih hnd' hmem'
      by_cases hab : a ≤ b
      · have hlt : a < b := by
          rcases Nat.lt_or_ge a b with h | h
          · exact h
          · exfalso
            have hcon : a = b := by omega
            exact hbnot (hcon ▸ hmem')
        have h1 : (b :: ks).filter (fun x => decide (a ≤ x)) =
            b :: ks.filter (fun x => decide (a ≤ x)) := by
          rw [List.filter_cons, if_pos (by simpa using hab)]
        have h2 : (b :: ks).filter (fun x => decide (a < x)) =
            b :: ks.filter (fun x => decide (a < x)) := by
          rw [List.filter_cons, if_pos (by simpa using hlt)]
        rw [h1, h2]
        exact (hperm.cons b).trans (List.Perm.swap a b _)
      · have h1 : (b :: ks).filter (fun x => decide (a ≤ x)) =
            ks.filter (fun x => decide (a ≤ x)) := by
          rw [List.filter_cons, if_neg (by simpa using hab)]
        have h2 : (b :: ks).filter (fun x => decide (a < x)) =
            ks.filter (fun x => decide (a < x)) := by
          rw [List.filter_cons, if_neg (by simp; omega)]
        rw [h1, h2]
        exact hperm

theorem perm_filter_ge (a : Nat) :
    ∀ (ks : List Nat), ks.Nodup → a ∈ ks →
      (ks.filter (fun x => decide (x ≤ a))).Perm
        (a :: ks.filter (fun x => decide (x < a))) := by
  intro ks
  induction ks with
  | nil =>
    intro _ h
    exact absurd h (List.not_mem_nil _)
  | cons b ks ih =>
    intro hnd hmem
    rw [List.nodup_cons] at hnd
    obtain ⟨hbnot, hnd'⟩ := hnd
    rcases List.mem_cons.mp hmem with hab | hmem'
    · subst hab
      have h1 : (a :: ks).filter (fun x => decide (x ≤ a)) =
          a :: ks.filter (fun x => decide (x ≤ a)) := by
        rw [List.filter_cons, if_pos (by simp)]
      have h2 : (a :: ks).filter (fun x => decide (x < a)) =
          ks.filter (fun x => decide (x < a)) := by
        rw [List.filter_cons, if_neg (by simp)]
      rw [h1, h2]
      have h3 : ks.filter (fun x => decide (x ≤ a)) =
          ks.filter (fun x => decide (x < a)) := by
        apply List.filter_congr
        intro x hx
        have hxa : x ≠ a := fun hcon => hbnot (hcon ▸ hx)
        simp only [decide_eq_decide]
        omega
      rw [h3]
    · have hperm := ih hnd' hmem'
      by_cases hab : b ≤ a
      · have hlt : b < a := by
          rcases Nat.lt_or_ge b a with h | h
          · exact h
          · exfalso
            have hcon : a = b := by omega
            exact hbnot (hcon ▸ hmem')
        have h1 : (b :: ks).filter (fun x => decide (x ≤ a)) =
            b :: ks.filter (fun x => decide (x ≤ a)) := by
          rw [List.filter_cons, if_pos (by simpa using hab)]
        have h2 : (b :: ks).filter (fun x => decide (x < a)) =
            b :: ks.filter (fun x => decide (x < a)) := by
          rw [List.filter_cons, if_pos (by simpa using hlt)]
        rw [h1, h2]
        exact (hperm.cons b).trans (List.Perm.swap a b _)
      · have h1 : (b :: ks).filter (fun x => decide (x ≤ a)) =
            ks.filter (fun x => decide (x ≤ a)) := by
          rw [List.filter_cons, if_neg (by simpa using hab)]
        have h2 : (b :: ks).filter (fun x => decide (x < a)) =
            ks.filter (fun x => decide (x < a)) := by
          rw [List.filter_cons, if_neg (by simp; omega)]
        rw [h1, h2]
        exact hperm

theorem sortKeys_filter_le_step (ks : List Nat) (a : Nat) (hnd : ks.Nodup)
    (ha : a ∈ ks) :
    sortKeys (ks.filter (fun x => decide (a ≤ x))) =
      a :: sortKeys (ks.filter (fun x => decide (a < x))) := by
  have hperm : (sortKeys (ks.filter (fun x => decide (a ≤ x)))).Perm
      (a :: sortKeys (ks.filter (fun x => decide (a < x)))) :=
    (List.perm_insertionSort _ _).trans
      ((perm_filter_le a ks hnd ha).trans
        ((List.perm_insertionSort _ _).symm.cons a))
  have hs1 : List.Sorted (fun x y => x ≤ y)
      (sortKeys (ks.filter (fun x => decide (a ≤ x)))) :=
    List.sorted_insertionSort _ _
  have hs2 : List.Sorted (fun x y => x ≤ y)
      (a :: sortKeys (ks.filter (fun x => decide (a < x)))) := by
    rw [List.sorted_cons]
    refine ⟨?_, List.sorted_insertionSort _ _⟩
    intro b hb
    have hb2 : b ∈ ks.filter (fun x => decide (a < x)) :=
      (List.perm_insertionSort _ _).mem_iff.mp hb
    have hb3 := (List.mem_filter.mp hb2).2
    have hlt : a < b := by simpa using hb3
    omega
  exact List.eq_of_perm_of_sorted hperm hs1 hs2

theorem sortKeys_filter_ge_step (ks : List Nat) (a : Nat) (hnd : ks.Nodup)
    (ha : a ∈ ks) :
    sortKeys (ks.filter (fun x => decide (x ≤ a))) =
      sortKeys (ks.filter (fun x => decide (x < a))) ++ [a] := by
  have hperm : (sortKeys (ks.filter (fun x => decide (x ≤ a)))).Perm
      (sortKeys (ks.filter (fun x => decide (x < a))) ++ [a]) :=
    (List.perm_insertionSort _ _).trans
      ((perm_filter_ge a ks hnd ha).trans
        (((List.perm_insertionSort _ _).symm.cons a).trans
          (List.perm_append_singleton a _).symm))
  have hs1 : List.Sorted (fun x y => x ≤ y)
      (sortKeys (ks.filter (fun x => decide (x ≤ a)))) :=
    List.sorted_insertionSort _ _
  have hs2 : List.Sorted (fun x y => x ≤ y)
      (sortKeys (ks.filter (fun x => decide (x < a))) ++ [a]) := by
    show List.Pairwise (fun x y => x ≤ y)
      (sortKeys (ks.filter (fun x => decide (x < a))) ++ [a])
    rw [List.pairwise_append]
    refine ⟨List.sorted_insertionSort _ _, List.sorted_singleton a, ?_⟩
    intro x hx y hy
    rw [List.mem_singleton] at hy
    have hx2 : x ∈ ks.filter (fun z => decide (z < a)) :=
      (List.perm_insertionSort _ _).mem_iff.mp hx
    have hx3 := (List.mem_filter.mp hx2).2
    have hlt : x < a := by simpa using hx3
    show x ≤ y
    omega
  exact List.eq_of_perm_of_sorted hperm hs1 hs2

/-- Under the invariant, the rightward walk from a member lists the members
from that key upward in sorted order. -/
theorem walkR_filter (w : Nat) (ks : List Nat) (t : XFastTrie)
    (inv : XInv w ks t) (hnd : ks.Nodup) :
    ∀ fuel a, a ∈ ks →
      (ks.filter (fun x => decide (a ≤ x))).length ≤ fuel →
      walkRGo t (some a) fuel =
        sortKeys (ks.filter (fun x => decide (a ≤ x))) := by
  intro fuel
  induction fuel with
  | zero =>
    intro a ha hlen
    exfalso
    have hmem : a ∈ ks.filter (fun x => decide (a ≤ x)) :=
      List.mem_filter.mpr ⟨ha, by simp⟩
    have := List.length_pos_of_mem hmem
    omega
  | succ fuel ih =>
    intro a ha hlen
    obtain ⟨r, hr⟩ := Option.isSome_iff_exists.mp ((inv.reps_mem a).mpr ha)
    obtain ⟨hrk, hrl, hrr⟩ := inv.reps_val a r hr
    have hstep : walkRGo t (some a) (fuel + 1) =
        a :: walkRGo t ((t.reps a).bind (fun r => r.right)) fuel := rfl
    rw [hstep, hr,
      show ((some r).bind (fun r2 => r2.right)) = minGt ks a from
        by rw [Option.some_bind]; exact hrr,
      sortKeys_filter_le_step ks a hnd ha]
    congr 1
    cases hm : minGt ks a with
    | none =>
      have hemp : ks.filter (fun x => decide (a < x)) = [] := by
        have hm' : listMinD (ks.filter (fun x => decide (a < x))) = none := hm
        rw [listMinD_eq_none] at hm'
        exact hm'
      rw [hemp]
      cases fuel <;> rfl
    | some b =>
      have hm' : listMinD (ks.filter (fun x => decide (a < x))) = some b := hm
      obtain ⟨hbmem, hblb⟩ := listMinD_spec _ b hm'
      obtain ⟨hbks, hbgt⟩ := List.mem_filter.mp hbmem
      have hab : a < b := by simpa using hbgt
      have hfeq : ks.filter (fun x => decide (b ≤ x)) =
          ks.filter (fun x => decide (a < x)) := by
        apply List.filter_congr
        intro x hx
        simp only [decide_eq_decide]
        constructor
        · intro h
          omega
        · intro h
          exact hblb x (List.mem_filter.mpr ⟨hx, by simpa using h⟩)
      rw [← hfeq]
      apply ih b hbks
      have hpl := (perm_filter_le a ks hnd ha).length_eq
      rw [List.length_cons] at hpl
      rw [hfeq]
      omega

/-- Under the invariant, the leftward walk from a member lists the members
from that key downward in reverse sorted order. -/
theorem walkL_filter (w : Nat) (ks : List Nat) (t : XFastTrie)
    (inv : XInv w ks t) (hnd : ks.Nodup) :
    ∀ fuel a, a ∈ ks →
      (ks.filter (fun x => decide (x ≤ a))).length ≤ fuel →
      walkLGo t (some a) fuel =
        (sortKeys (ks.filter (fun x => decide (x ≤ a)))).reverse := by
  intro fuel
  induction fuel with
  | zero =>
    intro a ha hlen
    exfalso
    have hmem : a ∈ ks.filter (fun x => decide (x ≤ a)) :=
      List.mem_filter.mpr ⟨ha, by simp⟩
    have := List.length_pos_of_mem hmem
    omega
  | succ fuel ih =>
    intro a ha hlen
    obtain ⟨r, hr⟩ := Option.isSome_iff_exists.mp ((inv.reps_mem a).mpr ha)
    obtain ⟨hrk, hrl, hrr⟩ := inv.reps_val a r hr
    have hstep : walkLGo t (some a) (fuel + 1) =
        a :: walkLGo t ((t.reps a).bind (fun r => r.left)) fuel := rfl
    rw [hstep, hr,
      show ((some r).bind (fun r2 => r2.left)) = maxLt ks a from
        by rw [Option.some_bind]; exact hrl,
      sortKeys_filter_ge_step ks a hnd ha,
      show ((sortKeys (ks.filter (fun x => decide (x < a))) ++ [a]).reverse =
        a :: (sortKeys (ks.filter (fun x => decide (x < a)))).reverse) from
        by simp]
    congr 1
    cases hm : maxLt ks a with
    | none =>
      have hemp : ks.filter (fun x => decide (x < a)) = [] := by
        have hm' : listMaxD (ks.filter (fun x => decide (x < a))) = none := hm
        rw [listMaxD_eq_none] at hm'
        exact hm'
      rw [hemp]
      cases fuel <;> rfl
    | some b =>
      have hm' : listMaxD (ks.filter (fun x => decide (x < a))) = some b := hm
      obtain ⟨hbmem, hbub⟩ := listMaxD_spec _ b hm'
      obtain ⟨hbks, hbgt⟩ := List.mem_filter.mp hbmem
      have hab : b < a := by simpa using hbgt
      have hfeq : ks.filter (fun x => decide (x ≤ b)) =
          ks.filter (fun x => decide (x < a)) := by
        apply List.filter_congr
        intro x hx
        simp only [decide_eq_decide]
        constructor
        · intro h
          omega
        · intro h
          exact hbub x (List.mem_filter.mpr ⟨hx, by simpa using h⟩)
      rw [← hfeq]
      apply ih b hbks
      have hpl := (perm_filter_ge a ks hnd ha).length_eq
      rw [List.length_cons] at hpl
      rw [hfeq]
      omega

/-- Claim C1: for every X-Fast trie of width `w` built by inserting any
finite sequence of distinct `w`-bit keys into `XFastTrie::new(w)` and every
`w`-bit query, `predecessor` returns the largest inserted key that is at
most the query (absent when there is none) and `successor` returns the
smallest inserted key that is at least the query (absent when there is
none). -/
theorem xfast_pred_succ (w : Nat) (ks : List Nat) (hw : 1 ≤ w)
    (hnd : ks.Nodup) (hb : ∀ k ∈ ks, k < 2 ^ w) (q : Nat) (hq : q < 2 ^ w) :
    (buildX w ks).predecessor q = maxLe ks q ∧
    (buildX w ks).successor q = minGe ks q := by
  have hinv := buildX_inv w ks hw hb hnd
  exact ⟨pred_correct w ks (buildX w ks) hinv hw hb q hq,
    succ_correct w ks (buildX w ks) hinv hw hb q hq⟩

/-- Witness for C1 at `w = 4`, keys `[10, 3, 12]`, query `11`. -/
theorem xfast_pred_succ_witness :
    (1 ≤ 4 ∧ ([10, 3, 12] : List Nat).Nodup ∧
      (∀ k ∈ ([10, 3, 12] : List Nat), k < 2 ^ 4) ∧ 11 < 2 ^ 4) ∧
    ((buildX 4 [10, 3, 12]).predecessor 11 = some 10 ∧
      (buildX 4 [10, 3, 12]).successor 11 = some 12) := by
  refine ⟨⟨by decide, by decide, by decide, by decide⟩, ?_⟩
  have h := xfast_pred_succ 4 [10, 3, 12] (by decide) (by decide) (by decide)
    11 (by decide)
  exact ⟨h.1.trans (by decide), h.2.trans (by decide)⟩

/-- Claim C5: after any sequence of insertions of distinct keys into an
empty X-Fast trie, the rightward walk from `head_rep` lists the insert set
in ascending sorted order, the leftward walk from `tail_rep` lists it in
descending order, and `head_rep`/`tail_rep` hold the minimum/maximum
inserted key. -/
theorem xfast_linked_list (w : Nat) (ks : List Nat) (hw : 1 ≤ w)
    (hnd : ks.Nodup) (hb : ∀ k ∈ ks, k < 2 ^ w) :
    (buildX w ks).head_rep = listMinD ks ∧
    (buildX w ks).tail_rep = listMaxD ks ∧
    walkRGo (buildX w ks) (buildX w ks).head_rep ks.length = sortKeys ks ∧
    walkLGo (buildX w ks) (buildX w ks).tail_rep ks.length =
      (sortKeys ks).reverse := by
  have hinv := buildX_inv w ks hw hb hnd
  refine ⟨hinv.head_eq, hinv.tail_eq, ?_, ?_⟩
  · rw [hinv.head_eq]
    cases hm : listMinD ks with
    | none =>
      rw [listMinD_eq_none] at hm
      subst hm
      rfl
    | some m =>
      obtain ⟨hmmem, hmlb⟩ := listMinD_spec ks m hm
      have hfull : ks.filter (fun x => decide (m ≤ x)) = ks := by
        rw [List.filter_eq_self]
        intro x hx
        simpa using hmlb x hx
      have hwalk := walkR_filter w ks (buildX w ks) hinv hnd ks.length m hmmem
        (le_of_eq (congrArg List.length hfull))
      rw [hwalk, hfull]
  · rw [hinv.tail_eq]
    cases hm : listMaxD ks with
    | none =>
      rw [listMaxD_eq_none] at hm
      subst hm
      rfl
    | some m =>
      obtain ⟨hmmem, hmub⟩ := listMaxD_spec ks m hm
      have hfull : ks.filter (fun x => decide (x ≤ m)) = ks := by
        rw [List.filter_eq_self]
        intro x hx
        simpa using hmub x hx
      have hwalk := walkL_filter w ks (buildX w ks) hinv hnd ks.length m hmmem
        (le_of_eq (congrArg List.length hfull))
      rw [hwalk, hfull]

/-- Witness for C5 at `w = 4`, keys `[10, 3, 12]`. -/
theorem xfast_linked_list_witness :
    (1 ≤ 4 ∧ ([10, 3, 12] : List Nat).Nodup ∧
      (∀ k ∈ ([10, 3, 12] : List Nat), k < 2 ^ 4)) ∧
    ((buildX 4 [10, 3, 12]).head_rep = some 3 ∧
      (buildX 4 [10, 3, 12]).tail_rep = some 12 ∧
      walkRGo (buildX 4 [10, 3, 12]) (buildX 4 [10, 3, 12]).head_rep 3 =
        [3, 10, 12] ∧
      walkLGo (buildX 4 [10, 3, 12]) (buildX 4 [10, 3, 12]).tail_rep 3 =
        [12, 10, 3]) := by
  refine ⟨⟨by decide, by decide, by decide⟩, ?_⟩
  have h := xfast_linked_list 4 [10, 3, 12] (by decide) (by decide) (by decide)
  exact ⟨h.1.trans (by decide), h.2.1.trans (by decide),
    h.2.2.1.trans (by decide), h.2.2.2.trans (by decide)⟩

/-- Claim C6: after any sequence of insertions of distinct `w`-bit keys,
every prefix entry at level `l` with prefix `p` has `min_rep` and `max_rep`
set, both are inserted keys whose top `l` bits equal `p`, and every
inserted key whose top `l` bits equal `p` lies between them. -/
theorem xfast_minmax_prop (w : Nat) (ks : List Nat) (hw : 1 ≤ w)
    (hnd : ks.Nodup) (hb : ∀ k ∈ ks, k < 2 ^ w)
    (l p : Nat) (hl : 1 ≤ l) (hlw : l ≤ w) (v : XFastValue)
    (hv : List.lookup p ((buildX w ks).levels l) = some v) :
    ∃ mn mx, v.min_rep = some mn ∧ v.max_rep = some mx ∧
      mn ∈ ks ∧ mx ∈ ks ∧ mn >>> (w - l) = p ∧ mx >>> (w - l) = p ∧
      ∀ k ∈ ks, k >>> (w - l) = p → mn ≤ k ∧ k ≤ mx := by
  have hinv := buildX_inv w ks hw hb hnd
  obtain ⟨hmin, hmax⟩ := hinv.lev_minmax l p v hl hlw hv
  have hsome : (List.lookup p ((buildX w ks).levels l)).isSome = true := by
    simp [hv]
  obtain ⟨k0, hk0, hk0p⟩ := (hinv.lev_mem l p hl hlw).mp hsome
  have hk0c : k0 ∈ coneOf w ks l p := (mem_coneOf _ _ _ _ _).mpr ⟨hk0, hk0p⟩
  cases hmn : listMinD (coneOf w ks l p) with
  | none =>
    rw [listMinD_eq_none] at hmn
    rw [hmn] at hk0c
    exact absurd hk0c (List.not_mem_nil _)
  | some mn =>
    cases hmx : listMaxD (coneOf w ks l p) with
    | none =>
      rw [listMaxD_eq_none] at hmx
      rw [hmx] at hk0c
      exact absurd hk0c (List.not_mem_nil _)
    | some mx =>
      obtain ⟨hmnmem, hmnlb⟩ := listMinD_spec _ mn hmn
      obtain ⟨hmxmem, hmxub⟩ := listMaxD_spec _ mx hmx
      obtain ⟨hmnks, hmnp⟩ := (mem_coneOf _ _ _ _ _).mp hmnmem
      obtain ⟨hmxks, hmxp⟩ := (mem_coneOf _ _ _ _ _).mp hmxmem
      refine ⟨mn, mx, by rw [hmin, hmn], by rw [hmax, hmx], hmnks, hmxks,
        hmnp, hmxp, ?_⟩
      intro k hk hkp
      have hkc : k ∈ coneOf w ks l p := (mem_coneOf _ _ _ _ _).mpr ⟨hk, hkp⟩
      exact ⟨hmnlb k hkc, hmxub k hkc⟩

/-- Witness for C6 at `w = 4`, keys `[3]`, level `4`, prefix `3`. -/
theorem xfast_minmax_prop_witness :
    (1 ≤ 4 ∧ ([3] : List Nat).Nodup ∧ (∀ k ∈ ([3] : List Nat), k < 2 ^ 4) ∧
      1 ≤ 4 ∧ 4 ≤ 4 ∧
      List.lookup 3 ((buildX 4 [3]).levels 4) =
        some (XFastValue.mk none none (some 3) (some 3))) ∧
    (∃ mn mx, (XFastValue.mk none none (some 3) (some 3)).min_rep = some mn ∧
      (XFastValue.mk none none (some 3) (some 3)).max_rep = some mx ∧
      mn ∈ ([3] : List Nat) ∧ mx ∈ ([3] : List Nat) ∧
      mn >>> (4 - 4) = 3 ∧ mx >>> (4 - 4) = 3 ∧
      ∀ k ∈ ([3] : List Nat), k >>> (4 - 4) = 3 → mn ≤ k ∧ k ≤ mx) := by
  refine ⟨⟨by decide, by decide, by decide, by decide, by decide, rfl⟩, ?_⟩
  exact xfast_minmax_prop 4 [3] (by decide) (by decide) (by decide) 4 3
    (by decide) (by decide) (XFastValue.mk none none (some 3) (some 3)) rfl

/-- Concrete round-trip instance: three infixes `[5, 9, 22]` with
`remainder_size = 2` (quotients 1, 2, 5; remainders 1, 1, 2). -/
theorem infix_store_roundtrip_witness :
    (InfixStore.new_with_infixes [5, 9, 22] 2).elem_count = 3 ∧
    (InfixStore.new_with_infixes [5, 9, 22] 2).read_slot 1 = 1 := by
  have h := infix_store_roundtrip [5, 9, 22] 2 (by decide) (by decide) (by decide)
    (by decide) (by decide)
  refine ⟨h.1, ?_⟩
  have h2 := h.2.1 1 (by decide)
  rw [h2]
  decide

end RF
